import Mathlib

/-!
# PNG loader of trillek-client-core: filters, interlace expanders and inflater

A shallow embedding of `src/loaders/png.cpp` (namespace `trillek.png`) and of
`src/util/Compression.cpp` (namespace `trillek.util.algorithm`).

* The byte source `util::InputStream`, the checksum `Crc32` and the type
  `FourCC` come from headers that are not among the sources; they are modelled
  from the specification: a byte list with a position, and the CRC-32 of PNG.

* Bytes (`uint8_t`) are natural numbers below 256; every store into a byte
  buffer truncates with `% 256`.
* 32-bit unsigned values (`uint32_t`, `PNGLong`) are natural numbers and every
  operation on them that can wrap is followed by `% 2 ^ 32`.
* `size_t` indices and pointer offsets are natural numbers without wrap-around:
  they index buffers that exist in memory.
* Loops that the C++ code can run forever take fuel and answer `none` when the
  fuel is gone.
* In the inflater a call returns `Except.error` when it runs forever or has
  undefined behaviour, and the status objects `void_er` and `ErrorReturn<T>`
  are pairs of a value and an error code.
-/

namespace trillek.png

/-! ## The Paeth predictor -/

/-- Embedding of `PaethFunction(uint8_t a, uint8_t b, uint8_t c)`: the three
distances are computed in `int32_t`, which cannot wrap for byte arguments. -/
def PaethFunction (a b c : Nat) : Nat :=
  let p : Int := (a : Int) + (b : Int) - (c : Int)
  let pa : Int := p - (a : Int)
  let pb : Int := p - (b : Int)
  let pc : Int := p - (c : Int)
  let pa : Int := if pa < 0 then -pa else pa
  let pb : Int := if pb < 0 then -pb else pb
  let pc : Int := if pc < 0 then -pc else pc
  if pa ≤ pb ∧ pa ≤ pc then a
  else if pb ≤ pc then b
  else c

/-! ## Buffers -/

/-- The writable byte region returned by `LockWrite()`, addressed by the offset
from its first byte, together with a log of the accesses made so far:
`writes` lists the offsets stored to and `reads` the indices of the serialized
byte stream that were read (latest first). The region itself has
`pitch * height` bytes; a store at a larger offset is a store outside of it. -/
structure Mem where
  bytes : Nat → Nat
  writes : List Nat
  reads : List Nat

/-- Store into a `uint8_t` cell: `buffer[off] = v`. -/
def Mem.store (s : Mem) (off v : Nat) : Mem :=
  { s with bytes := fun i => if i = off then v % 256 else s.bytes i, writes := off :: s.writes }

/-- Record a read of the serialized byte stream at index `idx`. -/
def Mem.load (s : Mem) (idx : Nat) : Mem :=
  { s with reads := idx :: s.reads }

/-- What `outupbuffer` points to: a buffer of its own (the local `zero[16]`
array, or a caller's row) or a place inside the pixel region. -/
inductive UpBuffer where
  | ext (row : List Nat)
  | pix (off : Nat)

/-- The byte `outupbuffer[i]`. -/
def UpBuffer.read (u : UpBuffer) (s : Mem) (i : Nat) : Nat :=
  match u with
  | .ext row => row.getD i 0
  | .pix off => s.bytes (off + i)

/-- The arguments of `ProcessScanlineR`. `inbuffer` is `linedata.data() + inoff`
and `outbuffer` is the pixel region's start plus `outoff`. -/
structure ScanArgs where
  linedata : List Nat
  inoff : Nat
  inbuffersize : Nat
  outupbuffer : UpBuffer
  outoff : Nat
  outbuffersize : Nat
  pixelwidth : Nat
  outstep : Nat
  outupstep : Nat

/-- The pixel cursors of the reconstruction loops. A filter that does not
declare one of them never uses the bytes read through it. -/
structure Cursor where
  outpixel : Nat
  lastpixel : Nat
  uppixel : Nat
  lastuppixel : Nat

/-- How an inner loop is left: by `return`, or by running to its end with the
input position `inbyte`. -/
inductive Flow where
  | ret (s : Mem)
  | next (inbyte : Nat) (s : Mem)

/-! ## Scanline reconstruction filters -/

/-- The inner loop `for(pixelbyte = 0; pixelbyte < pixelwidth; pixelbyte++)` of
the `ProcessScanlineR` functions, with `k` iterations left. Each iteration
returns when `outpixel + pixelbyte >= outbuffersize`, and otherwise reads
`x = inbuffer[inbyte++]`, `a = outbuffer[lastpixel + pixelbyte]`,
`b = outupbuffer[uppixel + pixelbyte]`, `c = outupbuffer[lastuppixel + pixelbyte]`
and stores `f x a b c` to `outbuffer[outpixel + pixelbyte]`. -/
def pixelBytes (f : Nat → Nat → Nat → Nat → Nat) (A : ScanArgs) (c : Cursor) :
    Nat → Nat → Nat → Mem → Flow
  | 0, _, inbyte, s => .next inbyte s
  | k + 1, pixelbyte, inbyte, s =>
    if c.outpixel + pixelbyte ≥ A.outbuffersize then .ret s
    else
      let x := A.linedata.getD (A.inoff + inbyte) 0
      let a := s.bytes (A.outoff + (c.lastpixel + pixelbyte))
      let b := A.outupbuffer.read s (c.uppixel + pixelbyte)
      let c' := A.outupbuffer.read s (c.lastuppixel + pixelbyte)
      pixelBytes f A c k (pixelbyte + 1) (inbyte + 1)
        ((s.load (A.inoff + inbyte)).store (A.outoff + (c.outpixel + pixelbyte)) (f x a b c'))

/-- The outer loop `for(...; inbyte < inbuffersize; outpixel += outstep)` of the
`ProcessScanlineR` functions; after each pixel `lastpixel = outpixel`,
`lastuppixel = uppixel` and `uppixel += outupstep`. The loop does not end when
`pixelwidth` is 0, so it takes fuel; with `pixelwidth >= 1` every round reads
at least one byte and `inbuffersize + 1` rounds of fuel are enough. -/
def scanPixels (f : Nat → Nat → Nat → Nat → Nat) (A : ScanArgs) :
    Nat → Cursor → Nat → Mem → Option Mem
  | 0, _, _, _ => none
  | fuel + 1, c, inbyte, s =>
    if inbyte < A.inbuffersize then
      match pixelBytes f A c A.pixelwidth 0 inbyte s with
      | .ret s' => some s'
      | .next inbyte' s' =>
        scanPixels f A fuel
          ⟨c.outpixel + A.outstep, c.outpixel, c.uppixel + A.outupstep, c.uppixel⟩ inbyte' s'
    else some s

/-- Embedding of `FilterType::ProcessScanlineR` (filter type 0, None). -/
def FilterType.ProcessScanlineR (A : ScanArgs) (s : Mem) : Option Mem :=
  scanPixels (fun x _ _ _ => x) A (A.inbuffersize + 1) ⟨0, 0, 0, 0⟩ 0 s

/-- Embedding of `FilterTypeSub::ProcessScanlineR` (filter type 1): the first
pixel is copied, the others get `x + a`. -/
def FilterTypeSub.ProcessScanlineR (A : ScanArgs) (s : Mem) : Option Mem :=
  match pixelBytes (fun x _ _ _ => x) A ⟨0, 0, 0, 0⟩ A.pixelwidth 0 0 s with
  | .ret s' => some s'
  | .next inbyte s' =>
    scanPixels (fun x a _ _ => x + a) A (A.inbuffersize + 1)
      ⟨A.outstep, 0, A.outupstep, 0⟩ inbyte s'

/-- Embedding of `FilterTypeUp::ProcessScanlineR` (filter type 2): `x + b`. -/
def FilterTypeUp.ProcessScanlineR (A : ScanArgs) (s : Mem) : Option Mem :=
  scanPixels (fun x _ b _ => x + b) A (A.inbuffersize + 1) ⟨0, 0, 0, 0⟩ 0 s

/-- Embedding of `FilterTypeAverage::ProcessScanlineR` (filter type 3): the
first pixel is copied, the others get `x + (uint8_t)((a + b) >> 1)`. -/
def FilterTypeAverage.ProcessScanlineR (A : ScanArgs) (s : Mem) : Option Mem :=
  match pixelBytes (fun x _ _ _ => x) A ⟨0, 0, 0, 0⟩ A.pixelwidth 0 0 s with
  | .ret s' => some s'
  | .next inbyte s' =>
    scanPixels (fun x a b _ => x + ((a + b) / 2) % 256) A (A.inbuffersize + 1)
      ⟨A.outstep, 0, A.outupstep, 0⟩ inbyte s'

/-- Embedding of `FilterTypePaeth::ProcessScanlineR` (filter type 4): the first
pixel gets `x + PaethFunction(0, b, 0)`, the others `x + PaethFunction(a, b, c)`. -/
def FilterTypePaeth.ProcessScanlineR (A : ScanArgs) (s : Mem) : Option Mem :=
  match pixelBytes (fun x _ b _ => x + PaethFunction 0 b 0) A ⟨0, 0, 0, 0⟩ A.pixelwidth 0 0 s with
  | .ret s' => some s'
  | .next inbyte s' =>
    scanPixels (fun x a b c => x + PaethFunction a b c) A (A.inbuffersize + 1)
      ⟨A.outstep, 0, A.outupstep, 0⟩ inbyte s'

/-- Embedding of `struct FilterMethodTable`. -/
structure FilterMethodTable where
  count : Nat
  items : List (ScanArgs → Mem → Option Mem)

/-- The table `filtermethod` that `Load` builds. -/
def filtermethod : FilterMethodTable where
  count := 5
  items := [FilterType.ProcessScanlineR, FilterTypeSub.ProcessScanlineR,
    FilterTypeUp.ProcessScanlineR, FilterTypeAverage.ProcessScanlineR,
    FilterTypePaeth.ProcessScanlineR]

/-! ## Interlace expanders -/

/-- Embedding of `struct PNGHeader`; `width` and `height` are `PNGLong`
(32-bit) values, the other fields are bytes. -/
structure PNGHeader where
  width : Nat
  height : Nat
  depth : Nat
  colortype : Nat
  compression : Nat
  filter : Nat
  interlace : Nat

/-- Modelled from the spec: the pixel buffer, whose class
(`resources/pixel-buffer.hpp`) is not part of the sources. It exposes `pitch`
(bytes between consecutive rows), `lock_write()` giving a writable byte region
or null, and `unlock_write()`. `lockok` says whether `LockWrite()` gives a
region, `locks` and `unlocks` count the calls made. Row pointers are the
region's start plus multiples of `pitch`, computed without wrap-around. -/
structure PixelBuffer where
  pitch : Nat
  lockok : Bool
  mem : Mem
  locks : Nat
  unlocks : Nat

/-- Embedding of the data members of `class InterlaceType`. -/
structure InterlaceType where
  filters : FilterMethodTable
  header : PNGHeader
  pixelbytes : Nat
  linelength : Nat
  pass : Nat
  line : Nat
  inpos : Nat

/-- Embedding of the constructor `InterlaceType::InterlaceType`. The
constructor leaves `linelength` unassigned for indexed colour at depths 1, 2
and 4; `uninit` is the indeterminate value the member then holds. -/
def InterlaceType.new (ftable : FilterMethodTable) (head : PNGHeader) (uninit : Nat) :
    InterlaceType :=
  let it : InterlaceType := ⟨ftable, head, 0, uninit, 0, 0, 0⟩
  if head.depth = 1 then
    if head.colortype = 3 then { it with pixelbytes := 4 }
    else { it with pixelbytes := 1,
                   linelength := (head.width / 8 + (if head.width &&& 7 ≠ 0 then 1 else 0)) % 2 ^ 32 }
  else if head.depth = 2 then
    if head.colortype = 3 then { it with pixelbytes := 4 }
    else { it with pixelbytes := 1,
                   linelength := (head.width / 4 + (if head.width &&& 3 ≠ 0 then 1 else 0)) % 2 ^ 32 }
  else if head.depth = 4 then
    if head.colortype = 3 then { it with pixelbytes := 4 }
    else { it with pixelbytes := 1,
                   linelength := (head.width / 2 + (if head.width &&& 1 ≠ 0 then 1 else 0)) % 2 ^ 32 }
  else if head.depth = 8 ∨ head.depth = 16 then
    let pixelbytes :=
      if head.colortype = 0 then head.depth / 8
      else if head.colortype = 2 then 3 * (head.depth / 8)
      else if head.colortype = 3 then 4
      else if head.colortype = 4 then 2 * (head.depth / 8)
      else if head.colortype = 6 then 4 * (head.depth / 8)
      else 0
    { it with pixelbytes := pixelbytes, linelength := (head.width * pixelbytes) % 2 ^ 32 }
  else { it with pixelbytes := 0, linelength := 0 }

/-- The local array `uint8_t zero[16]` after it has been cleared. -/
def zero : List Nat := List.replicate 16 0

/-- The dispatch `if(ft < filters.count) filters.items[ft]->ProcessScanlineR(...)`.
An entry of `items` that was never set has no defined behaviour (`none`). -/
def callFilter (filters : FilterMethodTable) (ft : Nat) (A : ScanArgs) (m : Mem) : Option Mem :=
  if ft < filters.count then
    match filters.items.get? ft with
    | some f => f A m
    | none => none
  else some m

/-- How the code handling one scanline is left: by `return 0` out of
`Deinterlace`, or by going on. -/
inductive LineFlow where
  | ret (it : InterlaceType) (m : Mem)
  | next (it : InterlaceType) (m : Mem)

/-- The steps both expanders take for each scanline:
`ft = linedata[inpos++]; if(inpos + len > maxlen) return 0;`
`if(ft < filters.count) filters.items[ft]->ProcessScanlineR(linedata.data() + inpos, len, up, out, outsize, pixelbytes, step, upstep);`
`inpos += len;` where `inpos`, `len` and `maxlen` are `uint32_t`. -/
def processLine (it : InterlaceType) (linedata : List Nat) (maxlen len : Nat) (up : UpBuffer)
    (outoff outsize step upstep : Nat) (m : Mem) : Option LineFlow :=
  let ft := linedata.getD it.inpos 0
  let m := m.load it.inpos
  let it := { it with inpos := (it.inpos + 1) % 2 ^ 32 }
  if (it.inpos + len) % 2 ^ 32 > maxlen then some (.ret it m)
  else
    match callFilter it.filters ft
        ⟨linedata, it.inpos, len, up, outoff, outsize, it.pixelbytes, step, upstep⟩ m with
    | none => none
    | some m' => some (.next { it with inpos := (it.inpos + len) % 2 ^ 32 } m')

/-- The loop `for(;line < header.height; line++)` of `InterlaceType::Deinterlace`
with `k` iterations left; `upoff` and `outoff` are `pixelupline_ptr` and
`pixelline_ptr` as offsets into the pixel region. -/
def lineLoop (linedata : List Nat) (maxlen pitch : Nat) :
    Nat → Nat → Nat → InterlaceType → Mem → Option LineFlow
  | 0, _, _, it, m => some (.next it m)
  | k + 1, upoff, outoff, it, m =>
    match processLine it linedata maxlen it.linelength (.pix upoff) outoff it.linelength
        it.pixelbytes it.pixelbytes m with
    | none => none
    | some (.ret it' m') => some (.ret it' m')
    | some (.next it' m') =>
      lineLoop linedata maxlen pitch k outoff (outoff + pitch) { it' with line := it'.line + 1 } m'

/-- Embedding of `InterlaceType::Deinterlace` (interlace method 0). The result
is `none` when a filter call does not return. -/
def InterlaceType.Deinterlace (it : InterlaceType) (linedata : List Nat) (pix : PixelBuffer) :
    Option (InterlaceType × PixelBuffer) :=
  if linedata.length < (it.header.height + (it.header.height * it.linelength) % 2 ^ 32) % 2 ^ 32 then
    some (it, pix)
  else
    let pix := { pix with locks := pix.locks + 1 }
    let maxlen := linedata.length % 2 ^ 32
    if pix.lockok = false then some (it, pix)
    else
      let first :=
        if it.line = 0 then
          processLine it linedata maxlen it.linelength (.ext zero) 0 it.linelength
            it.pixelbytes 0 pix.mem
        else some (.next it pix.mem)
      match first with
      | none => none
      | some (.ret it1 m1) => some (it1, { pix with mem := m1 })
      | some (.next it1 m1) =>
        match lineLoop linedata maxlen pix.pitch (it1.header.height - it1.line) 0 pix.pitch it1 m1 with
        | none => none
        | some (.ret it2 m2) => some (it2, { pix with mem := m2 })
        | some (.next it2 m2) => some (it2, { pix with mem := m2, unlocks := pix.unlocks + 1 })

/-- The table `pass_coloffset`. -/
def pass_coloffset : List Nat := [0, 4, 0, 2, 0, 1, 0]

/-- The table `pass_colstep`. -/
def pass_colstep : List Nat := [8, 8, 4, 4, 2, 2, 1]

/-- The table `pass_rowoffset`. -/
def pass_rowoffset : List Nat := [0, 0, 4, 0, 2, 0, 1]

/-- The table `pass_rowstep`. -/
def pass_rowstep : List Nat := [8, 8, 8, 4, 4, 2, 2]

/-- The scanline length `passlinelength` that `InterlaceTypeAdam7::Deinterlace`
computes for pass index `pass` (0..6):
`passlinelength = header.width / pass_colstep[pass];`
`if(pass_coloffset[pass] > header.width & 0x7) passlinelength--;`
`passlinelength *= pixelbytes;` in `uint32_t`. The comparison binds tighter
than `&`, so the test is `(pass_coloffset[pass] > header.width) & 0x7`. -/
def passlinelength (width pixelbytes pass : Nat) : Nat :=
  let l := width / pass_colstep.getD pass 0
  let l := if (if pass_coloffset.getD pass 0 > width then 1 else 0) &&& 7 ≠ 0
    then (l + 2 ^ 32 - 1) % 2 ^ 32 else l
  (l * pixelbytes) % 2 ^ 32

/-- The loop `for(line = ...; line < header.height; line += pass_rowstep[pass])`
of `InterlaceTypeAdam7::Deinterlace`. `line` is a `uint32_t` and can wrap, so
the loop takes fuel; `line` and `inpos` repeat after at most `2 ^ 32` rounds,
so a loop that has not ended by then never ends. -/
def adam7Rows (linedata : List Nat) (maxlen pitch len outsize stepcolbytes rowstep : Nat) :
    Nat → Nat → Nat → InterlaceType → Mem → Option LineFlow
  | 0, _, _, _, _ => none
  | fuel + 1, upoff, outoff, it, m =>
    if it.line < it.header.height then
      match processLine it linedata maxlen len (.pix upoff) outoff outsize
          stepcolbytes stepcolbytes m with
      | none => none
      | some (.ret it' m') => some (.ret it' m')
      | some (.next it' m') =>
        adam7Rows linedata maxlen pitch len outsize stepcolbytes rowstep fuel outoff
          (outoff + pitch * rowstep) { it' with line := (it'.line + rowstep) % 2 ^ 32 } m'
    else some (.next it m)

/-- The body of the loop over the passes of `InterlaceTypeAdam7::Deinterlace`,
for the pass `it.pass`. -/
def adam7Pass (it : InterlaceType) (linedata : List Nat) (maxlen pitch : Nat) (m : Mem) :
    Option LineFlow :=
  let len := passlinelength it.header.width it.pixelbytes it.pass
  let offsetcolbytes := (pass_coloffset.getD it.pass 0 * it.pixelbytes) % 2 ^ 32
  let stepcolbytes := (pass_colstep.getD it.pass 0 * it.pixelbytes) % 2 ^ 32
  let outoff := offsetcolbytes + pitch * pass_rowoffset.getD it.pass 0
  let outsize := ((it.header.width * it.pixelbytes) % 2 ^ 32 + 2 ^ 32 - offsetcolbytes) % 2 ^ 32
  match processLine it linedata maxlen len (.ext zero) outoff outsize stepcolbytes 0 m with
  | none => none
  | some (.ret it' m') => some (.ret it' m')
  | some (.next it' m') =>
    adam7Rows linedata maxlen pitch len outsize stepcolbytes (pass_rowstep.getD it.pass 0)
      (2 ^ 32 + 1) outoff (outoff + pitch * pass_rowstep.getD it.pass 0)
      { it' with line := (pass_rowoffset.getD it.pass 0 + pass_rowstep.getD it.pass 0) % 2 ^ 32 } m'

/-- The loop `for(;pass < 7; pass++)` of `InterlaceTypeAdam7::Deinterlace` with
`k` iterations left. -/
def passLoop (linedata : List Nat) (maxlen pitch : Nat) :
    Nat → InterlaceType → Mem → Option LineFlow
  | 0, it, m => some (.next it m)
  | k + 1, it, m =>
    match adam7Pass it linedata maxlen pitch m with
    | none => none
    | some (.ret it' m') => some (.ret it' m')
    | some (.next it' m') => passLoop linedata maxlen pitch k { it' with pass := it'.pass + 1 } m'

/-- Embedding of `InterlaceTypeAdam7::Deinterlace` (interlace method 1). The
result is `none` when a loop does not end. -/
def InterlaceTypeAdam7.Deinterlace (it : InterlaceType) (linedata : List Nat) (pix : PixelBuffer) :
    Option (InterlaceType × PixelBuffer) :=
  let pix := { pix with locks := pix.locks + 1 }
  let maxlen := linedata.length % 2 ^ 32
  if pix.lockok = false then some (it, pix)
  else
    match passLoop linedata maxlen pix.pitch (7 - it.pass) it pix.mem with
    | none => none
    | some (.ret it' m') => some (it', { pix with mem := m' })
    | some (.next it' m') => some (it', { pix with mem := m', unlocks := pix.unlocks + 1 })

/-- The byte the reconstruction loops store at position `i` of a row, for a
filter that applies `f0` to the first pixel and `f` to the later ones; `B`
lists the bytes of the row above and `s0` is the memory before the call. -/
def rowByte (f0 f : Nat → Nat → Nat → Nat → Nat) (A : ScanArgs) (B : Nat → Nat) (s0 s : Mem)
    (i : Nat) : Nat :=
  if i < A.pixelwidth then
    f0 (A.linedata.getD (A.inoff + i) 0) (s0.bytes (A.outoff + i)) (B i) (B i) % 256
  else
    f (A.linedata.getD (A.inoff + i) 0) (s.bytes (A.outoff + (i - A.pixelwidth))) (B i)
      (B (i - A.pixelwidth)) % 256

/-- Invariant of the reconstruction loops after `i` bytes of the row: nothing
outside the first `i` bytes of the row has changed, and each of those bytes is
its `rowByte`. -/
structure RowInv (f0 f : Nat → Nat → Nat → Nat → Nat) (A : ScanArgs) (B : Nat → Nat)
    (s0 s : Mem) (i : Nat) : Prop where
  frame : ∀ off, off < A.outoff ∨ A.outoff + i ≤ off → s.bytes off = s0.bytes off
  done : ∀ t, t < i → s.bytes (A.outoff + t) = rowByte f0 f A B s0 s t

/-- The bytes the loops read through `outupbuffer` for the row of `n` bytes
are the bytes `B`, whatever is stored into the row meanwhile. -/
def UpMatches (A : ScanArgs) (B : Nat → Nat) (s0 : Mem) (n : Nat) : Prop :=
  ∀ s' : Mem, (∀ off, off < A.outoff ∨ A.outoff + n ≤ off → s'.bytes off = s0.bytes off) →
    ∀ j pb, pb < A.pixelwidth → j * A.pixelwidth + pb < n →
      A.outupbuffer.read s' (j * A.outupstep + pb) = B (j * A.pixelwidth + pb)

/-- The byte function a filter type applies to the first pixel. -/
def firstByte (ft : Nat) : Nat → Nat → Nat → Nat → Nat :=
  match ft with
  | 2 => fun x _ b _ => x + b
  | 4 => fun x _ b _ => x + PaethFunction 0 b 0
  | _ => fun x _ _ _ => x

/-- The byte function a filter type applies to the later pixels. -/
def laterByte (ft : Nat) : Nat → Nat → Nat → Nat → Nat :=
  match ft with
  | 1 => fun x a _ _ => x + a
  | 2 => fun x _ b _ => x + b
  | 3 => fun x a b _ => x + ((a + b) / 2) % 256
  | 4 => fun x a b c => x + PaethFunction a b c
  | _ => fun x _ _ _ => x

/-- The row above has the `n` bytes the filter reads and does not overlap the
`n` bytes written at offset `lo`. -/
def UpBuffer.Apart (up : UpBuffer) (lo n : Nat) : Prop :=
  match up with
  | .ext row => n ≤ row.length
  | .pix off => off + n ≤ lo ∨ lo + n ≤ off

/-- A zero-filled memory with empty logs. -/
def Mem.fresh : Mem := ⟨fun _ => 0, [], []⟩

/-- The memory a flow carries. -/
def Flow.mem : Flow → Mem
  | .ret s => s
  | .next _ s => s

/-- The memory a flow carries. -/
def LineFlow.mem : LineFlow → Mem
  | .ret _ m => m
  | .next _ m => m

/-- The interlace state a flow carries. -/
def LineFlow.it : LineFlow → InterlaceType
  | .ret it _ => it
  | .next it _ => it

/-- Spec side: the columns of an image `width` wide that pass
`pass` (index 0..6) samples, `col_offset, col_offset + col_step, ...`. -/
def passColumns (width pass : Nat) : List Nat :=
  (List.range width).filter
    (fun x => decide (pass_coloffset.getD pass 0 ≤ x ∧
      (x - pass_coloffset.getD pass 0) % pass_colstep.getD pass 1 = 0))

/-- Spec side: the rows that pass `pass` samples. -/
def passLines (height pass : Nat) : List Nat :=
  (List.range height).filter
    (fun y => decide (pass_rowoffset.getD pass 0 ≤ y ∧
      (y - pass_rowoffset.getD pass 0) % pass_rowstep.getD pass 1 = 0))

/-- Spec side: the Adam7 serialization of a raster with filter
type None on every scanline: seven passes, each a sequence of scanlines made of
a filter byte and the sampled pixels; a pass with no column or no row
contributes nothing. -/
def adam7Scanlines (width height pixelbytes : Nat) (raster : List Nat) : List Nat :=
  ((List.range 7).map (fun pass =>
    if passColumns width pass = [] then []
    else ((passLines height pass).map (fun y =>
      0 :: ((passColumns width pass).map (fun x =>
        (List.range pixelbytes).map (fun b => raster.getD ((y * width + x) * pixelbytes + b) 0))).flatten)).flatten)).flatten

/-- Spec side: the non-interlaced serialization of a raster with
filter type None on every scanline. -/
def nullScanlines (width height pixelbytes : Nat) (raster : List Nat) : List Nat :=
  ((List.range height).map (fun y =>
    0 :: (raster.drop (y * (width * pixelbytes))).take (width * pixelbytes))).flatten

/-- The 8x8 8-bit grayscale checkerboard. -/
def checkerboard : List Nat :=
  (List.range 64).map (fun i => if (i / 8 + i % 8) % 2 = 0 then 0 else 255)

/-- Spec side: samples per pixel of a colour type. -/
def samplesPerPixel (colortype : Nat) : Nat :=
  match colortype with
  | 0 => 1
  | 2 => 3
  | 3 => 1
  | 4 => 2
  | 6 => 4
  | _ => 0

/-- Spec side: `bytes_per_row = ceil(width * bit_depth * samples_per_pixel / 8)`. -/
def bytesPerRow (width depth colortype : Nat) : Nat :=
  (width * depth * samplesPerPixel colortype + 7) / 8

/-- Spec side: the (bit depth, colour type) pairs PNG permits. -/
def validPair (depth colortype : Nat) : Prop :=
  (colortype = 0 ∧ (depth = 1 ∨ depth = 2 ∨ depth = 4 ∨ depth = 8 ∨ depth = 16)) ∨
  (colortype = 3 ∧ (depth = 1 ∨ depth = 2 ∨ depth = 4 ∨ depth = 8)) ∨
  ((colortype = 2 ∨ colortype = 4 ∨ colortype = 6) ∧ (depth = 8 ∨ depth = 16))

/-- Spec side: the width `ceil((width - col_offset) / col_step)` of
the sub-image of pass `pass` (index 0..6), 0 when `width <= col_offset`. -/
def passWidth (width pass : Nat) : Nat :=
  (width - pass_coloffset.getD pass 0 + pass_colstep.getD pass 1 - 1) / pass_colstep.getD pass 1

end trillek.png

namespace trillek.util.algorithm

/-! ## Status values and the bit-stream reader (`src/util/Compression.cpp`) -/

/-- Modelled from the spec: `void_er` of `util/UtilType.hpp`, a header that is
not among the sources. It is the status a function returns: `error_code` is 0
for success (`void_er()`, `void_er(0)`), 1 for "not enough data" and negative
for fatal errors; `void_er(c, text)` and `void_er(c)` carry the code `c`, and
the conversion to `bool` used by `if(ret)` is `error_code != 0`. The text is not
modelled. -/
structure void_er where
  error_code : Int
deriving DecidableEq

/-- Modelled from the spec: `ErrorReturn<T>` of `util/UtilType.hpp`, a value
together with a status code; `ErrorReturn<T>(v)` has code 0 and
`ErrorReturn<T>(v, c, text)` has code `c`. Assigning it to a `void_er` keeps the
code and yields the value, as in `(ret = instream.GetBits(5)) + 257`. -/
structure ErrorReturn where
  value : Nat
  error_code : Int
deriving DecidableEq

/-- The status part of an `ErrorReturn`, as stored by `ret = ...`. -/
def ErrorReturn.status (r : ErrorReturn) : void_er := ⟨r.error_code⟩

/-- The conversion `st.value<T>(v)`: the status `st` with the value `v`. -/
def void_er.value (st : void_er) (v : Nat) : ErrorReturn := ⟨v, st.error_code⟩

/-- The ways in which a call does not return a result. -/
inductive Fault where
  /-- The call loops forever. -/
  | diverges
  /-- The call has undefined behaviour: a shift by the width of the type or an
  array access outside the array. -/
  | undefined
deriving DecidableEq

/-- Results of calls can be compared. -/
instance decEqExcept {ε α : Type} [DecidableEq ε] [DecidableEq α] : DecidableEq (Except ε α) :=
  fun a b =>
    match a, b with
    | .ok x, .ok y =>
      if h : x = y then isTrue (by rw [h]) else isFalse (fun h1 => h (Except.ok.inj h1))
    | .error x, .error y =>
      if h : x = y then isTrue (by rw [h]) else isFalse (fun h1 => h (Except.error.inj h1))
    | .ok _, .error _ => isFalse (fun h => Except.noConfusion h)
    | .error _, .ok _ => isFalse (fun h => Except.noConfusion h)

/-- The fields of `BitStreamDecoder`. `indata` is the byte string (bytes are
natural numbers below 256), `num_bits` and `bit_buffer` are `uint32_t`; `inpos`
is an index into `indata` and never exceeds its length. -/
structure BitStreamDecoder where
  indata : List Nat
  inpos : Nat
  num_bits : Nat
  bit_buffer : Nat
deriving DecidableEq

/-- Embedding of the constructor `BitStreamDecoder::BitStreamDecoder()`. -/
def BitStreamDecoder.new : BitStreamDecoder :=
  { indata := [], inpos := 0, num_bits := 0, bit_buffer := 0 }

/-- Embedding of `BitStreamDecoder::AppendData`. -/
def BitStreamDecoder.AppendData (s : BitStreamDecoder) (data : List Nat) :
    void_er × BitStreamDecoder :=
  (⟨0⟩, { s with indata := s.indata ++ data })

/-- Embedding of `BitStreamDecoder::LoadByte`. The byte is promoted to `int`,
shifted by at most 24 places and converted to `uint32_t`. -/
def BitStreamDecoder.LoadByte (s : BitStreamDecoder) : void_er × BitStreamDecoder :=
  if s.num_bits ≤ 24 then
    if ¬ (s.bit_buffer < 1 <<< s.num_bits) then (⟨-2⟩, s)
    else if s.inpos < s.indata.length then
      (⟨0⟩, { s with
        inpos := s.inpos + 1
        bit_buffer := s.bit_buffer ||| ((s.indata.getD s.inpos 0 <<< s.num_bits) % 2 ^ 32)
        num_bits := (s.num_bits + 8) % 2 ^ 32 })
    else (⟨1⟩, s)
  else (⟨0⟩, s)

/-- The loop `while(num_bits < n) { ret = LoadByte(); if(ret) return ret; }` of
`Require`. A call of `LoadByte` that returns 0 either adds 8 to `num_bits`,
which happens at most four times before `num_bits` exceeds 24, or changes
nothing; so the loop runs forever exactly when the fuel 5 is used up. -/
def BitStreamDecoder.requireLoop (n : Nat) :
    Nat → BitStreamDecoder → Option (void_er × BitStreamDecoder)
  | 0, _ => none
  | fuel + 1, s =>
    if s.num_bits < n then
      let r := s.LoadByte
      if r.1.error_code ≠ 0 then some r else requireLoop n fuel r.2
    else some (⟨0⟩, s)

/-- Embedding of `BitStreamDecoder::Require(uint32_t n)`. For `n > 24` the
parameter itself is reduced by `num_bits` (in `uint32_t`) and the loop runs
with the reduced value. -/
def BitStreamDecoder.Require (s : BitStreamDecoder) (n : Nat) :
    Except Fault (void_er × BitStreamDecoder) :=
  let n1 := if n > 24 then (n + 2 ^ 32 - s.num_bits) % 2 ^ 32 else n
  let nbytes := if n1 &&& 7 ≠ 0 then (n1 >>> 3) + 1 else n1 >>> 3
  if n > 24 ∧ s.indata.length - s.inpos < nbytes then .ok (⟨1⟩, s)
  else
    match BitStreamDecoder.requireLoop n1 5 s with
    | none => .error .diverges
    | some r => .ok r

/-- Embedding of `BitStreamDecoder::LoadFull`: every path through the body of
its `while(num_bits <= 24)` loop returns, so at most one byte is loaded. -/
def BitStreamDecoder.LoadFull (s : BitStreamDecoder) : void_er × BitStreamDecoder :=
  if s.num_bits ≤ 24 then
    if ¬ (s.bit_buffer < 1 <<< s.num_bits) then (⟨-2⟩, s)
    else if s.inpos < s.indata.length then
      (⟨0⟩, { s with
        inpos := s.inpos + 1
        bit_buffer := s.bit_buffer ||| ((s.indata.getD s.inpos 0 <<< s.num_bits) % 2 ^ 32)
        num_bits := (s.num_bits + 8) % 2 ^ 32 })
    else (⟨1⟩, s)
  else (⟨0⟩, s)

/-- Embedding of `BitStreamDecoder::GetBits(uint32_t n)`. With `n = 32` the
expressions `1u << n` and `bit_buffer >>= n` shift a 32-bit value by 32 places,
which is undefined. `num_bits -= n` is a `uint32_t` subtraction. -/
def BitStreamDecoder.GetBits (s : BitStreamDecoder) (n : Nat) :
    Except Fault (ErrorReturn × BitStreamDecoder) :=
  if n > 32 then .ok (⟨0, -5⟩, s)
  else
    let r : void_er × BitStreamDecoder := if s.num_bits < n then s.LoadFull else (⟨0⟩, s)
    if s.num_bits < n ∧ r.2.num_bits < n ∧ r.1.error_code ≠ 0 then .ok (r.1.value 0, r.2)
    else if n = 32 then .error .undefined
    else
      .ok (⟨r.2.bit_buffer &&& ((1 <<< n) - 1), 0⟩,
        { r.2 with
          bit_buffer := r.2.bit_buffer >>> n
          num_bits := (r.2.num_bits + 2 ^ 32 - n) % 2 ^ 32 })

/-! ## Canonical Huffman tables -/

/-- Modelled from the spec: `BitReverse(v, bits)` of `util/UtilType.hpp`, a
header that is not among the sources: the lowest `bits` bits of `v` in reverse
order (bit 0 of `v` becomes bit `bits - 1` of the result). -/
def BitReverse (v : Nat) : Nat → Nat
  | 0 => 0
  | bits + 1 => (v % 2) * 2 ^ bits + BitReverse (v / 2) bits

/-- An array with one element replaced. -/
def upd (f : Nat → Nat) (i v : Nat) : Nat → Nat :=
  fun j => if j = i then v else f j

/-- The tables of `Huffman`: `fast[512]`, `firstcode[16]`, `maxcode[17]`,
`firstsymbol[16]`, `size[288]` and `value[288]`, each as a function of the
index. The array bounds are checked where the code indexes with a value that
it has not bounded. -/
structure Huffman where
  fast : Nat → Nat
  firstcode : Nat → Nat
  maxcode : Nat → Nat
  firstsymbol : Nat → Nat
  size : Nat → Nat
  value : Nat → Nat

/-- The object made by `new Huffman()`: all tables zero. -/
def Huffman.new : Huffman :=
  { fast := fun _ => 0, firstcode := fun _ => 0, maxcode := fun _ => 0,
    firstsymbol := fun _ => 0, size := fun _ => 0, value := fun _ => 0 }

/-- The first loop of `Huffman::Build`:
`if(!(sizelist[i] <= 16)) return void_er(-5, ...); ++sizes[sizelist[i]];`
over the entries of the list; `none` is the early return. -/
def countSizes : List Nat → (Nat → Nat) → Option (Nat → Nat)
  | [], sizes => some sizes
  | x :: xs, sizes =>
    if ¬ (x ≤ 16) then none
    else countSizes xs (upd sizes x ((sizes x + 1) % 2 ^ 32))

/-- The second loop of `Huffman::Build`: `sizes[i] <= (1u << i)` for
`i = 1 .. 15`. -/
def checkSizes (sizes : Nat → Nat) : Bool :=
  (List.range' 1 15).all fun i => decide (sizes i ≤ 1 <<< i)

/-- The local variables `code`, `symbol` and `next_code` of `Huffman::Build`
together with the tables under construction. -/
structure BuildState where
  code : Nat
  symbol : Nat
  next_code : Nat → Nat
  h : Huffman

/-- The third loop of `Huffman::Build`, from level `i` on (`fuel` levels are
left); the flag is false when the loop returns "Bad codelengths". `code` and
`symbol` are `uint16_t`, and `code - 1u` is computed in `unsigned`. -/
def firstCodes (sizes : Nat → Nat) : Nat → Nat → BuildState → Bool × BuildState
  | 0, _, st => (true, st)
  | fuel + 1, i, st =>
    let st1 : BuildState :=
      { st with
        next_code := upd st.next_code i st.code
        h := { st.h with
          firstcode := upd st.h.firstcode i st.code
          firstsymbol := upd st.h.firstsymbol i st.symbol }
        code := (st.code + sizes i) % 2 ^ 16 }
    if sizes i ≠ 0 ∧ (st1.code + 2 ^ 32 - 1) % 2 ^ 32 ≥ 1 <<< i then (false, st1)
    else
      firstCodes sizes fuel (i + 1)
        { st1 with
          h := { st1.h with maxcode := upd st1.h.maxcode i (st1.code <<< (16 - i)) }
          code := (st1.code <<< 1) % 2 ^ 16
          symbol := (st1.symbol + sizes i) % 2 ^ 16 }

/-- The loop `while(k < 512) { fast[k] = c; k += (1 << codelen); }`. The step
is at least 1, so 512 rounds are enough for every start value. -/
def fillFast (c codelen : Nat) : Nat → Nat → (Nat → Nat) → (Nat → Nat)
  | 0, _, fast => fast
  | fuel + 1, k, fast =>
    if k < 512 then fillFast c codelen fuel (k + 1 <<< codelen) (upd fast k c) else fast

/-- The last loop of `Huffman::Build` over the entries from symbol `i` on.
`next_code`, `firstcode` and `firstsymbol` have 16 elements, so a length of 16
indexes them out of bounds; `size` and `value` have 288 elements. The list
returned with the tables records, for each symbol that got a code, the symbol
and the value of `next_code[codelen]` used for it. -/
def assignCodes : List Nat → Nat → (Nat → Nat) → Huffman → List (Nat × Nat) →
    Except Fault (Huffman × List (Nat × Nat))
  | [], _, _, h, log => .ok (h, log)
  | codelen :: rest, i, next_code, h, log =>
    if codelen ≠ 0 then
      if 16 ≤ codelen then .error .undefined
      else
        let c := (next_code codelen + 2 ^ 32 - h.firstcode codelen
          + h.firstsymbol codelen) % 2 ^ 32 % 2 ^ 16
        if 288 ≤ c then .error .undefined
        else
          let h1 : Huffman :=
            { h with size := upd h.size c (codelen % 256), value := upd h.value c (i % 2 ^ 16) }
          let h2 : Huffman :=
            if codelen ≤ 9 then
              { h1 with
                fast := fillFast c codelen 512 (BitReverse (next_code codelen) codelen) h1.fast }
            else h1
          assignCodes rest (i + 1)
            (upd next_code codelen ((next_code codelen + 1) % 2 ^ 32)) h2
            ((i, next_code codelen) :: log)
    else assignCodes rest (i + 1) next_code h log

/-- Embedding of `Huffman::Build(const uint8_t *sizelist, uint32_t num)` on the
object `h`, with the record of the codes given out. `sizelist` holds the bytes
the pointer points to, and reading more of them than there are is undefined.
The local array `next_code` is not initialised; its elements 1 to 15 are
assigned before they are read and element 0 is never read, so it starts here
with zeros. The function ends with `return 1;`, a status with code 1. -/
def Huffman.BuildLog (h : Huffman) (sizelist : List Nat) (num : Nat) :
    Except Fault (void_er × Huffman × List (Nat × Nat)) :=
  if sizelist.length < num then .error .undefined
  else
    let h0 : Huffman := { h with fast := fun _ => 0xffff }
    match countSizes (sizelist.take num) (fun _ => 0) with
    | none => .ok (⟨-5⟩, h0, [])
    | some sizes0 =>
      let sizes := upd sizes0 0 0
      if ¬ checkSizes sizes then .ok (⟨-5⟩, h0, [])
      else
        let r := firstCodes sizes 15 1 ⟨0, 0, fun _ => 0, h0⟩
        if ¬ r.1 then .ok (⟨-5⟩, r.2.h, [])
        else
          let h1 : Huffman := { r.2.h with maxcode := upd r.2.h.maxcode 16 0x10000 }
          match assignCodes (sizelist.take num) 0 r.2.next_code h1 [] with
          | .error e => .error e
          | .ok (h2, log) => .ok (⟨1⟩, h2, log)

/-- Embedding of `Huffman::Build`: the status and the tables. -/
def Huffman.Build (h : Huffman) (sizelist : List Nat) (num : Nat) :
    Except Fault (void_er × Huffman) :=
  match h.BuildLog sizelist num with
  | .error e => .error e
  | .ok (st, z, _) => .ok (st, z)

/-! ## The inflater -/

/-- The loop `for(codesize = 10; k >= z.maxcode[codesize] && codesize < 16;
++codesize);` of `HuffmanDecode`. It stops at 16 at the latest, within 7
rounds. -/
def searchCode (z : Huffman) (k : Nat) : Nat → Nat → Nat
  | 0, codesize => codesize
  | fuel + 1, codesize =>
    if k ≥ z.maxcode codesize ∧ codesize < 16 then searchCode z k fuel (codesize + 1)
    else codesize

/-- Embedding of `Inflate::HuffmanDecode(const Huffman& z)`; `instream` is the
only member of the inflater it uses. The results of its calls of `GetBits` are
dropped. `!z.size[b] == codesize` compares the negation of `z.size[b]`, which
is 0 or 1, with `codesize`. -/
def Inflate.HuffmanDecode (instream : BitStreamDecoder) (z : Huffman) :
    Except Fault (ErrorReturn × BitStreamDecoder) :=
  match instream.Require 16 with
  | .error e => .error e
  | .ok (st, s1) =>
    if st.error_code ≠ 0 then .ok (st.value 0, s1)
    else
      let b := z.fast (s1.bit_buffer &&& 0x1FF)
      if b < 0xffff then
        if ¬ (b < 288) then .ok (⟨0, -4⟩, s1)
        else
          match s1.GetBits (z.size b) with
          | .error e => .error e
          | .ok (_, s2) => .ok (⟨z.value b, 0⟩, s2)
      else
        let k := BitReverse s1.bit_buffer 16
        let codesize := searchCode z k 7 10
        if codesize = 16 then .ok (⟨0, -3⟩, s1)
        else
          let b := ((k >>> (16 - codesize)) + 2 ^ 32 - z.firstcode codesize
            + z.firstsymbol codesize) % 2 ^ 32
          if ¬ (b < 288) then .ok (⟨0, -4⟩, s1)
          else if (if z.size b = 0 then 1 else 0) = codesize then .ok (⟨0, -3⟩, s1)
          else
            match s1.GetBits codesize with
            | .error e => .error e
            | .ok (_, s2) => .ok (⟨z.value b, 0⟩, s2)

/-- Embedding of the second `n_memarrayset(mem, start, value, count)` for an
array of `max` elements: the elements from `start` up to the smaller of
`start + count` and `max` are set. -/
def n_memarrayset (max : Nat) (mem : Nat → Nat) (start value count : Nat) : Nat → Nat :=
  if start > max then mem
  else fun j => if start ≤ j ∧ j < min (start + count) max then value else mem j

/-- The table `ALPHABET_LENGTHS` of `DynamicBlock`. -/
def ALPHABET_LENGTHS : List Nat :=
  [16, 17, 18, 0, 8, 7, 9, 6, 10, 5, 11, 4, 12, 3, 13, 2, 14, 1, 15]

/-- The loop of `DynamicBlock` that reads `num_codelen_codes` lengths of three
bits each into `codelength_sizes`, from index `i` on. -/
def readCodeLengths (num_codelen_codes : Nat) :
    Nat → Nat → BitStreamDecoder → (Nat → Nat) →
      Except Fault (void_er × BitStreamDecoder × (Nat → Nat))
  | 0, _, s, sizes => .ok (⟨0⟩, s, sizes)
  | fuel + 1, i, s, sizes =>
    if i < num_codelen_codes then
      match s.GetBits 3 with
      | .error e => .error e
      | .ok (r, s1) =>
        if r.error_code ≠ 0 then .ok (r.status, s1, sizes)
        else
          readCodeLengths num_codelen_codes fuel (i + 1) s1
            (upd sizes (ALPHABET_LENGTHS.getD i 0) (r.value % 256))
    else .ok (⟨0⟩, s, sizes)

/-- The state of the loop of `DynamicBlock` that expands the code lengths: the
reader, `n`, the array `lencodes[455]` and the indices of `lencodes` accessed
so far. -/
structure LengthsState where
  instream : BitStreamDecoder
  n : Nat
  lencodes : Nat → Nat
  accessed : List Nat

/-- The loop `while(n < num_literal_codes + num_distance_codes)` of
`DynamicBlock`, with `total` the bound. `n` grows in every round, so it runs
forever only if the fuel `total + 1` is used up. `lencodes[n - 1]` with `n`
a `uint32_t`; an access outside the 455 elements is undefined. The status of
the three calls of `GetBits` is dropped by `instream.GetBits(..) + 3`. -/
def lengthsLoop (z : Huffman) (total : Nat) :
    Nat → LengthsState → Except Fault (void_er × LengthsState)
  | 0, _ => .error .diverges
  | fuel + 1, t =>
    if t.n < total then
      match Inflate.HuffmanDecode t.instream z with
      | .error e => .error e
      | .ok (r, s1) =>
        if r.error_code ≠ 0 then .ok (r.status, { t with instream := s1 })
        else
          let c := r.value % 2 ^ 16
          if ¬ (c < 19) then .ok (⟨-2⟩, { t with instream := s1 })
          else if c < 16 then
            if 455 ≤ t.n then .error .undefined
            else lengthsLoop z total fuel
              { instream := s1, n := (t.n + 1) % 2 ^ 32,
                lencodes := upd t.lencodes t.n (c % 256), accessed := t.n :: t.accessed }
          else
            match s1.GetBits (if c = 16 then 2 else if c = 17 then 3 else 7) with
            | .error e => .error e
            | .ok (g, s2) =>
              let c1 := (g.value + (if c = 18 then 11 else 3)) % 2 ^ 16
              let prev := (t.n + 2 ^ 32 - 1) % 2 ^ 32
              if c = 16 ∧ 455 ≤ prev then .error .undefined
              else
                lengthsLoop z total fuel
                  { instream := s2, n := (t.n + c1) % 2 ^ 32,
                    lencodes := n_memarrayset 455 t.lencodes t.n
                      (if c = 16 then t.lencodes prev else 0) c1,
                    accessed := (if t.n > 455 then []
                      else List.range' t.n (min (t.n + c1) 455 - t.n))
                      ++ (if c = 16 then [prev] else []) ++ t.accessed }
    else .ok (⟨0⟩, t)

/-- The states named by `readstate` in this file. -/
inductive InflateState where
  | ZLIB_HEADER
  | BLOCK_HEADER
deriving DecidableEq

/-- The members of `Inflate` used in `Compression.cpp`. -/
structure Inflate where
  instream : BitStreamDecoder
  length : Huffman
  distance : Huffman
  outdata : List Nat
  outpos : Nat
  errored : Bool
  readstate : InflateState
  error_state : void_er

/-- Embedding of the constructor `Inflate::Inflate()`. The tables `length` and
`distance` are not set by it and are parameters here; `instream` and
`error_state` are made by their own constructors. -/
def Inflate.new (length distance : Huffman) : Inflate :=
  { instream := BitStreamDecoder.new, length := length, distance := distance,
    outdata := [], outpos := 0, errored := false,
    readstate := InflateState.ZLIB_HEADER, error_state := ⟨0⟩ }

/-- Embedding of `Inflate::UncompressedBlock`. -/
def Inflate.UncompressedBlock (st : Inflate) : void_er × Inflate := (⟨0⟩, st)

/-- Embedding of `Inflate::HuffmanBlock`. -/
def Inflate.HuffmanBlock (st : Inflate) : void_er × Inflate := (⟨0⟩, st)

/-- The first part of `Inflate::DynamicBlock`: the three counts and the lengths
of the code-length alphabet. The result holds the status, the reader,
`num_literal_codes`, `num_distance_codes` and `codelength_sizes`. -/
def dynamicHeader (s : BitStreamDecoder) :
    Except Fault (void_er × BitStreamDecoder × Nat × Nat × (Nat → Nat)) :=
  match s.Require 14 with
  | .error e => .error e
  | .ok (ret, s0) =>
    if ret.error_code ≠ 0 then .ok (ret, s0, 0, 0, fun _ => 0)
    else
      match s0.GetBits 5 with
      | .error e => .error e
      | .ok (r1, s1) =>
        if r1.error_code ≠ 0 then .ok (r1.status, s1, r1.value + 257, 0, fun _ => 0)
        else
          match s1.GetBits 5 with
          | .error e => .error e
          | .ok (r2, s2) =>
            if r2.error_code ≠ 0 then
              .ok (r2.status, s2, r1.value + 257, r2.value + 1, fun _ => 0)
            else
              match s2.GetBits 4 with
              | .error e => .error e
              | .ok (r3, s3) =>
                if r3.error_code ≠ 0 then
                  .ok (r3.status, s3, r1.value + 257, r2.value + 1, fun _ => 0)
                else
                  match readCodeLengths (r3.value + 4) 19 0 s3 (fun _ => 0) with
                  | .error e => .error e
                  | .ok (r4, s4, sizes) => .ok (r4, s4, r1.value + 257, r2.value + 1, sizes)

/-- Embedding of `Inflate::DynamicBlock`. `lencodes` is not initialised; it
starts here with zeros. -/
def Inflate.DynamicBlock (st : Inflate) : Except Fault (void_er × Inflate) :=
  match dynamicHeader st.instream with
  | .error e => .error e
  | .ok (ret, s1, num_literal_codes, num_distance_codes, codelength_sizes) =>
    if ret.error_code ≠ 0 then .ok (ret, { st with instream := s1 })
    else
      match Huffman.new.Build ((List.range 19).map codelength_sizes) 19 with
      | .error e => .error e
      | .ok (ret, codelength) =>
        if ret.error_code ≠ 0 then .ok (ret, { st with instream := s1 })
        else
          let total := num_literal_codes + num_distance_codes
          match lengthsLoop codelength total (total + 1) ⟨s1, 0, fun _ => 0, []⟩ with
          | .error e => .error e
          | .ok (ret, t) =>
            if ret.error_code ≠ 0 then .ok (ret, { st with instream := t.instream })
            else if t.n ≠ total then .ok (⟨-3⟩, { st with instream := t.instream })
            else
              match st.length.Build ((List.range num_literal_codes).map t.lencodes)
                  num_literal_codes with
              | .error e => .error e
              | .ok (ret, length) =>
                if ret.error_code ≠ 0 then
                  .ok (ret, { st with instream := t.instream, length := length })
                else
                  match st.distance.Build
                      ((List.range num_distance_codes).map
                        fun i => t.lencodes (num_literal_codes + i))
                      num_distance_codes with
                  | .error e => .error e
                  | .ok (ret, distance) =>
                    if ret.error_code ≠ 0 then
                      .ok (ret, { st with
                        instream := t.instream, length := length, distance := distance })
                    else
                      .ok (⟨0⟩, { st with
                        instream := t.instream, length := length, distance := distance })

/-- Embedding of `Inflate::DecompressStart`. -/
def Inflate.DecompressStart (st : Inflate) : Bool × Inflate := (false, st)

/-- Embedding of `Inflate::DecompressEnd`. -/
def Inflate.DecompressEnd (st : Inflate) : Bool × Inflate := (false, st)

/-- The table `default_length`. -/
def default_length : List Nat :=
  List.replicate 144 8 ++ List.replicate 112 9 ++ List.replicate 24 7 ++ List.replicate 8 8

/-- The table `default_distance`. -/
def default_distance : List Nat := List.replicate 32 5

/-- The statements of `case 1` of `DecompressData` that build the fixed
tables; the flag tells whether one of the two `return true` is taken. -/
def Inflate.fixedTables (st : Inflate) : Except Fault (Bool × Inflate) :=
  match st.length.Build default_length 288 with
  | .error e => .error e
  | .ok (e1, length) =>
    let st1 : Inflate := { st with length := length, error_state := e1 }
    if e1.error_code ≠ 0 then .ok (true, st1)
    else
      match st1.distance.Build default_distance 32 with
      | .error e => .error e
      | .ok (e2, distance) =>
        let st2 : Inflate := { st1 with distance := distance, error_state := e2 }
        if e2.error_code ≠ 0 then .ok (true, st2) else .ok (false, st2)

/-- The statements `error_state = DynamicBlock(); if(error_state) return true;`
of `case 2`; the flag tells whether the `return true` is taken. -/
def Inflate.dynamicTables (st : Inflate) : Except Fault (Bool × Inflate) :=
  match st.DynamicBlock with
  | .error e => .error e
  | .ok (e1, st1) =>
    let st2 : Inflate := { st1 with error_state := e1 }
    if e1.error_code ≠ 0 then .ok (true, st2) else .ok (false, st2)

/-- The `switch(type)` of `DecompressData`: `some b` stands for `return b` and
`none` for `break`. -/
def Inflate.blockBody (st : Inflate) (type : Nat) : Except Fault (Option Bool × Inflate) :=
  if type = 0 then
    let u := st.UncompressedBlock
    let st1 : Inflate := { u.2 with error_state := u.1 }
    if u.1.error_code ≠ 0 then .ok (some true, st1) else .ok (none, st1)
  else if type = 1 ∨ type = 2 then
    match (if type = 1 then st.fixedTables else st.dynamicTables) with
    | .error e => .error e
    | .ok (true, st1) => .ok (some true, st1)
    | .ok (false, st1) =>
      let u := st1.HuffmanBlock
      let st2 : Inflate := { u.2 with error_state := u.1 }
      if u.1.error_code ≠ 0 then .ok (some true, st2) else .ok (none, st2)
  else if type = 3 then .ok (some false, st)
  else .ok (some true, st)

/-- The block loop `while(!final_flag && !error_state)` of `DecompressData` and
the `return false` after it. A round that does not return has read a block
header of three bits. -/
def blockLoop : Nat → Nat → Inflate → Except Fault (Bool × Inflate)
  | 0, _, _ => .error .diverges
  | fuel + 1, final_flag, st =>
    if final_flag = 0 ∧ st.error_state.error_code = 0 then
      match st.instream.GetBits 1 with
      | .error e => .error e
      | .ok (r1, s1) =>
        let st1 : Inflate := { st with instream := s1, error_state := r1.status }
        if r1.error_code ≠ 0 then .ok (true, st1)
        else
          match s1.GetBits 2 with
          | .error e => .error e
          | .ok (r2, s2) =>
            let st2 : Inflate := { st1 with instream := s2, error_state := r2.status }
            if r2.error_code ≠ 0 then .ok (true, st2)
            else
              match st2.blockBody r2.value with
              | .error e => .error e
              | .ok (some b, st3) => .ok (b, st3)
              | .ok (none, st3) => blockLoop fuel r1.value st3
    else .ok (false, st)

/-- Embedding of `Inflate::DecompressData(DataString data)`. Every round of the
block loop that does not return takes three bits or more from the reader, so
the fuel covers the bits there are. -/
def Inflate.DecompressData (st : Inflate) (data : List Nat) : Except Fault (Bool × Inflate) :=
  let s1 := (st.instream.AppendData data).2
  let st1 : Inflate := { st with instream := s1, readstate := InflateState.BLOCK_HEADER }
  blockLoop (s1.num_bits + 8 * (s1.indata.length - s1.inpos) + 1) 0 st1

/-- Embedding of `Inflate::DecompressHasOutput`. -/
def Inflate.DecompressHasOutput (st : Inflate) : Bool × Inflate := (false, st)

/-- Embedding of `Inflate::DecompressGetOutput`. -/
def Inflate.DecompressGetOutput (st : Inflate) : List Nat × Inflate := ([], st)

/-! ## Notions used to state the properties -/

/-- Spec side: the number whose base-256 digits, lowest first, are the bytes. -/
def bytesValue : List Nat → Nat
  | [] => 0
  | b :: bs => b + 256 * bytesValue bs

/-- Spec side: the bits that remain in the reader, as a number whose bit `i` is
the `i`-th remaining bit: the accumulator bits, then the unread bytes in order,
each with its least significant bit first. -/
def BitStreamDecoder.stream (s : BitStreamDecoder) : Nat :=
  s.bit_buffer + 2 ^ s.num_bits * bytesValue (s.indata.drop s.inpos)

/-- Spec side: the number of bits that remain, `num_bits` plus 8 times the
unread bytes. -/
def BitStreamDecoder.bitsLeft (s : BitStreamDecoder) : Nat :=
  s.num_bits + 8 * (s.indata.length - s.inpos)

/-- Spec side: a reader in good order: at most 32 bits in the accumulator, the
accumulator below `2 ^ num_bits`, the position inside the data, and every
element of the data a byte. -/
structure BitStreamDecoder.WF (s : BitStreamDecoder) : Prop where
  bits : s.num_bits ≤ 32
  buffer : s.bit_buffer < 2 ^ s.num_bits
  pos : s.inpos ≤ s.indata.length
  bytes : ∀ b ∈ s.indata, b < 256

/-- Spec side: the reader after the next unread byte has been moved into the
accumulator above the bits it holds. -/
def BitStreamDecoder.loaded (s : BitStreamDecoder) : BitStreamDecoder :=
  { s with
    inpos := s.inpos + 1
    bit_buffer := s.bit_buffer + s.indata.getD s.inpos 0 * 2 ^ s.num_bits
    num_bits := s.num_bits + 8 }

/-- Spec side: the reader after its `n` lowest accumulator bits are taken. -/
def BitStreamDecoder.taken (s : BitStreamDecoder) (n : Nat) : BitStreamDecoder :=
  { s with bit_buffer := s.bit_buffer / 2 ^ n, num_bits := s.num_bits - n }

/-- Spec side: the states reached from the constructed reader by `AppendData`,
`LoadByte`, `LoadFull`, `Require` and those calls `GetBits(n)` that `P` admits
in the state they are made in. -/
inductive Reachable (P : BitStreamDecoder → Nat → Prop) : BitStreamDecoder → Prop where
  | fresh : Reachable P BitStreamDecoder.new
  | append (s : BitStreamDecoder) (data : List Nat) :
      Reachable P s → (∀ b ∈ data, b < 256) → Reachable P (s.AppendData data).2
  | loadByte (s : BitStreamDecoder) : Reachable P s → Reachable P s.LoadByte.2
  | loadFull (s : BitStreamDecoder) : Reachable P s → Reachable P s.LoadFull.2
  | require (s : BitStreamDecoder) (n : Nat) (r : void_er × BitStreamDecoder) :
      Reachable P s → s.Require n = .ok r → Reachable P r.2
  | getBits (s : BitStreamDecoder) (n : Nat) (r : ErrorReturn × BitStreamDecoder) :
      Reachable P s → P s n → s.GetBits n = .ok r → Reachable P r.2

/-- Spec side: `GetBits(n)` finds `n` bits in the accumulator, if need be after
the one byte that its call of `LoadFull` loads. -/
def inAccumulator (s : BitStreamDecoder) (n : Nat) : Prop :=
  n ≤ s.num_bits ∨ (s.num_bits ≤ 24 ∧ s.inpos < s.indata.length ∧ n ≤ s.num_bits + 8)

/-- Spec side: the sum over the symbols with a non-zero length `L` of
`2 ^ (15 - L)`; the list is over-subscribed when it exceeds `2 ^ 15`. -/
def kraftSum (sizelist : List Nat) : Nat :=
  ((sizelist.filter fun L => L ≠ 0).map fun L => 2 ^ (15 - L)).sum

/-- Spec side: `count[L]`, the number of symbols of length `L`, with 0 for
`L = 0` as after `sizes[0] = 0`. -/
def lengthCount (sizelist : List Nat) (L : Nat) : Nat :=
  if L = 0 then 0 else sizelist.count L

/-- Spec side: the number of codes used up at length `i`, counting a code of a
shorter length `j` as `2 ^ (i - j)` codes: `kraft c 0 = 0` and
`kraft c (i + 1) = 2 * kraft c i + c (i + 1)`. -/
def kraft (c : Nat → Nat) : Nat → Nat
  | 0 => 0
  | i + 1 => 2 * kraft c i + c (i + 1)

/-- Spec side: the number of symbols with a length below `i`. -/
def symbolsBelow (c : Nat → Nat) : Nat → Nat
  | 0 => 0
  | i + 1 => symbolsBelow c i + c i

/-- Spec side: the number of symbols before `s` that have the length of `s`. -/
def rank (sizelist : List Nat) (s : Nat) : Nat :=
  (sizelist.take s).count (sizelist.getD s 0)

/-- Spec side: the canonical code of symbol `s`: the first code of its length,
`2 * kraft count (L - 1)`, plus the number of symbols of the same length
before it. -/
def codeOf (sizelist : List Nat) (s : Nat) : Nat :=
  2 * kraft (lengthCount sizelist) (sizelist.getD s 0 - 1) + rank sizelist s

/-- Spec side: the place of symbol `s` when the symbols with a code are sorted
by length and then by symbol. -/
def slotOf (sizelist : List Nat) (s : Nat) : Nat :=
  symbolsBelow (lengthCount sizelist) (sizelist.getD s 0) + rank sizelist s

/-- Spec side: the lists of code lengths that a table is built from: at most
288 symbols, every length at most 15, and not over-subscribed. -/
structure Canon (sizelist : List Nat) : Prop where
  len : sizelist.length ≤ 288
  le15 : ∀ L ∈ sizelist, L ≤ 15
  sum : kraftSum sizelist ≤ 2 ^ 15

/-- Spec side: the zlib header rules for the first two bytes: the low nibble of
byte 0 is 8, the window bits (high nibble) are at most 7, the big-endian value
of the two bytes is divisible by 31, and the preset-dictionary flag (bit 5 of
byte 1) is clear. -/
def zlibHeaderOK (b0 b1 : Nat) : Bool :=
  b0 % 16 == 8 && b0 / 16 ≤ 7 && (b0 * 256 + b1) % 31 == 0 && (b1 / 32) % 2 == 0

end trillek.util.algorithm

namespace trillek.png

/-! ## The chunk processor (`Load`) -/

/-- Modelled from the spec: the byte source `util::InputStream`, whose header
is not among the sources: `read()` gives a byte or an end marker and `end()`
tells whether the source is exhausted. `Read()` gives -1 at the end, the value
that `operator>>` tests with `c > -1`. -/
structure InputStream where
  data : List Nat
  pos : Nat
deriving DecidableEq

/-- Modelled from the spec: `InputStream::End()`. -/
def InputStream.End (f : InputStream) : Bool := decide (f.data.length ≤ f.pos)

/-- Modelled from the spec: `InputStream::Read()`. -/
def InputStream.Read (f : InputStream) : Int × InputStream :=
  if f.pos < f.data.length then (((f.data.getD f.pos 0 % 256 : Nat) : Int), { f with pos := f.pos + 1 })
  else (-1, f)

/-- Modelled from the spec: one step of the PNG CRC, reflected, with the
polynomial 0xEDB88320, repeated `k` times. -/
def crcBits : Nat → Nat → Nat
  | 0, c => c
  | k + 1, c => crcBits k (if c % 2 = 1 then (c / 2) ^^^ 0xEDB88320 else c / 2)

/-- Modelled from the spec: `Crc32::Init()` of `util/checksum.hpp`, which is
not among the sources; the value is the member `ldata`. -/
def Crc32.Init : Nat := 0xFFFFFFFF

/-- Modelled from the spec: `Crc32::Update(char)`. -/
def Crc32.Update (ldata b : Nat) : Nat := crcBits 8 (ldata ^^^ (b % 256))

/-- Modelled from the spec: `Crc32::Update(const char *, size_t)`. -/
def Crc32.UpdateAll (ldata : Nat) (bs : List Nat) : Nat := bs.foldl Crc32.Update ldata

/-- Modelled from the spec: `Crc32::Last()`, the final exclusive or. -/
def Crc32.Last (ldata : Nat) : Nat := ldata ^^^ 0xFFFFFFFF

/-- Embedding of the members of `class CrcFilter`: the stream `forward` it
reads from (the stream `f` of `Load`), `len`, the four characters `type.cdata`
and `crc.ldata`. -/
structure CrcFilter where
  forward : InputStream
  len : Nat
  type : List Nat
  crc : Nat
deriving DecidableEq

/-- Embedding of `CrcFilter::Filter(uint8_t i)`; `len--` is a `PNGLong`
decrement. -/
def CrcFilter.Filter (c : CrcFilter) (i : Nat) : Nat × CrcFilter :=
  (i, { c with crc := Crc32.Update c.crc i, len := (c.len + 2 ^ 32 - 1) % 2 ^ 32 })

/-- Modelled from the spec: `InputFilter::End()`, the end of the stream the
filter reads from. -/
def CrcFilter.End (c : CrcFilter) : Bool := c.forward.End

/-- Modelled from the spec: `InputFilter::Read()`: a byte of the stream passed
through `Filter`, or -1 at the end. -/
def CrcFilter.Read (c : CrcFilter) : Int × CrcFilter :=
  let r := c.forward.Read
  if r.1 > -1 then
    let g := ({ c with forward := r.2 } : CrcFilter).Filter r.1.toNat
    ((g.1 : Int), g.2)
  else (-1, { c with forward := r.2 })

/-- Embedding of the loop of `operator>>(util::InputStream &, PNGLong &)` and of
the one for `PNGShort`, for a stream with the operations `End` and `Read`:
`for(i = 0; i < k && !f.End(); i++) { o <<= 8; c = f.Read(); if(c > -1) o |= (unsigned char)c; }`
where `o` has `w` values. -/
def readBE {σ : Type} (End : σ → Bool) (Read : σ → Int × σ) (w : Nat) :
    Nat → σ → Nat → Nat × σ
  | 0, f, o => (o, f)
  | k + 1, f, o =>
    if End f then (o, f)
    else
      let o1 := (o * 256) % w
      let r := Read f
      readBE End Read w k r.2 (if r.1 > -1 then o1 ||| (r.1.toNat % 256) else o1)

/-- The operator `f >> o` for a `PNGLong` read from the stream itself. -/
def InputStream.readLong (f : InputStream) (o : Nat) : Nat × InputStream :=
  readBE InputStream.End InputStream.Read (2 ^ 32) 4 f o

/-- The operator `chunk >> o` for a `PNGLong` read through the filter. -/
def CrcFilter.readLong (c : CrcFilter) (o : Nat) : Nat × CrcFilter :=
  readBE CrcFilter.End CrcFilter.Read (2 ^ 32) 4 c o

/-- The operator `chunk >> o` for a `PNGShort` read through the filter. -/
def CrcFilter.readShort (c : CrcFilter) (o : Nat) : Nat × CrcFilter :=
  readBE CrcFilter.End CrcFilter.Read (2 ^ 16) 2 c o

/-- Modelled from the spec: the operator `chunk >> o` for a `uint8_t`, from a
header that is not among the sources: the next byte, and `o` unchanged at the
end of the stream. -/
def CrcFilter.readByte (c : CrcFilter) (o : Nat) : Nat × CrcFilter :=
  let r := c.Read
  if r.1 > -1 then (r.1.toNat, r.2) else (o, r.2)

/-- Modelled from the spec: the operator `forward >> type` for a `FourCC`, from
a header that is not among the sources: the next four bytes, a character being
left as it is at the end of the stream. -/
def InputStream.readFourCC : Nat → InputStream → List Nat → List Nat × InputStream
  | 0, f, _ => ([], f)
  | k + 1, f, old =>
    let r := f.Read
    let rest := InputStream.readFourCC k r.2 old.tail
    ((if r.1 > -1 then r.1.toNat else old.headD 0) :: rest.1, rest.2)

/-- Embedding of `CrcFilter::Header()`. -/
def CrcFilter.Header (c : CrcFilter) : CrcFilter :=
  let l := c.forward.readLong c.len
  let t := InputStream.readFourCC 4 l.2 c.type
  { forward := t.2, len := l.1, type := t.1, crc := Crc32.UpdateAll Crc32.Init t.1 }

/-- Embedding of `operator>>(util::InputStream &, PNGColor &)` as far as the
stream goes: the bytes read for a colour of type `type`. -/
def CrcFilter.readColor (c : CrcFilter) (type : Nat) : CrcFilter :=
  if type = 0 ∨ type = 4 then (c.readShort 0).2
  else if type = 2 ∨ type = 6 then (((c.readShort 0).2.readShort 0).2.readShort 0).2
  else if type = 3 then (c.readByte 0).2
  else c

/-- The loops `while(!f.End() && chunk.len > 0) { chunk >> c; data.append(&c, 1); }`
of `Load`; every round takes a byte of the stream, so the bytes left are fuel
enough. -/
def readData : Nat → CrcFilter → List Nat → List Nat × CrcFilter
  | 0, c, acc => (acc, c)
  | fuel + 1, c, acc =>
    if ¬ c.End ∧ c.len > 0 then
      let r := c.readByte 0
      readData fuel r.2 (acc ++ [r.1])
    else (acc, c)

/-- The loops that read a keyword:
`while(!f.End() && chunk.len > 0) { chunk >> c; if(c == 0) break; else keyword.append(..); }`. -/
def readKeyword : Nat → CrcFilter → CrcFilter
  | 0, c => c
  | fuel + 1, c =>
    if ¬ c.End ∧ c.len > 0 then
      let r := c.readByte 0
      if r.1 = 0 then r.2 else readKeyword fuel r.2
    else c

/-- The loop `while(!f.End() && chunk.len > 0) { chunk.crc.Update(f.Read()); chunk.len--; }`
that skips what is left of a chunk. -/
def skipRest : Nat → CrcFilter → CrcFilter
  | 0, c => c
  | fuel + 1, c =>
    if ¬ c.forward.End ∧ c.len > 0 then
      let r := c.forward.Read
      skipRest fuel
        { c with forward := r.2, crc := Crc32.Update c.crc (r.1.toNat % 256),
                 len := (c.len + 2 ^ 32 - 1) % 2 ^ 32 }
    else c

/-- The bytes left in the stream of a filter. -/
def CrcFilter.left (c : CrcFilter) : Nat := c.forward.data.length - c.forward.pos

/-- The enumeration `ImageColorMode` as far as `Load` uses it. -/
inductive ImageColorMode where
  | MONOCHROME
  | COLOR_RGB
  | MONOCHROME_A
  | COLOR_RGBA
deriving DecidableEq

/-- What the `switch(header.depth)` of `Load` does: a call
`pix.Create(width, height, depth, mode)`, `needpalette = true`, or one of the
returns "Invalid color depth for mode" and "Invalid color depth". -/
inductive DepthSwitch where
  | create (width height depth : Nat) (mode : ImageColorMode)
  | palette
  | invalid
deriving DecidableEq

/-- The test `(header.width | header.height) > (1 << 23)` of `Load`. -/
def sizeOutOfBounds (header : PNGHeader) : Bool :=
  decide ((header.width ||| header.height) > 1 <<< 23)

/-- The `switch(header.depth)` of `Load` with its inner switches over
`header.colortype`. -/
def depthSwitch (header : PNGHeader) : DepthSwitch :=
  if header.depth = 1 ∨ header.depth = 2 ∨ header.depth = 4 then
    if header.colortype = 0 then
      .create header.width header.height 8 ImageColorMode.MONOCHROME
    else if header.colortype = 3 then .palette
    else .invalid
  else if header.depth = 8 then
    if header.colortype = 0 then
      .create header.width header.height header.depth ImageColorMode.MONOCHROME
    else if header.colortype = 2 then
      .create header.width header.height header.depth ImageColorMode.COLOR_RGB
    else if header.colortype = 3 then .palette
    else if header.colortype = 4 then
      .create header.width header.height header.depth ImageColorMode.MONOCHROME_A
    else if header.colortype = 6 then
      .create header.width header.height header.depth ImageColorMode.COLOR_RGBA
    else .invalid
  else if header.depth = 16 then
    if header.colortype = 0 then
      .create header.width header.height header.depth ImageColorMode.MONOCHROME
    else if header.colortype = 2 then
      .create header.width header.height header.depth ImageColorMode.COLOR_RGB
    else if header.colortype = 4 then
      .create header.width header.height header.depth ImageColorMode.MONOCHROME_A
    else if header.colortype = 6 then
      .create header.width header.height header.depth ImageColorMode.COLOR_RGBA
    else .invalid
  else .invalid

/-- The local variables of `Load` that outlive a chunk. `interlace` is the
expander made for the header, with a flag that tells `InterlaceTypeAdam7` from
`InterlaceType`, or nothing for the null pointer; `created` lists the calls of
`pix.Create` (latest first) and `pix` is the pixel buffer as the expanders see
it; `chunkcounts` maps the four characters of a chunk type to a count. -/
structure LoadState where
  chunk : CrcFilter
  inlong : Nat
  header : PNGHeader
  decoder : util.algorithm.Inflate
  interlace : Option (Bool × InterlaceType)
  pix : PixelBuffer
  created : List (Nat × Nat × Nat × ImageColorMode)
  chunkcounts : List (List Nat × Nat)
  needheader : Bool
  needpalette : Bool
  idatmode : Bool
  at_end : Bool
  stat : util.algorithm.void_er

/-- The count `chunkcounts.count(key)` of a `std::map`: 1 if the key is there. -/
def countOf (m : List (List Nat × Nat)) (key : List Nat) : Nat :=
  if (m.lookup key).isSome then 1 else 0

/-- The assignment `chunkcounts[key] = v`. -/
def setCount (m : List (List Nat × Nat)) (key : List Nat) (v : Nat) : List (List Nat × Nat) :=
  (key, v) :: m.filter (fun e => e.1 ≠ key)

/-- The characters of `FourCC(s)`. -/
def FourCC (s : String) : List Nat := s.toList.map Char.toNat

/-- The statements of the `IHDR` branch of `Load` after the fields are read,
with `some e` for `return e` and `none` for falling out of the branch. The
result of `pix.Create` is not looked at. `uninit` is what `InterlaceType::linelength`
holds when its constructor does not assign it. -/
def headerChunk (uninit : Nat) (st : LoadState) : Option util.algorithm.void_er × LoadState :=
  if sizeOutOfBounds st.header then (some ⟨-1⟩, st)
  else
    match depthSwitch st.header with
    | .invalid => (some ⟨-1⟩, st)
    | sw =>
      let st1 : LoadState :=
        match sw with
        | .create w h d m => { st with created := (w, h, d, m) :: st.created }
        | .palette => { st with needpalette := true }
        | .invalid => st
      if st1.header.filter ≠ 0 then (some ⟨-1⟩, st1)
      else if st1.header.compression ≠ 0 then (some ⟨-1⟩, st1)
      else if st1.header.interlace = 0 then
        (none, { st1 with
          interlace := some (false, InterlaceType.new filtermethod st1.header uninit),
          needheader := false })
      else if st1.header.interlace = 1 then
        (none, { st1 with
          interlace := some (true, InterlaceType.new filtermethod st1.header uninit),
          needheader := false })
      else (some ⟨-1⟩, st1)

/-- The reads `chunk >> header.width >> header.height >> header.depth;
chunk >> header.colortype >> header.compression;
chunk >> header.filter >> header.interlace;` of the `IHDR` branch. -/
def readHeader (st : LoadState) : LoadState :=
  let w := st.chunk.readLong st.header.width
  let h := w.2.readLong st.header.height
  let d := h.2.readByte st.header.depth
  let c := d.2.readByte st.header.colortype
  let z := c.2.readByte st.header.compression
  let f := z.2.readByte st.header.filter
  let i := f.2.readByte st.header.interlace
  { st with chunk := i.2, header := ⟨w.1, h.1, d.1, c.1, z.1, f.1, i.1⟩ }

/-- The branches of the chunk loop of `Load`, from `if(chunk.type ==
FourCC("IDAT"))` to the last `else`, with `some e` for `return e` and `none`
for going on to the check of the CRC. `tables` is the content of the tables of
an `Inflate` that its constructor leaves unset. -/
def chunkBody (uninit : Nat) (tables : util.algorithm.Huffman) (st : LoadState) :
    Except util.algorithm.Fault (Option util.algorithm.void_er × LoadState) :=
  if st.chunk.type = FourCC "IDAT" then
    let st1 : LoadState :=
      if ¬ st.idatmode then { st with decoder := st.decoder.DecompressStart.2, idatmode := true }
      else st
    let r := readData st1.chunk.left st1.chunk []
    match st1.decoder.DecompressData r.1 with
    | .error e => .error e
    | .ok (b, dec) =>
      let st2 : LoadState := { st1 with chunk := r.2, decoder := dec }
      if b = true ∧ dec.error_state.error_code ≠ 1 then .ok (some dec.error_state, st2)
      else .ok (none, st2)
  else if st.chunk.type = FourCC "IEND" then
    match st.interlace with
    | some (adam7, it) =>
      if st.decoder.DecompressHasOutput.1 = true then
        let linedata := st.decoder.DecompressGetOutput.1
        match (if adam7 then InterlaceTypeAdam7.Deinterlace it linedata st.pix
               else it.Deinterlace linedata st.pix) with
        | none => .error .diverges
        | some (it1, pix1) =>
          .ok (none, { st with interlace := some (adam7, it1), pix := pix1, at_end := true })
      else .ok (none, { st with at_end := true })
    | none => .ok (none, { st with at_end := true })
  else if st.idatmode then .ok (some ⟨-1⟩, st)
  else if st.chunk.type = FourCC "IHDR" then
    if st.needheader then
      .ok (headerChunk uninit
        (readHeader { st with chunkcounts := setCount st.chunkcounts st.chunk.type 1 }))
    else .ok (some ⟨-1⟩, st)
  else if st.chunk.type = FourCC "gAMA" then
    if countOf st.chunkcounts st.chunk.type ≠ 0 then .ok (some ⟨-1⟩, st)
    else
      .ok (none, { st with
        chunk := (st.chunk.readLong uninit).2,
        chunkcounts := setCount st.chunkcounts st.chunk.type 1 })
  else if st.chunk.type = FourCC "tIME" then
    if countOf st.chunkcounts st.chunk.type ≠ 0 then .ok (some ⟨-1⟩, st)
    else
      let y := st.chunk.readShort uninit
      let c := (((((y.2.readByte 0).2.readByte 0).2.readByte 0).2.readByte 0).2.readByte 0).2
      .ok (none, { st with chunk := c, chunkcounts := setCount st.chunkcounts st.chunk.type 1 })
  else if st.chunk.type = FourCC "bKGD" then
    if countOf st.chunkcounts st.chunk.type ≠ 0 then .ok (some ⟨-1⟩, st)
    else
      .ok (none, { st with
        chunk := st.chunk.readColor st.header.colortype,
        chunkcounts := setCount st.chunkcounts st.chunk.type 1 })
  else if st.chunk.type = FourCC "pHYs" then
    if countOf st.chunkcounts st.chunk.type ≠ 0 then .ok (some ⟨-1⟩, st)
    else
      let x := st.chunk.readLong uninit
      let y := x.2.readLong uninit
      .ok (none, { st with
        chunk := (y.2.readByte 0).2,
        chunkcounts := setCount st.chunkcounts st.chunk.type 1 })
  else if st.chunk.type = FourCC "tRNS" then
    if countOf st.chunkcounts st.chunk.type ≠ 0 then .ok (some ⟨-1⟩, st)
    else
      .ok (none, { st with
        chunk := st.chunk.readColor st.header.colortype,
        chunkcounts := setCount st.chunkcounts st.chunk.type 1 })
  else if st.chunk.type = FourCC "tEXt" then
    let counts :=
      setCount st.chunkcounts st.chunk.type
        (if countOf st.chunkcounts st.chunk.type ≠ 0 then
          (st.chunkcounts.lookup st.chunk.type).getD 0 + 1 else 1)
    let k := readKeyword st.chunk.left st.chunk
    let t := readData k.left k []
    .ok (none, { st with chunk := t.2, chunkcounts := counts })
  else if st.chunk.type = FourCC "zTXt" then
    let counts :=
      setCount st.chunkcounts st.chunk.type
        (if countOf st.chunkcounts st.chunk.type ≠ 0 then
          (st.chunkcounts.lookup st.chunk.type).getD 0 + 1 else 1)
    let k := readKeyword st.chunk.left st.chunk
    let m := if ¬ k.End ∧ k.len > 0 then k.readByte 0 else (0, k)
    let t := readData m.2.left m.2 []
    let stat : util.algorithm.void_er := if m.1 ≠ 0 then ⟨0⟩ else st.stat
    let inf := (util.algorithm.Inflate.new tables tables).DecompressStart.2
    match inf.DecompressData t.1 with
    | .error e => .error e
    | .ok _ => .ok (none, { st with chunk := t.2, chunkcounts := counts, stat := stat })
  else if st.chunk.type.headD 0 &&& 32 = 0 then .ok (some ⟨-1⟩, st)
  else .ok (none, st)

/-- The chunk loop `while(!f.End() && !stat && !at_end)` of `Load` and the
`return stat` after it. Every round reads the header of a chunk, at least one
byte, so the bytes left in the stream are fuel enough. -/
def chunkLoop (uninit : Nat) (tables : util.algorithm.Huffman) :
    Nat → LoadState → Except util.algorithm.Fault (util.algorithm.void_er × LoadState)
  | 0, _ => .error .diverges
  | fuel + 1, st =>
    if ¬ st.chunk.forward.End ∧ st.stat.error_code = 0 ∧ ¬ st.at_end then
      match chunkBody uninit tables { st with chunk := st.chunk.Header } with
      | .error e => .error e
      | .ok (some e, st1) => .ok (e, st1)
      | .ok (none, st1) =>
        let c := skipRest st1.chunk.left st1.chunk
        let g := c.forward.readLong st1.inlong
        let c1 : CrcFilter := { c with forward := g.2, crc := Crc32.Last c.crc }
        let st2 : LoadState := { st1 with chunk := c1, inlong := g.1 }
        if c1.crc ≠ g.1 then .ok (⟨-1⟩, st2)
        else chunkLoop uninit tables fuel st2
    else .ok (st.stat, st)

/-- The signature `magic` of `Load`. -/
def magic : List Nat := [137, 80, 78, 71, 13, 10, 26, 10]

/-- The loop `for(i = 0; i < 8 && !f.End(); i++) if(magic[i] != f.Read()) valid = false;`
of `Load`, from index `i` on; the result holds `i`, `valid` and the stream. -/
def checkMagic : Nat → Nat → Bool → InputStream → Nat × Bool × InputStream
  | 0, i, valid, f => (i, valid, f)
  | k + 1, i, valid, f =>
    if f.End then (i, valid, f)
    else
      let r := f.Read
      checkMagic k (i + 1) (if ((magic.getD i 0 : Nat) : Int) ≠ r.1 then false else valid) r.2

/-- The locals of `Load` as they are declared, for the stream `f` that the
filter `chunk` reads from. The locals `header` and `inlong` and the member
`chunk.type` are not initialised; they start here with `uninit` and with zero
characters. `tables` stands for the tables of `decoder`, which its constructor
leaves unset. -/
def LoadState.start (f : InputStream) (pix : PixelBuffer) (uninit : Nat)
    (tables : util.algorithm.Huffman) : LoadState :=
  { chunk := { forward := f, len := 0, type := [0, 0, 0, 0], crc := 0 },
    inlong := uninit,
    header := ⟨uninit, uninit, uninit % 256, uninit % 256, uninit % 256, uninit % 256,
      uninit % 256⟩,
    decoder := util.algorithm.Inflate.new tables tables,
    interlace := none, pix := pix, created := [], chunkcounts := [],
    needheader := true, needpalette := false, idatmode := false, at_end := false,
    stat := ⟨0⟩ }

/-- Embedding of `png::Load(util::InputStream & f, resource::PixelBuffer & pix)`:
the check of the signature, then the chunk loop. -/
def Load (f : InputStream) (pix : PixelBuffer) (uninit : Nat) (tables : util.algorithm.Huffman) :
    Except util.algorithm.Fault (util.algorithm.void_er × LoadState) :=
  let m := checkMagic 8 0 true f
  let st := LoadState.start m.2.2 pix uninit tables
  if m.2.2.End then .ok (⟨-1⟩, st)
  else if ¬ m.2.1 ∨ m.1 < 8 then .ok (⟨-1⟩, st)
  else chunkLoop uninit tables (m.2.2.data.length - m.2.2.pos + 1) st

/-! ## Notions used to state the properties of `Load` -/

/-- Spec side: the four bytes of a 32-bit value, most significant first. -/
def be32 (v : Nat) : List Nat := [v / 2 ^ 24 % 256, v / 2 ^ 16 % 256, v / 2 ^ 8 % 256, v % 256]

/-- Spec side: the CRC of a chunk, computed over its type and payload. -/
def chunkCrc (type payload : List Nat) : Nat :=
  Crc32.Last (Crc32.UpdateAll Crc32.Init (type ++ payload))

/-- Spec side: a chunk as it is stored: the length of the payload, the type,
the payload, and the CRC over type and payload. -/
def pngChunk (type : String) (payload : List Nat) : List Nat :=
  be32 payload.length ++ FourCC type ++ payload ++ be32 (chunkCrc (FourCC type) payload)

/-- Spec side: the 13 bytes of the payload of the header chunk. -/
def ihdrPayload (header : PNGHeader) : List Nat :=
  be32 header.width ++ be32 header.height ++
    [header.depth, header.colortype, header.compression, header.filter, header.interlace]

/-- Spec side: the colour mode of a non-indexed colour type: gray, RGB,
gray+alpha and RGBA for the types 0, 2, 4 and 6. -/
def modeOf (colortype : Nat) : ImageColorMode :=
  if colortype = 0 then ImageColorMode.MONOCHROME
  else if colortype = 2 then ImageColorMode.COLOR_RGB
  else if colortype = 4 then ImageColorMode.MONOCHROME_A
  else ImageColorMode.COLOR_RGBA

/-- Spec side: the Adler-32 checksum that ends a zlib stream. -/
def adler32 (data : List Nat) : Nat :=
  let r := data.foldl (fun (p : Nat × Nat) b => ((p.1 + b) % 65521, (p.2 + (p.1 + b) % 65521) % 65521))
    (1, 0)
  r.2 * 65536 + r.1

/-- Spec side: a zlib stream that holds `data` in one final block of type 00:
the two header bytes, the block header with the final flag set and `pad` in
the five bits up to the byte boundary (which a decoder discards), the length
and its complement, least significant byte first, the bytes, and the Adler-32
checksum. -/
def zlibStored (cmf flg pad : Nat) (data : List Nat) : List Nat :=
  [cmf, flg, 1 + 8 * pad, data.length % 256, data.length / 256,
    (65535 - data.length) % 256, (65535 - data.length) / 256] ++ data ++ be32 (adler32 data)

/-- The pixel buffer handed to `Load` in the examples: a region that can be
locked, with nothing stored yet. -/
def examplePix : PixelBuffer := ⟨3, true, Mem.fresh, 0, 0⟩

/-- A stream with the signature and an `IEND` chunk only. -/
def streamNoHeader : List Nat := magic ++ pngChunk "IEND" []

/-- A 3x1 8-bit grayscale image with the scanline 00 11 22 33 in a zlib stream
whose header names a window of 1024 bytes (28 15). -/
def streamWindow1K : List Nat :=
  magic ++ pngChunk "IHDR" (ihdrPayload ⟨3, 1, 8, 0, 0, 0, 0⟩)
    ++ pngChunk "IDAT" (zlibStored 0x28 0x15 18 [0, 0x11, 0x22, 0x33]) ++ pngChunk "IEND" []

/-- The same image in a zlib stream whose header names a window of 32768 bytes
(78 01). -/
def streamWindow32K : List Nat :=
  magic ++ pngChunk "IHDR" (ihdrPayload ⟨3, 1, 8, 0, 0, 0, 0⟩)
    ++ pngChunk "IDAT" (zlibStored 0x78 0x01 0 [0, 0x11, 0x22, 0x33]) ++ pngChunk "IEND" []

/-- A stream whose header has the width `2 ^ 23` and the height 1. -/
def streamWidth23 : List Nat :=
  magic ++ pngChunk "IHDR" (ihdrPayload ⟨2 ^ 23, 1, 8, 0, 0, 0, 0⟩) ++ pngChunk "IEND" []

/-- A stream whose header is a 5x7 grayscale image of bit depth 1. -/
def streamDepth1 : List Nat :=
  magic ++ pngChunk "IHDR" (ihdrPayload ⟨5, 7, 1, 0, 0, 0, 0⟩) ++ pngChunk "IEND" []

/-- A stream that ends with a `gAMA` chunk of length 0 whose stored CRC is
1E FD 0E B6; the CRC over the type `gAMA` and no payload is B2 E1 B7 1F. -/
def streamBadCrc : List Nat :=
  magic ++ pngChunk "IHDR" (ihdrPayload ⟨1, 1, 8, 0, 0, 0, 0⟩)
    ++ be32 0 ++ FourCC "gAMA" ++ [0x1E, 0xFD, 0x0E, 0xB6]

/-- The stream `streamBadCrc` with the four bytes of the right CRC in the place
of the stored ones. -/
def streamGoodCrc : List Nat :=
  magic ++ pngChunk "IHDR" (ihdrPayload ⟨1, 1, 8, 0, 0, 0, 0⟩) ++ pngChunk "gAMA" []

/-- A stream whose first chunk is a `gAMA` chunk, with the header after it. -/
def streamHeaderSecond : List Nat :=
  magic ++ pngChunk "gAMA" (be32 45455) ++ pngChunk "IHDR" (ihdrPayload ⟨1, 1, 8, 0, 0, 0, 0⟩)
    ++ pngChunk "IEND" []

/-- A stream with two header chunks. -/
def streamTwoHeaders : List Nat :=
  magic ++ pngChunk "IHDR" (ihdrPayload ⟨1, 1, 8, 0, 0, 0, 0⟩)
    ++ pngChunk "IHDR" (ihdrPayload ⟨1, 1, 8, 0, 0, 0, 0⟩) ++ pngChunk "IEND" []

/-- A stream whose header pairs the bit depth 16 with the colour type 3. -/
def streamDepth16Indexed : List Nat :=
  magic ++ pngChunk "IHDR" (ihdrPayload ⟨1, 1, 16, 3, 0, 0, 0⟩) ++ pngChunk "IEND" []

/-- The state of `Load` after the fields of a header chunk are read into
`header`, for the examples. -/
def exampleState (header : PNGHeader) : LoadState :=
  { LoadState.start ⟨[], 0⟩ examplePix 0 util.algorithm.Huffman.new with header := header }

end trillek.png

namespace trillek.png

/-! ## The reconstruction loops -/

/-- Storing the next byte of the row keeps the invariant. -/
theorem RowInv.store {f0 f : Nat → Nat → Nat → Nat → Nat} {A : ScanArgs} {B : Nat → Nat}
    {s0 s : Mem} {i : Nat} (hu : 0 < A.pixelwidth) (h : RowInv f0 f A B s0 s i) (v r : Nat)
    (hv : v % 256 = rowByte f0 f A B s0 s i) :
    RowInv f0 f A B s0 ((s.load r).store (A.outoff + i) v) (i + 1) := by
  have hb : ∀ off, off ≠ A.outoff + i →
      ((s.load r).store (A.outoff + i) v).bytes off = s.bytes off := by
    intro off hne
    simp [Mem.store, Mem.load, hne]
  have hrow : ∀ t, t ≤ i →
      rowByte f0 f A B s0 ((s.load r).store (A.outoff + i) v) t = rowByte f0 f A B s0 s t := by
    intro t ht
    unfold rowByte
    split
    · rfl
    · rw [hb]
      omega
  constructor
  · intro off hoff
    rw [hb off (by omega)]
    exact h.frame off (by omega)
  · intro t ht
    by_cases hti : t = i
    · subst hti
      rw [hrow t (le_refl _), ← hv]
      simp [Mem.store]
    · rw [hb _ (by omega), hrow t (by omega)]
      exact h.done t (by omega)

/-- The row is made of whole pixels, or the output buffer has exactly the size
of the input: a pixel that the input ends in is cut off by the bound on the
output. -/
theorem partial_pixel (A : ScanArgs)
    (hfull : (∃ m, A.inbuffersize = (m + 1) * A.pixelwidth) ∨ A.outbuffersize = A.inbuffersize)
    (j : Nat) (h1 : j * A.pixelwidth < A.inbuffersize ∨ j = 0)
    (h2 : A.inbuffersize < (j + 1) * A.pixelwidth) : A.outbuffersize = A.inbuffersize := by
  rcases hfull with ⟨m, hm⟩ | h
  · exfalso
    rw [hm] at h1 h2
    have hjm : j < m + 1 := by
      rcases h1 with h1 | h1
      · exact Nat.lt_of_mul_lt_mul_right h1
      · omega
    have := Nat.mul_le_mul_right A.pixelwidth (show j + 1 ≤ m + 1 by omega)
    omega
  · exact h

/-- The inner loop on the first pixel: it runs to its end when the row holds a
whole pixel, and returns at the end of the row otherwise. -/
theorem pixelBytes_first (f0 f : Nat → Nat → Nat → Nat → Nat) (A : ScanArgs) (B : Nat → Nat)
    (s0 : Mem) (n : Nat) (hu : 0 < A.pixelwidth)
    (hout : n ≤ A.outbuffersize) (hB : UpMatches A B s0 n) :
    ∀ k pb s, pb + k = A.pixelwidth → pb ≤ n → RowInv f0 f A B s0 s pb →
      (A.pixelwidth ≤ n →
        ∃ s', pixelBytes f0 A ⟨0, 0, 0, 0⟩ k pb pb s = .next A.pixelwidth s' ∧
          RowInv f0 f A B s0 s' A.pixelwidth) ∧
      (n < A.pixelwidth → A.outbuffersize = n →
        ∃ s', pixelBytes f0 A ⟨0, 0, 0, 0⟩ k pb pb s = .ret s' ∧ RowInv f0 f A B s0 s' n) := by
  intro k
  induction k with
  | zero =>
    intro pb s hk hpb h
    have : pb = A.pixelwidth := by omega
    subst this
    exact ⟨fun _ => ⟨s, rfl, h⟩, fun hlt _ => absurd hpb (by omega)⟩
  | succ k ih =>
    intro pb s hk hpb h
    by_cases hlt : pb < n
    · have hge : ¬ (pb ≥ A.outbuffersize) := by omega
      simp only [pixelBytes, Nat.zero_add, hge, if_false]
      apply ih (pb + 1) _ (by omega) (by omega)
      have hup := hB s (fun off ho => h.frame off (by omega)) 0 pb (by omega) (by omega)
      simp only [Nat.zero_mul, Nat.zero_add] at hup
      apply RowInv.store hu h
      have hlt2 : pb < A.pixelwidth := by omega
      rw [h.frame (A.outoff + pb) (by omega)]
      simp only [rowByte, hlt2, if_true, hup]
    · have hpn : pb = n := by omega
      subst hpn
      refine ⟨fun hle => absurd hle (by omega), fun _ hsz => ⟨s, ?_, h⟩⟩
      have hge : pb ≥ A.outbuffersize := by omega
      simp only [pixelBytes, Nat.zero_add, hge, if_true]

/-- The inner loop on a later pixel: it runs to its end when the row holds the
whole pixel, and returns at the end of the row otherwise. -/
theorem pixelBytes_later (f0 f : Nat → Nat → Nat → Nat → Nat) (A : ScanArgs) (B : Nat → Nat)
    (s0 : Mem) (n j : Nat) (hu : 0 < A.pixelwidth)
    (hout : n ≤ A.outbuffersize) (hB : UpMatches A B s0 n) :
    ∀ k pb s, pb + k = A.pixelwidth → (j + 1) * A.pixelwidth + pb ≤ n →
      RowInv f0 f A B s0 s ((j + 1) * A.pixelwidth + pb) →
      ((j + 1 + 1) * A.pixelwidth ≤ n →
        ∃ s', pixelBytes f A ⟨(j + 1) * A.pixelwidth, j * A.pixelwidth, (j + 1) * A.outupstep,
              j * A.outupstep⟩ k pb ((j + 1) * A.pixelwidth + pb) s
            = .next ((j + 1 + 1) * A.pixelwidth) s' ∧
          RowInv f0 f A B s0 s' ((j + 1 + 1) * A.pixelwidth)) ∧
      (n < (j + 1 + 1) * A.pixelwidth → A.outbuffersize = n →
        ∃ s', pixelBytes f A ⟨(j + 1) * A.pixelwidth, j * A.pixelwidth, (j + 1) * A.outupstep,
              j * A.outupstep⟩ k pb ((j + 1) * A.pixelwidth + pb) s
            = .ret s' ∧
          RowInv f0 f A B s0 s' n) := by
  have e1 : (j + 1 + 1) * A.pixelwidth = (j + 1) * A.pixelwidth + A.pixelwidth := by ring
  have e2 : (j + 1) * A.pixelwidth = j * A.pixelwidth + A.pixelwidth := by ring
  intro k
  induction k with
  | zero =>
    intro pb s hk hpb h
    have : pb = A.pixelwidth := by omega
    subst this
    rw [e1]
    exact ⟨fun _ => ⟨s, rfl, h⟩, fun hlt _ => absurd hpb (by omega)⟩
  | succ k ih =>
    intro pb s hk hpb h
    by_cases hlt : (j + 1) * A.pixelwidth + pb < n
    · have hge : ¬ ((j + 1) * A.pixelwidth + pb ≥ A.outbuffersize) := by omega
      simp only [pixelBytes, hge, if_false]
      apply ih (pb + 1) _ (by omega) (by omega)
      have hfr : ∀ off, off < A.outoff ∨ A.outoff + n ≤ off → s.bytes off = s0.bytes off :=
        fun off ho => h.frame off (by omega)
      have hup := hB s hfr (j + 1) pb (by omega) (by omega)
      have hup' := hB s hfr j pb (by omega) (by omega)
      apply RowInv.store hu h
      have hlt2 : ¬ ((j + 1) * A.pixelwidth + pb < A.pixelwidth) := by omega
      have e3 : (j + 1) * A.pixelwidth + pb - A.pixelwidth = j * A.pixelwidth + pb := by omega
      simp only [rowByte, hlt2, if_false, hup, hup', e3]
    · have hpn : (j + 1) * A.pixelwidth + pb = n := by omega
      refine ⟨fun hle => absurd hle (by omega), fun _ hsz => ⟨s, ?_, hpn ▸ h⟩⟩
      have hge : (j + 1) * A.pixelwidth + pb ≥ A.outbuffersize := by omega
      simp only [pixelBytes, hge, if_true]

/-- The outer loop from pixel `j + 1` on. -/
theorem scanPixels_rows (f0 f : Nat → Nat → Nat → Nat → Nat) (A : ScanArgs) (B : Nat → Nat)
    (s0 : Mem) (hu : 0 < A.pixelwidth) (hstep : A.outstep = A.pixelwidth)
    (hout : A.inbuffersize ≤ A.outbuffersize)
    (hfull : (∃ m, A.inbuffersize = (m + 1) * A.pixelwidth) ∨ A.outbuffersize = A.inbuffersize)
    (hB : UpMatches A B s0 A.inbuffersize) :
    ∀ fuel j s, (j + 1) * A.pixelwidth ≤ A.inbuffersize →
      A.inbuffersize < fuel + (j + 1) * A.pixelwidth →
      RowInv f0 f A B s0 s ((j + 1) * A.pixelwidth) →
      ∃ s', scanPixels f A fuel ⟨(j + 1) * A.pixelwidth, j * A.pixelwidth, (j + 1) * A.outupstep,
            j * A.outupstep⟩ ((j + 1) * A.pixelwidth) s = some s' ∧
        RowInv f0 f A B s0 s' A.inbuffersize := by
  intro fuel
  induction fuel with
  | zero =>
    intro j s hle hfuel h
    omega
  | succ fuel ih =>
    intro j s hle hfuel h
    have e : (j + 1 + 1) * A.pixelwidth = (j + 1) * A.pixelwidth + A.pixelwidth := by ring
    by_cases hlt : (j + 1) * A.pixelwidth < A.inbuffersize
    · obtain ⟨hnext, hret⟩ := pixelBytes_later f0 f A B s0 A.inbuffersize j hu hout hB
        A.pixelwidth 0 s (by omega) (by omega) h
      by_cases hwhole : (j + 1 + 1) * A.pixelwidth ≤ A.inbuffersize
      · obtain ⟨s1, h1, hinv⟩ := hnext hwhole
        simp only [Nat.add_zero] at h1
        simp only [scanPixels, hlt, if_true, h1, hstep]
        rw [← Nat.succ_mul (j + 1) A.pixelwidth, ← Nat.succ_mul (j + 1) A.outupstep]
        exact ih (j + 1) s1 hwhole (by omega) hinv
      · obtain ⟨s1, h1, hinv⟩ := hret (by omega)
          (partial_pixel A hfull (j + 1) (Or.inl hlt) (by omega))
        simp only [Nat.add_zero] at h1
        exact ⟨s1, by simp only [scanPixels, hlt, if_true, h1], hinv⟩
    · have heq : (j + 1) * A.pixelwidth = A.inbuffersize := by omega
      refine ⟨s, by simp only [scanPixels, hlt, if_false], ?_⟩
      rw [← heq]
      exact h

/-- First pixel and outer loop together. -/
theorem scan_rows (f0 f : Nat → Nat → Nat → Nat → Nat) (A : ScanArgs) (B : Nat → Nat)
    (s0 : Mem) (fuel : Nat) (hu : 0 < A.pixelwidth) (hstep : A.outstep = A.pixelwidth)
    (hout : A.inbuffersize ≤ A.outbuffersize)
    (hfull : (∃ m, A.inbuffersize = (m + 1) * A.pixelwidth) ∨ A.outbuffersize = A.inbuffersize)
    (hB : UpMatches A B s0 A.inbuffersize) (hfuel : A.inbuffersize < fuel + A.pixelwidth) :
    ∃ s', (match pixelBytes f0 A ⟨0, 0, 0, 0⟩ A.pixelwidth 0 0 s0 with
        | .ret s' => some s'
        | .next inbyte s' => scanPixels f A fuel ⟨A.outstep, 0, A.outupstep, 0⟩ inbyte s') = some s' ∧
      RowInv f0 f A B s0 s' A.inbuffersize := by
  obtain ⟨hnext, hret⟩ := pixelBytes_first f0 f A B s0 A.inbuffersize hu hout hB
    A.pixelwidth 0 s0 (by omega) (by omega) ⟨fun _ _ => rfl, fun t ht => absurd ht (by omega)⟩
  by_cases hwhole : A.pixelwidth ≤ A.inbuffersize
  · obtain ⟨s1, h1, hinv⟩ := hnext hwhole
    simp only [h1]
    have := scanPixels_rows f0 f A B s0 hu hstep hout hfull hB fuel 0 s1
      (by simpa using hwhole) (by simpa using hfuel) (by simpa using hinv)
    simpa [hstep] using this
  · obtain ⟨s1, h1, hinv⟩ := hret (by omega)
      (partial_pixel A hfull 0 (Or.inr rfl) (by simpa using hwhole))
    exact ⟨s1, by simp only [h1], hinv⟩

/-- Each of the five filters returns and leaves the row its byte functions describe. -/
theorem callFilter_rows (ft : Nat) (hft : ft < 5) (A : ScanArgs) (B : Nat → Nat) (s0 : Mem)
    (hu : 0 < A.pixelwidth) (hstep : A.outstep = A.pixelwidth)
    (hout : A.inbuffersize ≤ A.outbuffersize)
    (hfull : (∃ m, A.inbuffersize = (m + 1) * A.pixelwidth) ∨ A.outbuffersize = A.inbuffersize)
    (hB : UpMatches A B s0 A.inbuffersize) :
    ∃ s', callFilter filtermethod ft A s0 = some s' ∧
      RowInv (firstByte ft) (laterByte ft) A B s0 s' A.inbuffersize := by
  have key := fun f0 f fuel hf =>
    scan_rows f0 f A B s0 fuel hu hstep hout hfull hB hf
  have hempty : A.inbuffersize = 0 → ∀ f0 f, RowInv f0 f A B s0 s0 A.inbuffersize :=
    fun h0 f0 f => ⟨fun _ _ => rfl, fun t ht => absurd ht (by omega)⟩
  interval_cases ft
  · by_cases hpos : 0 < A.inbuffersize
    · have := key (fun x _ _ _ => x) (fun x _ _ _ => x) A.inbuffersize (by omega)
      simpa [callFilter, filtermethod, FilterType.ProcessScanlineR, scanPixels, hpos, firstByte,
        laterByte] using this
    · refine ⟨s0, ?_, hempty (by omega) _ _⟩
      simp [callFilter, filtermethod, FilterType.ProcessScanlineR, scanPixels, hpos]
  · have := key (fun x _ _ _ => x) (fun x a _ _ => x + a) (A.inbuffersize + 1) (by omega)
    simpa [callFilter, filtermethod, FilterTypeSub.ProcessScanlineR, firstByte,
      laterByte] using this
  · by_cases hpos : 0 < A.inbuffersize
    · have := key (fun x _ b _ => x + b) (fun x _ b _ => x + b) A.inbuffersize (by omega)
      simpa [callFilter, filtermethod, FilterTypeUp.ProcessScanlineR, scanPixels, hpos, firstByte,
        laterByte] using this
    · refine ⟨s0, ?_, hempty (by omega) _ _⟩
      simp [callFilter, filtermethod, FilterTypeUp.ProcessScanlineR, scanPixels, hpos]
  · have := key (fun x _ _ _ => x) (fun x a b _ => x + ((a + b) / 2) % 256)
      (A.inbuffersize + 1) (by omega)
    simpa [callFilter, filtermethod, FilterTypeAverage.ProcessScanlineR, firstByte,
      laterByte] using this
  · have := key (fun x _ b _ => x + PaethFunction 0 b 0) (fun x a b c => x + PaethFunction a b c)
      (A.inbuffersize + 1) (by omega)
    simpa [callFilter, filtermethod, FilterTypePaeth.ProcessScanlineR, firstByte,
      laterByte] using this

/-- A filter whose byte function ignores `b` and `c` does not depend on `outupbuffer`. -/
theorem pixelBytes_up (f : Nat → Nat → Nat → Nat → Nat)
    (hf : ∀ x a b c b' c', f x a b c = f x a b' c') (A : ScanArgs) (up : UpBuffer) (c : Cursor) :
    ∀ k pb inbyte s, pixelBytes f { A with outupbuffer := up } c k pb inbyte s
      = pixelBytes f A c k pb inbyte s := by
  intro k
  induction k with
  | zero => intro pb inbyte s; rfl
  | succ k ih =>
    intro pb inbyte s
    simp only [pixelBytes, ih]
    split
    · rfl
    · rw [hf _ _ _ _ (A.outupbuffer.read s (c.uppixel + pb))
        (A.outupbuffer.read s (c.lastuppixel + pb))]

/-- Same for the outer loop. -/
theorem scanPixels_up (f : Nat → Nat → Nat → Nat → Nat)
    (hf : ∀ x a b c b' c', f x a b c = f x a b' c') (A : ScanArgs) (up : UpBuffer) :
    ∀ fuel c inbyte s, scanPixels f { A with outupbuffer := up } fuel c inbyte s
      = scanPixels f A fuel c inbyte s := by
  intro fuel
  induction fuel with
  | zero => intro c inbyte s; rfl
  | succ fuel ih =>
    intro c inbyte s
    simp only [scanPixels, pixelBytes_up f hf, ih]

/-- A row above that is apart from the written row is read unchanged. -/
theorem UpMatches_of_apart (A : ScanArgs) (s0 : Mem) (hupstep : A.outupstep = A.pixelwidth)
    (hup : A.outupbuffer.Apart A.outoff A.inbuffersize) :
    UpMatches A (fun i => A.outupbuffer.read s0 i) s0 A.inbuffersize := by
  intro s' hfr j pb hpb hlt
  rw [hupstep]
  cases hA : A.outupbuffer with
  | ext row => rfl
  | pix off =>
    rw [hA] at hup
    simp only [UpBuffer.read]
    apply hfr
    simp only [UpBuffer.Apart] at hup
    omega

/-- Entry 1 of `filtermethod` is the Sub filter. -/
theorem callFilter_one (A : ScanArgs) (s : Mem) :
    callFilter filtermethod 1 A s = FilterTypeSub.ProcessScanlineR A s := rfl

/-- Entry 4 of `filtermethod` is the Paeth filter. -/
theorem callFilter_four (A : ScanArgs) (s : Mem) :
    callFilter filtermethod 4 A s = FilterTypePaeth.ProcessScanlineR A s := rfl

/-- C2: for a filter unit `u = pixelwidth = outstep >= 1`, an input scanline of
`n = (m + 1) * u` bytes and an output buffer of at least `n` bytes,
`FilterTypeSub::ProcessScanlineR` returns and leaves
`out[i] = (in[i] + out[i - u]) mod 256` for every `i < n`, with `out[i - u]`
taken as 0 when `i < u`. -/
theorem FilterTypeSub_ProcessScanlineR_sub (A : ScanArgs) (s0 : Mem) (m : Nat)
    (hu : 1 ≤ A.pixelwidth) (hstep : A.outstep = A.pixelwidth)
    (hn : A.inbuffersize = (m + 1) * A.pixelwidth) (hout : A.inbuffersize ≤ A.outbuffersize) :
    ∃ s', FilterTypeSub.ProcessScanlineR A s0 = some s' ∧
      ∀ i, i < A.inbuffersize → s'.bytes (A.outoff + i) =
        (A.linedata.getD (A.inoff + i) 0 +
          (if i < A.pixelwidth then 0 else s'.bytes (A.outoff + (i - A.pixelwidth)))) % 256 := by
  have hirr : ∀ x a b c b' c' : Nat, (fun x a _ _ => x + a : Nat → Nat → Nat → Nat → Nat) x a b c
      = (fun x a _ _ => x + a : Nat → Nat → Nat → Nat → Nat) x a b' c' := fun _ _ _ _ _ _ => rfl
  have hirr0 : ∀ x a b c b' c' : Nat, (fun x _ _ _ => x : Nat → Nat → Nat → Nat → Nat) x a b c
      = (fun x _ _ _ => x : Nat → Nat → Nat → Nat → Nat) x a b' c' := fun _ _ _ _ _ _ => rfl
  have hB : UpMatches { A with outupbuffer := .ext [] } (fun _ => 0) s0 A.inbuffersize := by
    intro s' _ j pb _ _
    simp [UpBuffer.read]
  obtain ⟨s', hs, hinv⟩ := callFilter_rows 1 (by omega) { A with outupbuffer := .ext [] }
    (fun _ => 0) s0 hu hstep hout (Or.inl ⟨m, hn⟩) hB
  refine ⟨s', ?_, ?_⟩
  · rw [callFilter_one] at hs
    unfold FilterTypeSub.ProcessScanlineR at hs ⊢
    simp only [pixelBytes_up _ hirr0, scanPixels_up _ hirr] at hs
    exact hs
  · intro i hi
    have := hinv.done i hi
    simp only [rowByte, firstByte, laterByte] at this
    rw [this]
    split <;> simp

/-- C4: for a filter unit `u = pixelwidth = outstep = outupstep >= 1`, an input
scanline of `n = (m + 1) * u` bytes, an output buffer of at least `n` bytes and
a row above of at least `n` bytes that does not overlap the written row,
`FilterTypePaeth::ProcessScanlineR` returns and leaves
`out[i] = (in[i] + PaethFunction(a, b, c)) mod 256` for every `i < n`, where
`a = out[i - u]`, `b = above[i]`, `c = above[i - u]`, with `a` and `c` taken as
0 when `i < u`. -/
theorem FilterTypePaeth_ProcessScanlineR_paeth (A : ScanArgs) (s0 : Mem) (m : Nat)
    (hu : 1 ≤ A.pixelwidth) (hstep : A.outstep = A.pixelwidth)
    (hupstep : A.outupstep = A.pixelwidth)
    (hn : A.inbuffersize = (m + 1) * A.pixelwidth) (hout : A.inbuffersize ≤ A.outbuffersize)
    (hup : A.outupbuffer.Apart A.outoff A.inbuffersize) :
    ∃ s', FilterTypePaeth.ProcessScanlineR A s0 = some s' ∧
      ∀ i, i < A.inbuffersize → s'.bytes (A.outoff + i) =
        (A.linedata.getD (A.inoff + i) 0 +
          PaethFunction (if i < A.pixelwidth then 0 else s'.bytes (A.outoff + (i - A.pixelwidth)))
            (A.outupbuffer.read s0 i)
            (if i < A.pixelwidth then 0 else A.outupbuffer.read s0 (i - A.pixelwidth))) % 256 := by
  obtain ⟨s', hs, hinv⟩ := callFilter_rows 4 (by omega) A _ s0 hu hstep hout
    (Or.inl ⟨m, hn⟩) (UpMatches_of_apart A s0 hupstep hup)
  refine ⟨s', by rw [← callFilter_four]; exact hs, ?_⟩
  intro i hi
  have := hinv.done i hi
  simp only [rowByte, firstByte, laterByte] at this
  rw [this]
  split <;> rfl

/-! ## Frame and termination for arbitrary arguments -/

/-- A zero-filled list reads 0 everywhere. -/
theorem getD_replicate_zero (n i : Nat) : (List.replicate n 0).getD i 0 = 0 := by
  simp only [List.getD_eq_getElem?_getD, List.getElem?_replicate]
  split <;> rfl

/-- `processLine` on scanline `r` when the data holds it. -/
theorem processLine_row (it : InterlaceType) (linedata : List Nat) (r : Nat) (up : UpBuffer)
    (outoff upstep : Nat) (B : Nat → Nat) (m : Mem)
    (hfilters : it.filters = filtermethod) (hu : 0 < it.pixelbytes)
    (hpos : it.inpos = r * (1 + it.linelength))
    (hend : (r + 1) * (1 + it.linelength) ≤ linedata.length) (hfit : linedata.length < 2 ^ 32)
    (hft : linedata.getD (r * (1 + it.linelength)) 0 < 5)
    (hB : UpMatches ⟨linedata, r * (1 + it.linelength) + 1, it.linelength, up, outoff,
      it.linelength, it.pixelbytes, it.pixelbytes, upstep⟩ B m it.linelength) :
    ∃ m', processLine it linedata linedata.length it.linelength up outoff it.linelength
          it.pixelbytes upstep m
        = some (.next { it with inpos := (r + 1) * (1 + it.linelength) } m') ∧
      RowInv (firstByte (linedata.getD (r * (1 + it.linelength)) 0))
        (laterByte (linedata.getD (r * (1 + it.linelength)) 0))
        ⟨linedata, r * (1 + it.linelength) + 1, it.linelength, up, outoff,
          it.linelength, it.pixelbytes, it.pixelbytes, upstep⟩ B m m' it.linelength := by
  have e : (r + 1) * (1 + it.linelength) = r * (1 + it.linelength) + 1 + it.linelength := by ring
  have h1 : (r * (1 + it.linelength) + 1) % 2 ^ 32 = r * (1 + it.linelength) + 1 :=
    Nat.mod_eq_of_lt (by omega)
  have h2 : (r * (1 + it.linelength) + 1 + it.linelength) % 2 ^ 32
      = r * (1 + it.linelength) + 1 + it.linelength := Nat.mod_eq_of_lt (by omega)
  have h3 : ¬ (r * (1 + it.linelength) + 1 + it.linelength > linedata.length) := by omega
  obtain ⟨m', hs, hinv⟩ := callFilter_rows (linedata.getD (r * (1 + it.linelength)) 0) hft
    ⟨linedata, r * (1 + it.linelength) + 1, it.linelength, up, outoff,
      it.linelength, it.pixelbytes, it.pixelbytes, upstep⟩ B
    (m.load (r * (1 + it.linelength))) hu rfl (le_refl _) (Or.inr rfl) hB
  refine ⟨m', ?_, ⟨hinv.frame, hinv.done⟩⟩
  simp only [processLine, hpos, h1, h2, h3, if_false, hfilters, hs, e]

/-- Masks with `0x7`, `0x3`, `0x1` are remainders. -/
theorem and_seven (w : Nat) : w &&& 7 = w % 8 := Nat.and_pow_two_sub_one_eq_mod w 3
theorem and_three (w : Nat) : w &&& 3 = w % 4 := Nat.and_pow_two_sub_one_eq_mod w 2
theorem and_one (w : Nat) : w &&& 1 = w % 2 := Nat.and_pow_two_sub_one_eq_mod w 1

/-- C10 (amended): for every header with a valid non-indexed (bit depth, colour
type) pair whose `ceil(width * bit_depth * samples_per_pixel / 8)` is below
`2 ^ 32`, the `linelength` the `InterlaceType` constructor computes equals that
number. -/
theorem InterlaceType_new_linelength (ftable : FilterMethodTable) (head : PNGHeader)
    (uninit : Nat) (hvalid : validPair head.depth head.colortype) (hni : head.colortype ≠ 3)
    (hfit : bytesPerRow head.width head.depth head.colortype < 2 ^ 32) :
    (InterlaceType.new ftable head uninit).linelength
      = bytesPerRow head.width head.depth head.colortype := by
  unfold bytesPerRow at *
  rcases hvalid with ⟨hc, hd⟩ | ⟨hc, _⟩ | ⟨hc, hd⟩
  · rcases hd with hd | hd | hd | hd | hd <;>
      simp only [InterlaceType.new, hd, hc, samplesPerPixel, and_seven, and_three, and_one] at * <;>
      simp <;> first | omega | (split <;> omega)
  · exact absurd hc hni
  · rcases hc with hc | hc | hc <;> rcases hd with hd | hd <;>
      simp only [InterlaceType.new, hd, hc, samplesPerPixel] at * <;>
      simp <;> omega

/-! ## The filters of section 4.5 -/

/-- C1: for all bytes `a`, `b`, `c`, `PaethFunction(a, b, c)` is one of `a`, `b`,
`c`, its distance to `p = a + b - c` (a signed integer, no wrap-around) is the
smallest of the three distances, and ties are resolved in the order `a`, then
`b`, then `c`. -/
theorem PaethFunction_nearest (a b c : Nat) (_ha : a < 256) (_hb : b < 256) (_hc : c < 256) :
    (PaethFunction a b c = a ∨ PaethFunction a b c = b ∨ PaethFunction a b c = c) ∧
    |(a : Int) + b - c - PaethFunction a b c| ≤ |(a : Int) + b - c - a| ∧
    |(a : Int) + b - c - PaethFunction a b c| ≤ |(a : Int) + b - c - b| ∧
    |(a : Int) + b - c - PaethFunction a b c| ≤ |(a : Int) + b - c - c| ∧
    (|(a : Int) + b - c - a| ≤ |(a : Int) + b - c - b| →
      |(a : Int) + b - c - a| ≤ |(a : Int) + b - c - c| → PaethFunction a b c = a) ∧
    (¬ (|(a : Int) + b - c - a| ≤ |(a : Int) + b - c - b| ∧
        |(a : Int) + b - c - a| ≤ |(a : Int) + b - c - c|) →
      |(a : Int) + b - c - b| ≤ |(a : Int) + b - c - c| → PaethFunction a b c = b) ∧
    (¬ (|(a : Int) + b - c - a| ≤ |(a : Int) + b - c - b| ∧
        |(a : Int) + b - c - a| ≤ |(a : Int) + b - c - c|) →
      ¬ |(a : Int) + b - c - b| ≤ |(a : Int) + b - c - c| → PaethFunction a b c = c) := by
  have e : ∀ z : Int, (if z < 0 then -z else z) = |z| := by
    intro z
    split
    · rw [abs_of_neg (by assumption)]
    · rw [abs_of_nonneg (by omega)]
  simp only [PaethFunction, e]
  split_ifs with h1 h2
  · exact ⟨Or.inl rfl, le_refl _, h1.1, h1.2, fun _ _ => rfl, fun h => absurd h1 h,
      fun h => absurd h1 h⟩
  · refine ⟨Or.inr (Or.inl rfl), ?_, le_refl _, h2, fun h3 h4 => absurd ⟨h3, h4⟩ h1,
      fun _ _ => rfl, fun _ h => absurd h2 h⟩
    by_contra hlt
    push_neg at hlt
    exact h1 ⟨le_of_lt hlt, le_trans (le_of_lt hlt) h2⟩
  · push_neg at h2
    refine ⟨Or.inr (Or.inr rfl), ?_, le_of_lt h2, le_refl _, fun h3 h4 => absurd ⟨h3, h4⟩ h1,
      fun _ h => absurd h (not_le.mpr h2), fun _ _ => rfl⟩
    by_contra hlt
    push_neg at hlt
    exact h1 ⟨le_trans (le_of_lt hlt) (le_of_lt h2), le_of_lt hlt⟩

/-- Witness for C1 at `a = 10`, `b = 20`, `c = 12`: `p = 18`, the distances are
8, 2 and 6, and the result is `b = 20`. -/
theorem PaethFunction_nearest_witness :
    (10 < 256 ∧ 20 < 256 ∧ 12 < 256) ∧ PaethFunction 10 20 12 = 20 ∧
    ((PaethFunction 10 20 12 = 10 ∨ PaethFunction 10 20 12 = 20 ∨ PaethFunction 10 20 12 = 12) ∧
    |((10 : Nat) : Int) + (20 : Nat) - (12 : Nat) - PaethFunction 10 20 12|
      ≤ |((10 : Nat) : Int) + (20 : Nat) - (12 : Nat) - (10 : Nat)| ∧
    |((10 : Nat) : Int) + (20 : Nat) - (12 : Nat) - PaethFunction 10 20 12|
      ≤ |((10 : Nat) : Int) + (20 : Nat) - (12 : Nat) - (20 : Nat)| ∧
    |((10 : Nat) : Int) + (20 : Nat) - (12 : Nat) - PaethFunction 10 20 12|
      ≤ |((10 : Nat) : Int) + (20 : Nat) - (12 : Nat) - (12 : Nat)| ∧
    (|((10 : Nat) : Int) + (20 : Nat) - (12 : Nat) - (10 : Nat)|
        ≤ |((10 : Nat) : Int) + (20 : Nat) - (12 : Nat) - (20 : Nat)| →
      |((10 : Nat) : Int) + (20 : Nat) - (12 : Nat) - (10 : Nat)|
        ≤ |((10 : Nat) : Int) + (20 : Nat) - (12 : Nat) - (12 : Nat)| →
      PaethFunction 10 20 12 = 10) ∧
    (¬ (|((10 : Nat) : Int) + (20 : Nat) - (12 : Nat) - (10 : Nat)|
          ≤ |((10 : Nat) : Int) + (20 : Nat) - (12 : Nat) - (20 : Nat)| ∧
        |((10 : Nat) : Int) + (20 : Nat) - (12 : Nat) - (10 : Nat)|
          ≤ |((10 : Nat) : Int) + (20 : Nat) - (12 : Nat) - (12 : Nat)|) →
      |((10 : Nat) : Int) + (20 : Nat) - (12 : Nat) - (20 : Nat)|
        ≤ |((10 : Nat) : Int) + (20 : Nat) - (12 : Nat) - (12 : Nat)| →
      PaethFunction 10 20 12 = 20) ∧
    (¬ (|((10 : Nat) : Int) + (20 : Nat) - (12 : Nat) - (10 : Nat)|
          ≤ |((10 : Nat) : Int) + (20 : Nat) - (12 : Nat) - (20 : Nat)| ∧
        |((10 : Nat) : Int) + (20 : Nat) - (12 : Nat) - (10 : Nat)|
          ≤ |((10 : Nat) : Int) + (20 : Nat) - (12 : Nat) - (12 : Nat)|) →
      ¬ |((10 : Nat) : Int) + (20 : Nat) - (12 : Nat) - (20 : Nat)|
        ≤ |((10 : Nat) : Int) + (20 : Nat) - (12 : Nat) - (12 : Nat)| →
      PaethFunction 10 20 12 = 12)) :=
  ⟨by decide, by decide, PaethFunction_nearest 10 20 12 (by decide) (by decide) (by decide)⟩

/-- Witness for C2: the input `10 05 FA` with `u = 1` gives `10 15 0F`. -/
theorem FilterTypeSub_ProcessScanlineR_sub_witness :
    ∃ s', FilterTypeSub.ProcessScanlineR ⟨[0x10, 0x05, 0xFA], 0, 3, .ext zero, 0, 3, 1, 1, 1⟩
        Mem.fresh = some s' ∧
      (∀ i, i < 3 → s'.bytes (0 + i) =
        ([0x10, 0x05, 0xFA].getD (0 + i) 0 +
          (if i < 1 then 0 else s'.bytes (0 + (i - 1)))) % 256) ∧
      (List.range 3).map s'.bytes = [0x10, 0x15, 0x0F] := by
  obtain ⟨s', h, hrow⟩ := FilterTypeSub_ProcessScanlineR_sub
    ⟨[0x10, 0x05, 0xFA], 0, 3, .ext zero, 0, 3, 1, 1, 1⟩ Mem.fresh 2 (by decide) rfl rfl
    (by decide)
  refine ⟨s', h, hrow, ?_⟩
  have h2 : (FilterTypeSub.ProcessScanlineR ⟨[0x10, 0x05, 0xFA], 0, 3, .ext zero, 0, 3, 1, 1, 1⟩
      Mem.fresh).map (fun m => (List.range 3).map m.bytes) = some [0x10, 0x15, 0x0F] := by decide
  rw [h] at h2
  simpa using h2

/-- C3, on a failing input: with `u = 1`, the one-byte scanline `00` and the row
above `02`, `FilterTypeAverage::ProcessScanlineR` leaves `out[0] = 0`, while
`(in[0] + floor((0 + above[0]) / 2)) mod 256` is 1: the first pixel is copied
and the byte above is not used. The same happens to the second row of a 1x2
grayscale image with data `00 02 03 00`. -/
theorem FilterTypeAverage_first_pixel_copied :
    (FilterTypeAverage.ProcessScanlineR ⟨[0], 0, 1, .ext [2], 0, 1, 1, 1, 1⟩ Mem.fresh).map
      (fun m => m.bytes 0) = some 0 ∧
    ([0].getD 0 0 + (0 + [2].getD 0 0) / 2) % 256 = 1 ∧
    ((InterlaceType.new filtermethod ⟨1, 2, 8, 0, 0, 0, 0⟩ 0).Deinterlace [0, 2, 3, 0]
      ⟨1, true, Mem.fresh, 0, 0⟩).map (fun r => (List.range 2).map r.2.mem.bytes)
      = some [2, 0] := by
  decide

/-- Witness for C4: the scanline `01 02` under the row `0A 14` with `u = 1`
gives `0B 16`. -/
theorem FilterTypePaeth_ProcessScanlineR_paeth_witness :
    ∃ s', FilterTypePaeth.ProcessScanlineR ⟨[1, 2], 0, 2, .ext [10, 20], 0, 2, 1, 1, 1⟩
        Mem.fresh = some s' ∧
      (∀ i, i < 2 → s'.bytes (0 + i) =
        ([1, 2].getD (0 + i) 0 +
          PaethFunction (if i < 1 then 0 else s'.bytes (0 + (i - 1)))
            ((UpBuffer.ext [10, 20]).read Mem.fresh i)
            (if i < 1 then 0 else (UpBuffer.ext [10, 20]).read Mem.fresh (i - 1))) % 256) ∧
      (List.range 2).map s'.bytes = [11, 22] := by
  obtain ⟨s', h, hrow⟩ := FilterTypePaeth_ProcessScanlineR_paeth
    ⟨[1, 2], 0, 2, .ext [10, 20], 0, 2, 1, 1, 1⟩ Mem.fresh 1 (by decide) rfl rfl rfl
    (by decide) (by simp [UpBuffer.Apart])
  refine ⟨s', h, hrow, ?_⟩
  have h2 : (FilterTypePaeth.ProcessScanlineR ⟨[1, 2], 0, 2, .ext [10, 20], 0, 2, 1, 1, 1⟩
      Mem.fresh).map (fun m => (List.range 2).map m.bytes) = some [11, 22] := by decide
  rw [h] at h2
  simpa using h2

/-- C6, on failing inputs: for a 1x1 8-bit grayscale image with pitch 1 and the
four data bytes `00 10 00 20`, `InterlaceType::Deinterlace` stores to offsets 0
and 1 of a region of `pitch * height = 1` byte; for the 8x1 8-bit grayscale
raster `01 .. 08` with pitch 8, `InterlaceTypeAdam7::Deinterlace` on its Adam7
serialization stores to offsets 32 and 36 of a region of 8 bytes. -/
theorem Deinterlace_stores_past_region :
    ((InterlaceType.new filtermethod ⟨1, 1, 8, 0, 0, 0, 0⟩ 0).Deinterlace [0, 0x10, 0, 0x20]
      ⟨1, true, Mem.fresh, 0, 0⟩).map (fun r => r.2.mem.writes) = some [1, 0] ∧
    ((InterlaceType.new filtermethod ⟨1, 1, 8, 0, 0, 0, 0⟩ 0).Deinterlace [0, 0x10, 0, 0x20]
      ⟨1, true, Mem.fresh, 0, 0⟩).map
        (fun r => r.2.mem.writes.any (fun off => decide (1 * 1 ≤ off))) = some true ∧
    (InterlaceTypeAdam7.Deinterlace (InterlaceType.new filtermethod ⟨8, 1, 8, 0, 0, 0, 1⟩ 0)
      (adam7Scanlines 8 1 1 [1, 2, 3, 4, 5, 6, 7, 8]) ⟨8, true, Mem.fresh, 0, 0⟩).map
        (fun r => r.2.mem.writes) = some [6, 2, 36, 32, 4, 0] ∧
    (InterlaceTypeAdam7.Deinterlace (InterlaceType.new filtermethod ⟨8, 1, 8, 0, 0, 0, 1⟩ 0)
      (adam7Scanlines 8 1 1 [1, 2, 3, 4, 5, 6, 7, 8]) ⟨8, true, Mem.fresh, 0, 0⟩).map
        (fun r => r.2.mem.writes.any (fun off => decide (8 * 1 ≤ off))) = some true := by
  decide

/-- C7, on the witness and on a failing input: for the 8x8 8-bit grayscale
checkerboard both expanders leave the 64 bytes of the raster; for the 8x1 8-bit
grayscale raster `01 .. 08` the non-interlaced expander leaves `01 .. 08` and
the Adam7 expander leaves `01 00 02 00 05 00 04 00`. -/
theorem Adam7_Deinterlace_differs :
    (InterlaceTypeAdam7.Deinterlace (InterlaceType.new filtermethod ⟨8, 8, 8, 0, 0, 0, 1⟩ 0)
      (adam7Scanlines 8 8 1 checkerboard) ⟨8, true, Mem.fresh, 0, 0⟩).map
        (fun r => (List.range 64).map r.2.mem.bytes) = some checkerboard ∧
    ((InterlaceType.new filtermethod ⟨8, 8, 8, 0, 0, 0, 0⟩ 0).Deinterlace
      (nullScanlines 8 8 1 checkerboard) ⟨8, true, Mem.fresh, 0, 0⟩).map
        (fun r => (List.range 64).map r.2.mem.bytes) = some checkerboard ∧
    adam7Scanlines 8 1 1 [1, 2, 3, 4, 5, 6, 7, 8] = [0, 1, 0, 5, 0, 3, 7, 0, 2, 4, 6, 8] ∧
    nullScanlines 8 1 1 [1, 2, 3, 4, 5, 6, 7, 8] = [0, 1, 2, 3, 4, 5, 6, 7, 8] ∧
    (InterlaceTypeAdam7.Deinterlace (InterlaceType.new filtermethod ⟨8, 1, 8, 0, 0, 0, 1⟩ 0)
      (adam7Scanlines 8 1 1 [1, 2, 3, 4, 5, 6, 7, 8]) ⟨8, true, Mem.fresh, 0, 0⟩).map
        (fun r => (List.range 8).map r.2.mem.bytes) = some [1, 0, 2, 0, 5, 0, 4, 0] ∧
    ((InterlaceType.new filtermethod ⟨8, 1, 8, 0, 0, 0, 0⟩ 0).Deinterlace
      (nullScanlines 8 1 1 [1, 2, 3, 4, 5, 6, 7, 8]) ⟨8, true, Mem.fresh, 0, 0⟩).map
        (fun r => (List.range 8).map r.2.mem.bytes) = some [1, 2, 3, 4, 5, 6, 7, 8] := by
  decide

/-- C8, on failing inputs: for width 1 and one byte per pixel the code computes
the scanline length 0 for pass 1, where `ceil((1 - 0) / 8)` is 1, and
`2 ^ 32 - 1` for pass 2, where the width does not exceed the column offset and
the length should be 0; for width 9 it computes 1 for pass 1, where
`ceil(9 / 8)` is 2. -/
theorem passlinelength_differs :
    passlinelength 1 1 0 = 0 ∧ 1 * passWidth 1 0 = 1 ∧
    passlinelength 1 1 1 = 4294967295 ∧ 1 * passWidth 1 1 = 0 ∧
    passlinelength 9 1 0 = 1 ∧ 1 * passWidth 9 0 = 2 := by
  decide

/-- C9, on a failing input: the 8x1 8-bit grayscale raster `01 .. 08` with
pitch 8. Pass 3 (index 2) has row offset 4 and so no row. After passes 1 and 2
the expander is at `inpos = 4` and has stored to offsets 0 and 4; after pass 3
it is at `inpos = 7`, has read the bytes 4, 5, 6 of the stream (the first of
them as a filter byte) and has stored to offsets 32 and 36. -/
theorem adam7Pass_empty_pass_runs :
    (1 ≤ pass_rowoffset.getD 2 0) ∧
    (passLoop (adam7Scanlines 8 1 1 [1, 2, 3, 4, 5, 6, 7, 8]) 12 8 2
      (InterlaceType.new filtermethod ⟨8, 1, 8, 0, 0, 0, 1⟩ 0) Mem.fresh).map
        (fun fl => (fl.it.pass, fl.it.inpos, fl.mem.writes, fl.mem.reads))
      = some (2, 4, [4, 0], [3, 2, 1, 0]) ∧
    (passLoop (adam7Scanlines 8 1 1 [1, 2, 3, 4, 5, 6, 7, 8]) 12 8 3
      (InterlaceType.new filtermethod ⟨8, 1, 8, 0, 0, 0, 1⟩ 0) Mem.fresh).map
        (fun fl => (fl.it.pass, fl.it.inpos, fl.mem.writes, fl.mem.reads))
      = some (3, 7, [36, 32, 4, 0], [6, 5, 4, 3, 2, 1, 0]) := by
  decide

/-- Counterexample to C10 as stated: for the valid pair (8, indexed) and width 1
the constructor computes `linelength = 4`, not `ceil(1 * 8 * 1 / 8) = 1`; and
for the valid pair (16, RGBA) and width `2 ^ 29` the 32-bit product wraps to 0,
not `2 ^ 32`. -/
theorem InterlaceType_new_linelength_indexed :
    validPair 8 3 ∧
    (InterlaceType.new filtermethod ⟨1, 1, 8, 3, 0, 0, 0⟩ 0).linelength = 4 ∧
    bytesPerRow 1 8 3 = 1 ∧
    validPair 16 6 ∧
    (InterlaceType.new filtermethod ⟨536870912, 1, 16, 6, 0, 0, 0⟩ 0).linelength = 0 ∧
    bytesPerRow 536870912 16 6 = 4294967296 := by
  unfold validPair
  decide

/-- Witness for C10 (amended): 1-bit grayscale, width 3, one byte per row. -/
theorem InterlaceType_new_linelength_witness :
    validPair 1 0 ∧ (0 : Nat) ≠ 3 ∧ bytesPerRow 3 1 0 < 2 ^ 32 ∧
    (InterlaceType.new filtermethod ⟨3, 1, 1, 0, 0, 0, 0⟩ 0).linelength = bytesPerRow 3 1 0 :=
  ⟨by unfold validPair; decide, by decide, by decide,
    InterlaceType_new_linelength filtermethod ⟨3, 1, 1, 0, 0, 0, 0⟩ 0
      (by unfold validPair; decide) (by decide) (by decide)⟩

end trillek.png

namespace trillek.util.algorithm

/-! ## The bit-stream reader -/

theorem lor_shift (a b i : Nat) (h : b < 2 ^ i) : b ||| (a * 2 ^ i) = b + a * 2 ^ i := by
  rw [Nat.lor_comm, Nat.mul_comm a, ← Nat.mul_add_lt_is_or h]
  omega

theorem WF.byte {s : BitStreamDecoder} (h : s.WF) (hp : s.inpos < s.indata.length) :
    s.indata.getD s.inpos 0 < 256 := by
  rw [List.getD_eq_getElem _ _ hp]
  exact h.bytes _ (List.getElem_mem hp)

theorem pow_le_24 {n : Nat} (h : n ≤ 24) : 2 ^ n ≤ 16777216 := by
  have := Nat.pow_le_pow_right (by norm_num : 0 < 2) h
  simpa using this

/-- The reader after one more byte has been moved into the accumulator. -/
theorem LoadByte_loads (s : BitStreamDecoder) (h : s.WF) (h24 : s.num_bits ≤ 24)
    (hp : s.inpos < s.indata.length) :
    s.LoadByte = (⟨0⟩, s.loaded) := by
  have hb := WF.byte h hp
  have hpow := pow_le_24 h24
  have hbuf := h.buffer
  have hlt : s.indata.getD s.inpos 0 * 2 ^ s.num_bits < 2 ^ 32 := by
    calc s.indata.getD s.inpos 0 * 2 ^ s.num_bits ≤ 255 * 16777216 :=
          Nat.mul_le_mul (by omega) hpow
      _ < 2 ^ 32 := by norm_num
  unfold BitStreamDecoder.LoadByte BitStreamDecoder.loaded
  rw [if_pos h24, Nat.one_shiftLeft, if_neg (by simpa using hbuf), if_pos hp,
    Nat.shiftLeft_eq, Nat.mod_eq_of_lt hlt, lor_shift _ _ _ hbuf,
    Nat.mod_eq_of_lt (by omega : s.num_bits + 8 < 2 ^ 32)]

theorem LoadFull_eq_LoadByte (s : BitStreamDecoder) : s.LoadFull = s.LoadByte := rfl

theorem bytesValue_drop {l : List Nat} {p : Nat} (hp : p < l.length) :
    bytesValue (l.drop p) = l.getD p 0 + 256 * bytesValue (l.drop (p + 1)) := by
  rw [List.drop_eq_getElem_cons hp, List.getD_eq_getElem _ _ hp]
  rfl

theorem loaded_stream (s : BitStreamDecoder) (hp : s.inpos < s.indata.length) :
    s.loaded.stream = s.stream := by
  unfold BitStreamDecoder.stream BitStreamDecoder.loaded
  simp only [bytesValue_drop hp, pow_add]
  ring

theorem loaded_bitsLeft (s : BitStreamDecoder) (hp : s.inpos < s.indata.length) :
    s.loaded.bitsLeft = s.bitsLeft := by
  unfold BitStreamDecoder.bitsLeft BitStreamDecoder.loaded
  simp only
  omega

theorem loaded_WF (s : BitStreamDecoder) (h : s.WF) (h24 : s.num_bits ≤ 24)
    (hp : s.inpos < s.indata.length) : s.loaded.WF := by
  have hb := WF.byte h hp
  have hbuf := h.buffer
  refine ⟨?_, ?_, ?_, h.bytes⟩
  · show s.num_bits + 8 ≤ 32
    omega
  · show s.bit_buffer + s.indata.getD s.inpos 0 * 2 ^ s.num_bits < 2 ^ (s.num_bits + 8)
    rw [pow_add]
    have : s.indata.getD s.inpos 0 * 2 ^ s.num_bits ≤ 255 * 2 ^ s.num_bits :=
      Nat.mul_le_mul (by omega) le_rfl
    omega
  · show s.inpos + 1 ≤ s.indata.length
    omega

/-- What `LoadByte` does to a reader in good order. -/
theorem LoadByte_cases (s : BitStreamDecoder) (h : s.WF) :
    (s.num_bits ≤ 24 ∧ s.inpos < s.indata.length ∧ s.LoadByte = (⟨0⟩, s.loaded))
    ∨ (s.num_bits ≤ 24 ∧ ¬ s.inpos < s.indata.length ∧ s.LoadByte = (⟨1⟩, s))
    ∨ (24 < s.num_bits ∧ s.LoadByte = (⟨0⟩, s)) := by
  by_cases h24 : s.num_bits ≤ 24
  · by_cases hp : s.inpos < s.indata.length
    · exact Or.inl ⟨h24, hp, LoadByte_loads s h h24 hp⟩
    · refine Or.inr (Or.inl ⟨h24, hp, ?_⟩)
      unfold BitStreamDecoder.LoadByte
      rw [if_pos h24, Nat.one_shiftLeft, if_neg (by simpa using h.buffer), if_neg hp]
  · refine Or.inr (Or.inr ⟨by omega, ?_⟩)
    unfold BitStreamDecoder.LoadByte
    rw [if_neg h24]

theorem LoadByte_WF (s : BitStreamDecoder) (h : s.WF) : s.LoadByte.2.WF := by
  rcases LoadByte_cases s h with ⟨h24, hp, e⟩ | ⟨_, _, e⟩ | ⟨_, e⟩ <;> rw [e]
  · exact loaded_WF s h h24 hp
  · exact h
  · exact h

theorem requireLoop_WF (n : Nat) : ∀ (fuel : Nat) (s : BitStreamDecoder) (r : void_er × BitStreamDecoder),
    s.WF → BitStreamDecoder.requireLoop n fuel s = some r → r.2.WF := by
  intro fuel
  induction fuel with
  | zero => intro s r _ e; simp [BitStreamDecoder.requireLoop] at e
  | succ fuel ih =>
    intro s r h e
    unfold BitStreamDecoder.requireLoop at e
    split at e
    · simp only at e
      split at e
      · cases e; exact LoadByte_WF s h
      · exact ih _ _ (LoadByte_WF s h) e
    · cases e; exact h

theorem Require_WF (s : BitStreamDecoder) (n : Nat) (r : void_er × BitStreamDecoder)
    (h : s.WF) (e : s.Require n = .ok r) : r.2.WF := by
  unfold BitStreamDecoder.Require at e
  dsimp only at e
  split_ifs at e
  all_goals first
    | (cases e; exact h)
    | (split at e
       · cases e
       · next r1 e1 => cases e; exact requireLoop_WF _ _ _ _ h e1)



theorem taken_WF (s : BitStreamDecoder) (n : Nat) (h : s.WF) (hn : n ≤ s.num_bits) :
    (s.taken n).WF := by
  refine ⟨?_, ?_, h.pos, h.bytes⟩
  · show s.num_bits - n ≤ 32
    have := h.bits
    omega
  · show s.bit_buffer / 2 ^ n < 2 ^ (s.num_bits - n)
    rw [Nat.div_lt_iff_lt_mul (Nat.two_pow_pos n), ← pow_add, Nat.sub_add_cancel hn]
    exact h.buffer

theorem stream_split (s : BitStreamDecoder) (n : Nat) (hn : n ≤ s.num_bits) :
    s.stream = s.bit_buffer
      + 2 ^ n * (2 ^ (s.num_bits - n) * bytesValue (s.indata.drop s.inpos)) := by
  unfold BitStreamDecoder.stream
  rw [← Nat.mul_assoc, ← pow_add, Nat.add_sub_cancel' hn]

theorem taken_stream (s : BitStreamDecoder) (n : Nat) (hn : n ≤ s.num_bits) :
    (s.taken n).stream = s.stream / 2 ^ n := by
  rw [stream_split s n hn, Nat.add_mul_div_left _ _ (Nat.two_pow_pos n)]
  rfl

theorem buffer_mod (s : BitStreamDecoder) (n : Nat) (hn : n ≤ s.num_bits) :
    s.bit_buffer % 2 ^ n = s.stream % 2 ^ n := by
  rw [stream_split s n hn, Nat.add_mul_mod_self_left]

theorem taken_bitsLeft (s : BitStreamDecoder) (n : Nat) (hn : n ≤ s.num_bits) :
    (s.taken n).bitsLeft + n = s.bitsLeft := by
  unfold BitStreamDecoder.bitsLeft BitStreamDecoder.taken
  simp only
  omega

/-- The call `GetBits(n)` when the accumulator holds `n` bits. -/
theorem GetBits_direct (s : BitStreamDecoder) (n : Nat) (h : s.WF) (hn : n ≤ s.num_bits)
    (h32 : n < 32) :
    s.GetBits n = .ok (⟨s.bit_buffer % 2 ^ n, 0⟩, s.taken n) := by
  have hb := h.bits
  unfold BitStreamDecoder.GetBits BitStreamDecoder.taken
  rw [if_neg (by omega)]
  simp only [if_neg (by omega : ¬ s.num_bits < n)]
  rw [if_neg (by omega), if_neg (by omega), Nat.one_shiftLeft, Nat.and_pow_two_sub_one_eq_mod,
    Nat.shiftRight_eq_div_pow]
  have : (s.num_bits + 2 ^ 32 - n) % 2 ^ 32 = s.num_bits - n := by omega
  rw [this]

/-- The call `GetBits(n)` when the accumulator holds `n` bits after one byte is
loaded. -/
theorem GetBits_load (s : BitStreamDecoder) (n : Nat) (h : s.WF) (hn : s.num_bits < n)
    (h8 : n ≤ s.num_bits + 8) (h24 : s.num_bits ≤ 24) (hp : s.inpos < s.indata.length)
    (h32 : n < 32) :
    s.GetBits n = .ok (⟨s.loaded.bit_buffer % 2 ^ n, 0⟩, s.loaded.taken n) := by
  have hb := h.bits
  have hl : s.loaded.num_bits = s.num_bits + 8 := rfl
  unfold BitStreamDecoder.GetBits BitStreamDecoder.taken
  rw [if_neg (by omega)]
  simp only [if_pos hn, LoadFull_eq_LoadByte, LoadByte_loads s h h24 hp]
  rw [if_neg (by rintro ⟨_, h2, _⟩; have h3 : s.num_bits + 8 < n := h2; omega), if_neg (by omega), Nat.one_shiftLeft,
    Nat.and_pow_two_sub_one_eq_mod, Nat.shiftRight_eq_div_pow]
  have : (s.loaded.num_bits + 2 ^ 32 - n) % 2 ^ 32 = s.loaded.num_bits - n := by omega
  rw [this]

/-- The call `GetBits(n)` returns the next `n` bits and takes them from the stream when
the accumulator holds them after its one load. -/
theorem GetBits_spec (s : BitStreamDecoder) (n : Nat) (h : s.WF) (h32 : n < 32)
    (ha : inAccumulator s n) :
    ∃ s1, s.GetBits n = .ok (⟨s.stream % 2 ^ n, 0⟩, s1) ∧ s1.WF
      ∧ s1.stream = s.stream / 2 ^ n ∧ s1.bitsLeft + n = s.bitsLeft
      ∧ s1.indata = s.indata := by
  by_cases hn : n ≤ s.num_bits
  · exact ⟨s.taken n, by rw [GetBits_direct s n h hn h32, buffer_mod s n hn],
      taken_WF s n h hn, taken_stream s n hn, taken_bitsLeft s n hn, rfl⟩
  · rcases ha with ha | ⟨h24, hp, h8⟩
    · exact absurd ha hn
    · have hn1 : n ≤ s.loaded.num_bits := h8
      refine ⟨s.loaded.taken n, ?_, taken_WF _ n (loaded_WF s h h24 hp) hn1, ?_, ?_, rfl⟩
      · rw [GetBits_load s n h (by omega) h8 h24 hp h32, buffer_mod _ n hn1, loaded_stream s hp]
      · rw [taken_stream _ n hn1, loaded_stream s hp]
      · rw [taken_bitsLeft _ n hn1, loaded_bitsLeft s hp]

theorem requireLoop_spec (n : Nat) (hn : n ≤ 24) : ∀ (fuel : Nat) (s : BitStreamDecoder),
    s.WF → n ≤ s.bitsLeft → n ≤ s.num_bits + 8 * fuel →
    ∃ s1, BitStreamDecoder.requireLoop n (fuel + 1) s = some (⟨0⟩, s1) ∧ s1.WF
      ∧ n ≤ s1.num_bits ∧ s1.stream = s.stream ∧ s1.bitsLeft = s.bitsLeft
      ∧ s1.indata = s.indata := by
  intro fuel
  induction fuel with
  | zero =>
    intro s h _ hf
    refine ⟨s, ?_, h, by omega, rfl, rfl, rfl⟩
    unfold BitStreamDecoder.requireLoop
    rw [if_neg (by omega)]
  | succ fuel ih =>
    intro s h hl hf
    by_cases c : s.num_bits < n
    · have hp : s.inpos < s.indata.length := by
        unfold BitStreamDecoder.bitsLeft at hl
        omega
      have h24 : s.num_bits ≤ 24 := by omega
      obtain ⟨s1, e, hw, hn1, hs, hb, hi⟩ := ih s.loaded (loaded_WF s h h24 hp)
        (by rw [loaded_bitsLeft s hp]; exact hl)
        (by show n ≤ s.num_bits + 8 + 8 * fuel; omega)
      refine ⟨s1, ?_, hw, hn1, by rw [hs, loaded_stream s hp],
        by rw [hb, loaded_bitsLeft s hp], by rw [hi]; rfl⟩
      rw [BitStreamDecoder.requireLoop, if_pos c]
      simp only [LoadByte_loads s h h24 hp]
      rw [if_neg (by simp)]
      exact e
    · refine ⟨s, ?_, h, by omega, rfl, rfl, rfl⟩
      unfold BitStreamDecoder.requireLoop
      rw [if_neg c]

/-- The call `Require(n)` for `n <= 24` when `n` bits remain. -/
theorem Require_spec (s : BitStreamDecoder) (n : Nat) (hn : n ≤ 24) (h : s.WF)
    (hl : n ≤ s.bitsLeft) :
    ∃ s1, s.Require n = .ok (⟨0⟩, s1) ∧ s1.WF ∧ n ≤ s1.num_bits ∧ s1.stream = s.stream
      ∧ s1.bitsLeft = s.bitsLeft ∧ s1.indata = s.indata := by
  obtain ⟨s1, e, hw⟩ := requireLoop_spec n hn 4 s h hl (by omega)
  refine ⟨s1, ?_, hw⟩
  unfold BitStreamDecoder.Require
  simp only [if_neg (by omega : ¬ n > 24), e]
  rw [if_neg (fun c => absurd c.1 (by omega))]

/-! ## States of the reader -/

theorem AppendData_WF (s : BitStreamDecoder) (data : List Nat) (h : s.WF)
    (hd : ∀ b ∈ data, b < 256) : (s.AppendData data).2.WF := by
  refine ⟨h.bits, h.buffer, ?_, ?_⟩
  · show s.inpos ≤ (s.indata ++ data).length
    have := h.pos
    rw [List.length_append]
    omega
  · intro b hb
    rcases List.mem_append.1 hb with hb | hb
    · exact h.bytes b hb
    · exact hd b hb

theorem new_WF : BitStreamDecoder.new.WF :=
  ⟨by decide, by decide, by decide, by intro b hb; cases hb⟩

theorem GetBits_32 (s : BitStreamDecoder) (r : ErrorReturn × BitStreamDecoder) (h : s.WF)
    (ha : inAccumulator s 32) (e : s.GetBits 32 = .ok r) : False := by
  unfold BitStreamDecoder.GetBits at e
  rw [if_neg (by omega)] at e
  dsimp only at e
  by_cases c : s.num_bits < 32
  · rcases ha with ha | ⟨h24, hp, h8⟩
    · omega
    · rw [if_pos c] at e
      simp only [LoadFull_eq_LoadByte, LoadByte_loads s h h24 hp] at e
      rw [if_neg (by rintro ⟨_, h2, _⟩; have h3 : s.num_bits + 8 < 32 := h2; omega),
        if_pos trivial] at e
      cases e
  · rw [if_neg (fun h => c h.1), if_pos rfl] at e
    cases e

/-- Every state reached without asking `GetBits` for more bits than the
accumulator can give is in good order. -/
theorem Reachable_WF (s : BitStreamDecoder) (h : Reachable inAccumulator s) : s.WF := by
  induction h with
  | fresh => exact new_WF
  | append s data _ hd ih => exact AppendData_WF s data ih hd
  | loadByte s _ ih => exact LoadByte_WF s ih
  | loadFull s _ ih => exact LoadByte_WF s ih
  | require s n r _ e ih => exact Require_WF s n r ih e
  | getBits s n r _ hp e ih =>
    by_cases h32 : n < 32
    · obtain ⟨s1, e1, hw, _⟩ := GetBits_spec s n ih h32 hp
      rw [e1] at e
      cases e
      exact hw
    · have hb := ih.bits
      have hn : n = 32 := by
        rcases hp with hp | ⟨_, _, hp⟩ <;> omega
      subst hn
      exact (GetBits_32 s r ih hp e).elim

/-- C13, as the code has it: every state reached from the constructed reader
by `AppendData`, `LoadByte`, `LoadFull`, `Require(n)` and by calls `GetBits(n)`
that find their `n` bits in the accumulator (after the one byte `GetBits`
loads) has `num_bits <= 32` and `bit_buffer < 2 ^ num_bits`. -/
theorem Reachable_num_bits_le_32 (s : BitStreamDecoder) (h : Reachable inAccumulator s) :
    s.num_bits ≤ 32 ∧ s.bit_buffer < 2 ^ s.num_bits :=
  ⟨(Reachable_WF s h).bits, (Reachable_WF s h).buffer⟩

theorem four_loaded (P : BitStreamDecoder → Nat → Prop) :
    Reachable P ⟨[1, 2, 3, 4], 4, 32, 0x04030201⟩ := by
  have e : (⟨[1, 2, 3, 4], 4, 32, 0x04030201⟩ : BitStreamDecoder)
      = (BitStreamDecoder.new.AppendData [1, 2, 3, 4]).2.LoadByte.2.LoadByte.2.LoadByte.2.LoadByte.2 := by
    decide
  rw [e]
  exact .loadByte _ (.loadByte _ (.loadByte _ (.loadByte _
    (.append _ _ .fresh (by decide)))))

/-- C13: four calls of `LoadByte` on four appended bytes leave `num_bits = 32`,
and `GetBits(16)` on one appended byte leaves `num_bits = 2 ^ 32 - 8`; both
states are reached by the operations of the claim with `n <= 32`. -/
theorem Reachable_num_bits_above_31 :
    (Reachable (fun _ n => n ≤ 32) ⟨[1, 2, 3, 4], 4, 32, 0x04030201⟩ ∧ ¬ (32 ≤ 31))
    ∧ (Reachable (fun _ n => n ≤ 32) ⟨[0xAB], 1, 4294967288, 0⟩ ∧ ¬ (4294967288 ≤ 31)) := by
  refine ⟨⟨four_loaded _, by decide⟩, ?_, by decide⟩
  have e : (BitStreamDecoder.new.AppendData [0xAB]).2.GetBits 16
      = .ok (⟨0xAB, 0⟩, ⟨[0xAB], 1, 4294967288, 0⟩) := by decide
  exact Reachable.getBits _ 16 _ (.append _ _ .fresh (by decide)) (by decide) e

/-- C13, witness: the state after four bytes are loaded. -/
theorem Reachable_num_bits_le_32_witness :
    Reachable inAccumulator ⟨[1, 2, 3, 4], 4, 32, 0x04030201⟩
    ∧ (32 ≤ 32 ∧ 0x04030201 < 2 ^ 32) :=
  ⟨four_loaded inAccumulator,
    Reachable_num_bits_le_32 ⟨[1, 2, 3, 4], 4, 32, 0x04030201⟩ (four_loaded inAccumulator)⟩

/-- C11: on the two bytes AB CD, which hold 16 bits, `GetBits(16)` returns
0x00AB instead of 0xCDAB and leaves `num_bits = 2 ^ 32 - 8` with the second
byte unread: `LoadFull` loads one byte and `GetBits` goes on with 8 bits. -/
theorem GetBits_16_of_two_bytes :
    (BitStreamDecoder.new.AppendData [0xAB, 0xCD]).2.bit_buffer
        < 2 ^ (BitStreamDecoder.new.AppendData [0xAB, 0xCD]).2.num_bits
    ∧ 16 ≤ (BitStreamDecoder.new.AppendData [0xAB, 0xCD]).2.bitsLeft
    ∧ (BitStreamDecoder.new.AppendData [0xAB, 0xCD]).2.stream % 2 ^ 16 = 0xCDAB
    ∧ (BitStreamDecoder.new.AppendData [0xAB, 0xCD]).2.GetBits 16
        = .ok (⟨0xAB, 0⟩, ⟨[0xAB, 0xCD], 1, 4294967288, 0⟩) := by
  decide

/-- C12: on the single byte AB, which holds 8 bits, `GetBits(16)` returns the
value 0xAB with status 0 instead of status 1, and takes the byte; after
`AppendData` of the missing byte CD the next `GetBits(16)` returns 0, not
0xCDAB. -/
theorem GetBits_16_of_one_byte :
    (BitStreamDecoder.new.AppendData [0xAB]).2.bitsLeft < 16
    ∧ (BitStreamDecoder.new.AppendData [0xAB]).2.GetBits 16
        = .ok (⟨0xAB, 0⟩, ⟨[0xAB], 1, 4294967288, 0⟩)
    ∧ ((⟨[0xAB], 1, 4294967288, 0⟩ : BitStreamDecoder).AppendData [0xCD]).2.GetBits 16
        = .ok (⟨0, 0⟩, ⟨[0xAB, 0xCD], 1, 4294967272, 0⟩) := by
  decide

/-! ## Block headers -/

theorem blockBody_three (st : Inflate) : st.blockBody 3 = .ok (some false, st) := rfl

/-- A round of the block loop that reads a header of type 3. -/
theorem blockLoop_three (fuel : Nat) (st : Inflate) (r1 r2 : ErrorReturn)
    (s1 s2 : BitStreamDecoder) (hloop : st.error_state.error_code = 0)
    (h1 : st.instream.GetBits 1 = .ok (r1, s1)) (e1 : r1.error_code = 0)
    (h2 : s1.GetBits 2 = .ok (r2, s2)) (e2 : r2.error_code = 0) (ht : r2.value = 3) :
    blockLoop (fuel + 1) 0 st
      = .ok (false, { st with instream := s2, error_state := ⟨0⟩ }) := by
  rw [blockLoop, if_pos ⟨rfl, hloop⟩]
  simp only [h1, h2, e1, e2, ht, blockBody_three, ErrorReturn.status, ne_eq, not_true_eq_false,
    if_false]

/-- C18, on two failing inputs: the bytes 0F 00 break two of the header rules
(low nibble 15, not 8; 0x0F00 = 3840 is not divisible by 31) and FF FF breaks
all four; `DecompressData` on a constructed inflater returns false for both and
leaves error code 0, no fatal error. -/
theorem DecompressData_accepts_bad_header :
    zlibHeaderOK 0x0F 0x00 = false ∧ zlibHeaderOK 0xFF 0xFF = false
    ∧ ((Inflate.new Huffman.new Huffman.new).DecompressData [0x0F, 0x00]).map
        (fun r => (r.1, r.2.error_state.error_code)) = .ok (false, 0)
    ∧ ((Inflate.new Huffman.new Huffman.new).DecompressData [0xFF, 0xFF]).map
        (fun r => (r.1, r.2.error_state.error_code)) = .ok (false, 0) := by
  decide

/-- C19, on two failing inputs: on the input 07, a final block of type 3,
`DecompressData` returns false and leaves error code 0, where the claim has the
return value true and a negative code; the same on 30, where the header of
type 3 is the second one. -/
theorem DecompressData_type_3_no_error :
    ((Inflate.new Huffman.new Huffman.new).DecompressData [0x07]).map
        (fun r => (r.1, r.2.error_state.error_code, r.2.instream))
      = .ok (false, 0, ⟨[0x07], 1, 5, 0⟩)
    ∧ ((Inflate.new Huffman.new Huffman.new).DecompressData [0x30]).map
        (fun r => (r.1, r.2.error_state.error_code, r.2.instream))
      = .ok (false, 0, ⟨[0x30], 1, 2, 0⟩) := by
  decide

/-- C20: for `s = FF` split as `a` empty and `b = FF`, the two calls leave
error code 1 and no bit taken (the first call records "not enough data" and the
second call does not enter the block loop), while the single call leaves error
code 0 and three bits taken. -/
theorem DecompressData_split_differs :
    (((Inflate.new Huffman.new Huffman.new).DecompressData []).bind
        fun r => r.2.DecompressData [0xFF]).map
        (fun r => (r.1, r.2.error_state.error_code, r.2.instream, r.2.outdata))
      = .ok (false, 1, ⟨[0xFF], 0, 0, 0⟩, [])
    ∧ ((Inflate.new Huffman.new Huffman.new).DecompressData ([] ++ [0xFF])).map
        (fun r => (r.1, r.2.error_state.error_code, r.2.instream, r.2.outdata))
      = .ok (false, 0, ⟨[0xFF], 1, 5, 0x1F⟩, []) := by
  decide

/-! ## Counting the code lengths -/

theorem countSizes_spec : ∀ (l : List Nat) (sizes : Nat → Nat), (∀ x ∈ l, x ≤ 16) →
    (∀ i, sizes i + l.length < 2 ^ 32) →
    countSizes l sizes = some (fun i => sizes i + l.count i) := by
  intro l
  induction l with
  | nil => intro sizes _ _; simp [countSizes]
  | cons x xs ih =>
    intro sizes hx hs
    have hx16 : x ≤ 16 := hx x (List.mem_cons_self _ _)
    rw [countSizes, if_neg (by omega), ih _ (fun y hy => hx y (List.mem_cons_of_mem _ hy))]
    · congr 1
      funext i
      have h1 := hs x
      simp only [List.length_cons] at h1
      by_cases c : i = x
      · subst c
        simp only [upd, if_true, List.count_cons_self]
        rw [Nat.mod_eq_of_lt (by omega)]
        omega
      · simp only [upd, if_neg c, List.count_cons_of_ne c]
    · intro i
      have h1 := hs x
      have h2 := hs i
      simp only [List.length_cons] at h1 h2
      by_cases c : i = x
      · subst c
        simp only [upd, if_true]
        rw [Nat.mod_eq_of_lt (by omega)]
        omega
      · simp only [upd, if_neg c]
        omega

theorem countSizes_none : ∀ (l : List Nat) (sizes : Nat → Nat), (∃ x ∈ l, 16 < x) →
    countSizes l sizes = none := by
  intro l
  induction l with
  | nil => intro sizes h; obtain ⟨x, hx, _⟩ := h; cases hx
  | cons x xs ih =>
    intro sizes h
    rw [countSizes]
    by_cases c : x ≤ 16
    · rw [if_neg (by omega)]
      apply ih
      obtain ⟨y, hy, h16⟩ := h
      rcases List.mem_cons.1 hy with e | hy
      · omega
      · exact ⟨y, hy, h16⟩
    · rw [if_pos c]

theorem upd_count (l : List Nat) :
    upd (fun i => 0 + l.count i) 0 0 = lengthCount l := by
  funext i
  by_cases c : i = 0
  · simp [upd, lengthCount, c]
  · simp [upd, lengthCount, c]

theorem checkSizes_iff (sizes : Nat → Nat) :
    checkSizes sizes = true ↔ ∀ i, 1 ≤ i → i ≤ 15 → sizes i ≤ 2 ^ i := by
  unfold checkSizes
  simp only [List.all_eq_true, List.mem_range'_1, decide_eq_true_eq, Nat.one_shiftLeft]
  constructor
  · intro h i h1 h2
    exact h i ⟨h1, by omega⟩
  · intro h i hi
    exact h i hi.1 (by omega)

/-! ## The Kraft sum -/

theorem kraft_add (c d : Nat → Nat) (i : Nat) :
    kraft (fun j => c j + d j) i = kraft c i + kraft d i := by
  induction i with
  | zero => rfl
  | succ i ih => simp only [kraft, ih]; omega

theorem kraft_single (x : Nat) (i : Nat) :
    kraft (fun j => if j = x then 1 else 0) i = if 1 ≤ x ∧ x ≤ i then 2 ^ (i - x) else 0 := by
  induction i with
  | zero =>
    simp only [kraft]
    rw [if_neg (by omega)]
  | succ i ih =>
    simp only [kraft, ih]
    by_cases c1 : 1 ≤ x ∧ x ≤ i
    · rw [if_pos c1, if_neg (by omega), if_pos (by omega)]
      have : i + 1 - x = (i - x) + 1 := by omega
      rw [this, pow_succ]
      omega
    · rw [if_neg c1]
      by_cases c2 : i + 1 = x
      · rw [if_pos c2, if_pos (by omega)]
        subst c2
        simp
      · rw [if_neg c2, if_neg (by omega)]

theorem kraft_zero (i : Nat) : kraft (fun _ => 0) i = 0 := by
  induction i with
  | zero => rfl
  | succ i ih => simp [kraft, ih]

theorem lengthCount_cons (x : Nat) (l : List Nat) :
    lengthCount (x :: l) = fun j => lengthCount l j + (if j = x then (if x = 0 then 0 else 1) else 0) := by
  funext j
  unfold lengthCount
  by_cases c : j = 0
  · rw [if_pos c, if_pos c]
    split_ifs <;> omega
  · rw [if_neg c, if_neg c]
    by_cases e : j = x
    · subst e
      simp [c]
    · simp [e, List.count_cons_of_ne e]

theorem kraft_lengthCount (l : List Nat) (h15 : ∀ L ∈ l, L ≤ 15) :
    kraft (lengthCount l) 15 = kraftSum l := by
  induction l with
  | nil =>
    have : lengthCount [] = fun _ => 0 := by funext j; simp [lengthCount]
    rw [this, kraft_zero]
    rfl
  | cons x xs ih =>
    have hx : x ≤ 15 := h15 x (List.mem_cons_self _ _)
    rw [lengthCount_cons, kraft_add, ih (fun y hy => h15 y (List.mem_cons_of_mem _ hy))]
    unfold kraftSum
    by_cases c : x = 0
    · subst c
      simp [kraft_zero]
    · have e : (fun j => if j = x then (if x = 0 then 0 else 1) else 0)
          = fun j => if j = x then 1 else 0 := by
        funext j
        simp [c]
      rw [e, kraft_single, if_pos (by omega)]
      simp [c]
      omega

theorem kraft_mono (c : Nat → Nat) (i d : Nat) : kraft c i * 2 ^ d ≤ kraft c (i + d) := by
  induction d with
  | zero => simp
  | succ d ih =>
    rw [← Nat.add_assoc, kraft, pow_succ]
    have : kraft c i * (2 ^ d * 2) = 2 * (kraft c i * 2 ^ d) := by ring
    omega

theorem kraft_le_of_sum (l : List Nat) (h15 : ∀ L ∈ l, L ≤ 15) (hk : kraftSum l ≤ 2 ^ 15)
    (i : Nat) (hi : i ≤ 15) : kraft (lengthCount l) i ≤ 2 ^ i := by
  have h1 := kraft_mono (lengthCount l) i (15 - i)
  rw [Nat.add_sub_cancel' hi, kraft_lengthCount l h15] at h1
  have h2 : 2 ^ 15 = 2 ^ i * 2 ^ (15 - i) := by rw [← pow_add, Nat.add_sub_cancel' hi]
  rw [h2] at hk
  exact Nat.le_of_mul_le_mul_right (h1.trans hk) (Nat.two_pow_pos _)

/-! ## The first codes of each length -/

theorem pow_le_14 {k : Nat} (h : k ≤ 14) : 2 ^ k ≤ 16384 := by
  have := Nat.pow_le_pow_right (by norm_num : 0 < 2) h
  simpa using this

theorem firstCodes_true (c : Nat → Nat) (hc : ∀ j, 1 ≤ j → j ≤ 15 → c j ≤ 2 ^ j) :
    ∀ (fuel k : Nat) (st : BuildState), k + fuel ≤ 15 → kraft c k ≤ 2 ^ k →
      (0 < fuel → st.code = 2 * kraft c k) →
      (firstCodes c fuel (k + 1) st).1 = true → kraft c (k + fuel) ≤ 2 ^ (k + fuel) := by
  intro fuel
  induction fuel with
  | zero => intro k st _ hk _ _; exact hk
  | succ fuel ih =>
    intro k st hf hk hcode ht
    have hcode1 := hcode (by omega)
    have hp := pow_le_14 (by omega : k ≤ 14)
    have hp1 : 1 ≤ 2 ^ k := Nat.one_le_two_pow
    have hp2 : 2 ^ (k + 1) = 2 * 2 ^ k := by rw [pow_succ]; ring
    have hck := hc (k + 1) (by omega) (by omega)
    rw [firstCodes] at ht
    simp only [Nat.one_shiftLeft, hcode1] at ht
    split at ht
    · cases ht
    · next hn =>
      have hK : kraft c (k + 1) ≤ 2 ^ (k + 1) := by
        rw [kraft]
        by_contra hcon
        apply hn
        omega
      have := ih (k + 1) _ (by omega) hK (by
        intro hfuel
        simp only [Nat.shiftLeft_eq, pow_one]
        have hp3 := pow_le_14 (by omega : k + 1 ≤ 14)
        rw [kraft] at hK ⊢
        omega) ht
      rw [Nat.add_assoc, Nat.add_comm 1 fuel] at this
      exact this

theorem firstCodes_spec (c : Nat → Nat) (hsym : ∀ j, j ≤ 16 → symbolsBelow c j < 2 ^ 16) :
    ∀ (fuel k : Nat) (st : BuildState), k + fuel ≤ 15 →
      (∀ j, k < j → j ≤ k + fuel → kraft c j ≤ 2 ^ j) →
      (0 < fuel → st.code = 2 * kraft c k) →
      (0 < fuel → st.symbol = symbolsBelow c (k + 1)) →
      ∃ st1, firstCodes c fuel (k + 1) st = (true, st1)
        ∧ (∀ j, k < j → j ≤ k + fuel →
            st1.next_code j = 2 * kraft c (j - 1) ∧ st1.h.firstcode j = 2 * kraft c (j - 1)
            ∧ st1.h.firstsymbol j = symbolsBelow c j
            ∧ st1.h.maxcode j = kraft c j * 2 ^ (16 - j))
        ∧ (∀ j, ¬ (k < j ∧ j ≤ k + fuel) →
            st1.next_code j = st.next_code j ∧ st1.h.firstcode j = st.h.firstcode j
            ∧ st1.h.firstsymbol j = st.h.firstsymbol j ∧ st1.h.maxcode j = st.h.maxcode j)
        ∧ st1.h.fast = st.h.fast ∧ st1.h.size = st.h.size ∧ st1.h.value = st.h.value := by
  intro fuel
  induction fuel with
  | zero =>
    intro k st _ _ _ _
    exact ⟨st, rfl, fun j h1 h2 => by omega, fun j _ => ⟨rfl, rfl, rfl, rfl⟩, rfl, rfl, rfl⟩
  | succ fuel ih =>
    intro k st hf hK hcode hsymb
    have hcode1 := hcode (by omega)
    have hsymb1 := hsymb (by omega)
    have hp := pow_le_14 (by omega : k ≤ 14)
    have hp2 : 2 ^ (k + 1) = 2 * 2 ^ k := by rw [pow_succ]; ring
    have hK1 := hK (k + 1) (by omega) (by omega)
    have hs2 := hsym (k + 1 + 1) (by omega)
    have hk1 : kraft c (k + 1) = 2 * kraft c k + c (k + 1) := rfl
    have hs1 : symbolsBelow c (k + 1 + 1) = symbolsBelow c (k + 1) + c (k + 1) := rfl
    have hmod : (st.code + c (k + 1)) % 2 ^ 16 = kraft c (k + 1) := by
      rw [hk1] at hK1 ⊢
      omega
    obtain ⟨st1, e, hin, hout, hfast, hsize, hvalue⟩ := ih (k + 1)
      { code := (((st.code + c (k + 1)) % 2 ^ 16) <<< 1) % 2 ^ 16
        symbol := (st.symbol + c (k + 1)) % 2 ^ 16
        next_code := upd st.next_code (k + 1) st.code
        h := { fast := st.h.fast
               firstcode := upd st.h.firstcode (k + 1) st.code
               maxcode := upd st.h.maxcode (k + 1)
                 (((st.code + c (k + 1)) % 2 ^ 16) <<< (16 - (k + 1)))
               firstsymbol := upd st.h.firstsymbol (k + 1) st.symbol
               size := st.h.size
               value := st.h.value } }
      (by omega) (fun j h1 h2 => hK j (by omega) (by omega))
      (by
        intro hfuel
        have hp3 := pow_le_14 (by omega : k + 1 ≤ 14)
        simp only [hmod, Nat.shiftLeft_eq, pow_one]
        omega)
      (by
        intro _
        simp only [hsymb1]
        omega)
    refine ⟨st1, ?_, ?_, ?_, hfast, hsize, hvalue⟩
    · rw [firstCodes]
      simp only [Nat.one_shiftLeft]
      rw [if_neg (by rw [hmod]; omega)]
      exact e
    · intro j h1 h2
      by_cases cj : j = k + 1
      · subst cj
        obtain ⟨o1, o2, o3, o4⟩ := hout (k + 1) (by omega)
        rw [o1, o2, o3, o4]
        refine ⟨?_, ?_, ?_, ?_⟩
        · simp only [upd, if_true, Nat.add_sub_cancel]; exact hcode1
        · simp only [upd, if_true, Nat.add_sub_cancel]; exact hcode1
        · simp only [upd, if_true]; exact hsymb1
        · simp only [upd, if_true, hmod, Nat.shiftLeft_eq]
      · exact hin j (by omega) (by omega)
    · intro j hj
      obtain ⟨o1, o2, o3, o4⟩ := hout j (by omega)
      have cj : j ≠ k + 1 := by omega
      rw [o1, o2, o3, o4]
      simp only [upd, if_neg cj]
      exact ⟨trivial, trivial, trivial, trivial⟩

/-! ## Rejected length lists -/

theorem BuildLog_start (h : Huffman) (l : List Nat) (hlen : l.length < 2 ^ 32)
    (h16 : ∀ L ∈ l, L ≤ 16) :
    h.BuildLog l l.length =
      if ¬ checkSizes (lengthCount l) then .ok (⟨-5⟩, { h with fast := fun _ => 0xffff }, [])
      else
        let r := firstCodes (lengthCount l) 15 1 ⟨0, 0, fun _ => 0, { h with fast := fun _ => 0xffff }⟩
        if ¬ r.1 then .ok (⟨-5⟩, r.2.h, [])
        else
          match assignCodes l 0 r.2.next_code
              { r.2.h with maxcode := upd r.2.h.maxcode 16 0x10000 } [] with
          | .error e => .error e
          | .ok (h2, log) => .ok (⟨1⟩, h2, log) := by
  unfold Huffman.BuildLog
  rw [if_neg (by omega), List.take_length,
    countSizes_spec l _ h16 (by intro i; simpa using hlen)]
  simp only [upd_count]

theorem BuildLog_oversubscribed (h : Huffman) (l : List Nat) (hlen : l.length < 2 ^ 32)
    (h15 : ∀ L ∈ l, L ≤ 15) (hover : 2 ^ 15 < kraftSum l) :
    ∃ z, h.BuildLog l l.length = .ok (⟨-5⟩, z, []) := by
  rw [BuildLog_start h l hlen (fun L hL => (h15 L hL).trans (by norm_num))]
  by_cases c : checkSizes (lengthCount l) = true
  · rw [if_neg (by simp [c])]
    dsimp only
    by_cases c2 : (firstCodes (lengthCount l) 15 1
        ⟨0, 0, fun _ => 0, { h with fast := fun _ => 0xffff }⟩).1 = true
    · exfalso
      have := firstCodes_true (lengthCount l) ((checkSizes_iff _).1 c) 15 0 _ (by omega)
        (by simp [kraft]) (by intro _; simp [kraft]) c2
      rw [Nat.zero_add, kraft_lengthCount l h15] at this
      omega
    · rw [if_pos (by simpa using c2)]
      exact ⟨_, rfl⟩
  · rw [if_pos (by simpa using c)]
    exact ⟨_, rfl⟩

/-- C15: for every list of code lengths, all at most 15, whose Kraft sum
exceeds `2 ^ 15`, `Huffman::Build` returns the status -5. -/
theorem Build_oversubscribed (h : Huffman) (sizelist : List Nat)
    (hlen : sizelist.length < 2 ^ 32) (h15 : ∀ L ∈ sizelist, L ≤ 15)
    (hover : 2 ^ 15 < kraftSum sizelist) :
    ∃ z, h.Build sizelist sizelist.length = .ok (⟨-5⟩, z) := by
  obtain ⟨z, e⟩ := BuildLog_oversubscribed h sizelist hlen h15 hover
  exact ⟨z, by rw [Huffman.Build, e]⟩

/-- C15, witness: three symbols of length 1. -/
theorem Build_oversubscribed_witness :
    [1, 1, 1].length < 2 ^ 32 ∧ (∀ L ∈ [1, 1, 1], L ≤ 15) ∧ 2 ^ 15 < kraftSum [1, 1, 1]
    ∧ ∃ z, Huffman.new.Build [1, 1, 1] [1, 1, 1].length = .ok (⟨-5⟩, z) :=
  ⟨by decide, by decide, by decide,
    Build_oversubscribed Huffman.new [1, 1, 1] (by decide) (by decide) (by decide)⟩

/-- A list with a length above 16 makes `Build` return -5 after it has reset
the fast table. -/
theorem Build_above_16 (h : Huffman) (l : List Nat) (h16 : ∃ x ∈ l, 16 < x) :
    h.Build l l.length = .ok (⟨-5⟩, { h with fast := fun _ => 0xffff }) := by
  rw [Huffman.Build, Huffman.BuildLog, if_neg (by omega), List.take_length,
    countSizes_none l _ h16]

/-- C14: the list with the single length 16 passes the check
`sizelist[i] <= 16`; no error is returned, and the last loop of `Build` indexes
`next_code`, `firstcode` and `firstsymbol`, arrays of 16 elements, with 16. -/
theorem Build_accepts_length_16 (h : Huffman) :
    (∃ L ∈ [16], 15 < L) ∧ h.Build [16] 1 = .error .undefined := by
  exact ⟨⟨16, by simp, by norm_num⟩, rfl⟩

/-! ## Bit reversal -/

theorem BitReverse_lt (v b : Nat) : BitReverse v b < 2 ^ b := by
  induction b generalizing v with
  | zero => simp [BitReverse]
  | succ b ih =>
    rw [BitReverse, pow_succ]
    have h1 := ih (v / 2)
    have h2 : v % 2 < 2 := Nat.mod_lt _ (by norm_num)
    have h3 : v % 2 * 2 ^ b ≤ 1 * 2 ^ b := Nat.mul_le_mul_right _ (by omega)
    omega

theorem BitReverse_add (v a b : Nat) :
    BitReverse v (a + b) = BitReverse v a * 2 ^ b + BitReverse (v / 2 ^ a) b := by
  induction a generalizing v with
  | zero => simp [BitReverse]
  | succ a ih =>
    have e : a + 1 + b = (a + b) + 1 := by omega
    rw [e, BitReverse, ih, BitReverse, Nat.div_div_eq_div_mul, pow_add, pow_succ]
    have : 2 * 2 ^ a = 2 ^ a * 2 := by ring
    rw [this]
    ring

theorem BitReverse_mod (v b : Nat) : BitReverse (v % 2 ^ b) b = BitReverse v b := by
  induction b generalizing v with
  | zero => rfl
  | succ b ih =>
    rw [BitReverse, BitReverse, pow_succ, Nat.mul_comm (2 ^ b) 2, Nat.mod_mul_right_div_self,
      Nat.mod_mod_of_dvd _ (Dvd.intro _ rfl), ih]

theorem BitReverse_one (x : Nat) : BitReverse x 1 = x % 2 := by
  simp [BitReverse]

theorem BitReverse_BitReverse (v b : Nat) : BitReverse (BitReverse v b) b = v % 2 ^ b := by
  induction b generalizing v with
  | zero => simp [BitReverse, Nat.mod_one]
  | succ b ih =>
    have hlt := BitReverse_lt (v / 2) b
    have h2 : v % 2 < 2 := Nat.mod_lt _ (by norm_num)
    have hw : BitReverse v (b + 1) = BitReverse (v / 2) b + 2 ^ b * (v % 2) := by
      rw [BitReverse]; ring
    rw [BitReverse_add _ b 1, ← BitReverse_mod (BitReverse v (b + 1)) b, hw,
      Nat.add_mul_mod_self_left, Nat.mod_eq_of_lt hlt, ih,
      Nat.add_mul_div_left _ _ (Nat.two_pow_pos b), Nat.div_eq_of_lt hlt, Nat.zero_add,
      BitReverse_one, Nat.mod_mod,
      show v % 2 ^ (b + 1) = v % (2 * 2 ^ b) by rw [pow_succ, Nat.mul_comm], Nat.mod_mul]
    ring

theorem BitReverse_low (v a b : Nat) :
    BitReverse v (a + b) % 2 ^ b = BitReverse (v / 2 ^ a) b := by
  rw [BitReverse_add, Nat.add_comm, Nat.add_mul_mod_self_right,
    Nat.mod_eq_of_lt (BitReverse_lt _ _)]

theorem BitReverse_high (v a b : Nat) :
    BitReverse v (a + b) / 2 ^ b = BitReverse v a := by
  rw [BitReverse_add, Nat.add_comm, Nat.add_mul_div_right _ _ (Nat.two_pow_pos b),
    Nat.div_eq_of_lt (BitReverse_lt _ _), Nat.zero_add]

theorem BitReverse_inj (x y b : Nat) (hx : x < 2 ^ b) (hy : y < 2 ^ b)
    (h : BitReverse x b = BitReverse y b) : x = y := by
  have := congrArg (fun t => BitReverse t b) h
  simp only [BitReverse_BitReverse, Nat.mod_eq_of_lt hx, Nat.mod_eq_of_lt hy] at this
  exact this

/-- The low `b` bits of a stream that starts with the `a + b` bits of a code,
first bit first, are the first `b` bits of the code. -/
theorem low_bits_of_code (x code a b : Nat) (h : x % 2 ^ (b + a) = BitReverse code (b + a)) :
    x % 2 ^ a = BitReverse (code / 2 ^ b) a := by
  rw [← BitReverse_low code b a, ← h, Nat.mod_mod_of_dvd _ (pow_dvd_pow 2 (Nat.le_add_left a b))]

/-! ## The fast table -/

theorem fillFast_spec (c L : Nat) : ∀ (fuel k : Nat) (fast : Nat → Nat) (j : Nat),
    ((j < 512 ∧ ∃ m, m < fuel ∧ j = k + m * 2 ^ L) → fillFast c L fuel k fast j = c)
    ∧ (¬ (j < 512 ∧ ∃ m, m < fuel ∧ j = k + m * 2 ^ L) → fillFast c L fuel k fast j = fast j) := by
  intro fuel
  induction fuel with
  | zero =>
    intro k fast j
    refine ⟨?_, fun _ => rfl⟩
    rintro ⟨_, m, hm, _⟩
    omega
  | succ fuel ih =>
    intro k fast j
    rw [fillFast, Nat.one_shiftLeft]
    by_cases hk : k < 512
    · rw [if_pos hk]
      obtain ⟨ih1, ih2⟩ := ih (k + 2 ^ L) (upd fast k c) j
      constructor
      · rintro ⟨hj, m, hm, e⟩
        by_cases cm : m = 0
        · subst cm
          have ej : j = k := by simpa using e
          by_cases cc : j < 512 ∧ ∃ m, m < fuel ∧ j = k + 2 ^ L + m * 2 ^ L
          · exact ih1 cc
          · rw [ih2 cc, ej]
            simp [upd]
        · apply ih1
          refine ⟨hj, m - 1, by omega, ?_⟩
          obtain ⟨m1, rfl⟩ : ∃ m1, m = m1 + 1 := ⟨m - 1, by omega⟩
          rw [e]
          simp only [Nat.add_sub_cancel]
          ring
      · intro hn
        have hjk : j ≠ k := by
          intro e
          exact hn ⟨by omega, 0, by omega, by simp [e]⟩
        rw [ih2 ?_]
        · simp [upd, hjk]
        · rintro ⟨hj, m, hm, e⟩
          exact hn ⟨hj, m + 1, by omega, by rw [e]; ring⟩
    · rw [if_neg hk]
      refine ⟨?_, fun _ => rfl⟩
      rintro ⟨hj, m, _, e⟩
      have : k ≤ j := by rw [e]; exact Nat.le_add_right _ _
      omega

/-- The entries that `fillFast` sets from a start below the step. -/
theorem fillFast_512 (c L k0 : Nat) (fast : Nat → Nat) (h0 : k0 < 2 ^ L) (j : Nat) :
    ((j < 512 ∧ j % 2 ^ L = k0) → fillFast c L 512 k0 fast j = c)
    ∧ (¬ (j < 512 ∧ j % 2 ^ L = k0) → fillFast c L 512 k0 fast j = fast j) := by
  obtain ⟨h1, h2⟩ := fillFast_spec c L 512 k0 fast j
  have hp : 0 < 2 ^ L := Nat.two_pow_pos L
  constructor
  · rintro ⟨hj, e⟩
    apply h1
    refine ⟨hj, j / 2 ^ L, ?_, ?_⟩
    · exact lt_of_le_of_lt (Nat.div_le_self _ _) hj
    · rw [← e, Nat.mul_comm]
      exact (Nat.mod_add_div j (2 ^ L)).symm
  · intro hn
    apply h2
    rintro ⟨hj, m, _, e⟩
    apply hn
    refine ⟨hj, ?_⟩
    rw [e, Nat.add_mul_mod_self_right, Nat.mod_eq_of_lt h0]

/-! ## Ranks and slots -/

theorem count_take_lt (L : Nat) : ∀ (l : List Nat) (s t : Nat), s < t → s < l.length →
    l.getD s 0 = L → (l.take s).count L < (l.take t).count L := by
  intro l
  induction l with
  | nil => intro s t _ h _; simp at h
  | cons x xs ih =>
    intro s t hst hs hL
    obtain ⟨t1, rfl⟩ : ∃ t1, t = t1 + 1 := ⟨t - 1, by omega⟩
    cases s with
    | zero =>
      have hx : x = L := by simpa using hL
      subst hx
      simp
    | succ s1 =>
      have hs1 : s1 < xs.length := by simpa using hs
      have := ih s1 t1 (by omega) hs1 (by simpa using hL)
      simp only [List.take_succ_cons, List.count_cons]
      omega

theorem rank_lt_count (l : List Nat) (s : Nat) (hs : s < l.length) :
    rank l s < l.count (l.getD s 0) := by
  have := count_take_lt (l.getD s 0) l s l.length hs hs rfl
  rwa [List.take_length] at this

theorem rank_lt_rank (l : List Nat) (s t : Nat) (hst : s < t) (ht : t < l.length)
    (e : l.getD s 0 = l.getD t 0) : rank l s < rank l t := by
  unfold rank
  rw [← e]
  exact count_take_lt _ l s t hst (by omega) rfl

theorem symbolsBelow_add (c d : Nat → Nat) (i : Nat) :
    symbolsBelow (fun j => c j + d j) i = symbolsBelow c i + symbolsBelow d i := by
  induction i with
  | zero => rfl
  | succ i ih => simp only [symbolsBelow, ih]; omega

theorem symbolsBelow_single_le (x v : Nat) (hv : v ≤ 1) (i : Nat) :
    symbolsBelow (fun j => if j = x then v else 0) i ≤ 1 := by
  have key : ∀ i, symbolsBelow (fun j => if j = x then v else 0) i = if x < i then v else 0 := by
    intro i
    induction i with
    | zero => simp [symbolsBelow]
    | succ i ih =>
      simp only [symbolsBelow, ih]
      split_ifs <;> omega
  rw [key]
  split_ifs <;> omega

theorem symbolsBelow_le_length (l : List Nat) (i : Nat) :
    symbolsBelow (lengthCount l) i ≤ l.length := by
  induction l with
  | nil =>
    have : lengthCount [] = fun _ => 0 := by funext j; simp [lengthCount]
    rw [this]
    have : ∀ i, symbolsBelow (fun _ => 0) i = 0 := by
      intro i; induction i with
      | zero => rfl
      | succ i ih => simp [symbolsBelow, ih]
    rw [this]
    exact Nat.zero_le _
  | cons x xs ih =>
    rw [lengthCount_cons, symbolsBelow_add, List.length_cons]
    have := symbolsBelow_single_le x (if x = 0 then 0 else 1) (by split_ifs <;> omega) i
    omega

theorem symbolsBelow_mono (c : Nat → Nat) (i d : Nat) :
    symbolsBelow c i ≤ symbolsBelow c (i + d) := by
  induction d with
  | zero => exact le_rfl
  | succ d ih =>
    rw [← Nat.add_assoc, symbolsBelow]
    omega

theorem symbolsBelow_step (c : Nat → Nat) (i j : Nat) (h : i < j) :
    symbolsBelow c i + c i ≤ symbolsBelow c j := by
  have := symbolsBelow_mono c (i + 1) (j - (i + 1))
  rw [Nat.add_sub_cancel' h] at this
  exact this

/-! ## Canonical codes -/

theorem lt_of_getD_ne_zero (l : List Nat) (s : Nat) (h : l.getD s 0 ≠ 0) : s < l.length := by
  by_contra c
  apply h
  rw [List.getD_eq_default _ _ (by omega)]

theorem getD_mem (l : List Nat) (s : Nat) (h : l.getD s 0 ≠ 0) : l.getD s 0 ∈ l := by
  have hs := lt_of_getD_ne_zero l s h
  rw [List.getD_eq_getElem _ _ hs]
  exact List.getElem_mem hs

theorem rank_lt_lengthCount (l : List Nat) (s : Nat) (h : l.getD s 0 ≠ 0) :
    rank l s < lengthCount l (l.getD s 0) := by
  rw [lengthCount, if_neg h]
  exact rank_lt_count l s (lt_of_getD_ne_zero l s h)

theorem kraft_pred (c : Nat → Nat) (L : Nat) (h : L ≠ 0) :
    kraft c L = 2 * kraft c (L - 1) + c L := by
  obtain ⟨k, rfl⟩ : ∃ k, L = k + 1 := ⟨L - 1, by omega⟩
  rfl

theorem codeOf_lt_kraft (l : List Nat) (s : Nat) (h : l.getD s 0 ≠ 0) :
    codeOf l s < kraft (lengthCount l) (l.getD s 0) := by
  rw [kraft_pred _ _ h, codeOf]
  have := rank_lt_lengthCount l s h
  omega

theorem codeOf_lt_pow (l : List Nat) (h15 : ∀ L ∈ l, L ≤ 15) (hk : kraftSum l ≤ 2 ^ 15)
    (s : Nat) (h : l.getD s 0 ≠ 0) : codeOf l s < 2 ^ (l.getD s 0) :=
  lt_of_lt_of_le (codeOf_lt_kraft l s h)
    (kraft_le_of_sum l h15 hk _ (h15 _ (getD_mem l s h)))

theorem slotOf_lt (l : List Nat) (s : Nat) (h : l.getD s 0 ≠ 0) : slotOf l s < l.length := by
  have h1 := rank_lt_lengthCount l s h
  have h2 := symbolsBelow_step (lengthCount l) (l.getD s 0) (l.getD s 0 + 1) (by omega)
  have h3 := symbolsBelow_le_length l (l.getD s 0 + 1)
  rw [slotOf]
  omega

theorem rank_ne (l : List Nat) (s t : Nat) (hs : l.getD s 0 ≠ 0) (ht : l.getD t 0 ≠ 0)
    (hst : s ≠ t) (e : l.getD s 0 = l.getD t 0) : rank l s ≠ rank l t := by
  rcases Nat.lt_or_gt_of_ne hst with c | c
  · exact Nat.ne_of_lt (rank_lt_rank l s t c (lt_of_getD_ne_zero l t ht) e)
  · exact Nat.ne_of_gt (rank_lt_rank l t s c (lt_of_getD_ne_zero l s hs) e.symm)

theorem slotOf_ne (l : List Nat) (s t : Nat) (hs : l.getD s 0 ≠ 0) (ht : l.getD t 0 ≠ 0)
    (hst : s ≠ t) : slotOf l s ≠ slotOf l t := by
  have r1 := rank_lt_lengthCount l s hs
  have r2 := rank_lt_lengthCount l t ht
  rw [slotOf, slotOf]
  rcases Nat.lt_trichotomy (l.getD s 0) (l.getD t 0) with c | c | c
  · have := symbolsBelow_step (lengthCount l) _ _ c
    omega
  · have := rank_ne l s t hs ht hst c
    rw [c]
    omega
  · have := symbolsBelow_step (lengthCount l) _ _ c
    omega

/-- The first `Lt` bits of the code of `s` are not the code of another symbol
`t` whose length `Lt` is at most that of `s`. -/
theorem codeOf_apart (l : List Nat) (s t : Nat) (hs : l.getD s 0 ≠ 0) (ht : l.getD t 0 ≠ 0)
    (hst : s ≠ t) (hle : l.getD t 0 ≤ l.getD s 0) :
    codeOf l s / 2 ^ (l.getD s 0 - l.getD t 0) ≠ codeOf l t := by
  rcases Nat.eq_or_lt_of_le hle with c | c
  · have := rank_ne l s t hs ht hst c.symm
    rw [c, Nat.sub_self, pow_zero, Nat.div_one, codeOf, codeOf, c]
    omega
  · have h1 := codeOf_lt_kraft l t ht
    have h2 := kraft_mono (lengthCount l) (l.getD t 0) (l.getD s 0 - 1 - l.getD t 0)
    have e1 : l.getD t 0 + (l.getD s 0 - 1 - l.getD t 0) = l.getD s 0 - 1 := by omega
    rw [e1] at h2
    have e2 : 2 ^ (l.getD s 0 - l.getD t 0) = 2 ^ (l.getD s 0 - 1 - l.getD t 0) * 2 := by
      rw [← pow_succ]
      congr 1
      omega
    have h3 : kraft (lengthCount l) (l.getD t 0) ≤ codeOf l s / 2 ^ (l.getD s 0 - l.getD t 0) := by
      rw [Nat.le_div_iff_mul_le (Nat.two_pow_pos _), e2, ← Nat.mul_assoc, codeOf]
      omega
    omega

/-! ## The last loop of `Build` -/

/-- A stream that starts with the code of `s` does not start with the code of
another symbol. -/
theorem fast_apart (l : List Nat) (hc : Canon l) (s t : Nat) (hs : l.getD s 0 ≠ 0)
    (ht : l.getD t 0 ≠ 0) (hst : s ≠ t) (k : Nat)
    (h : k % 2 ^ (l.getD s 0) = BitReverse (codeOf l s) (l.getD s 0)) :
    k % 2 ^ (l.getD t 0) ≠ BitReverse (codeOf l t) (l.getD t 0) := by
  intro h1
  have cs := codeOf_lt_pow l hc.le15 hc.sum s hs
  have ct := codeOf_lt_pow l hc.le15 hc.sum t ht
  rcases Nat.le_total (l.getD t 0) (l.getD s 0) with c | c
  · have e : l.getD s 0 = (l.getD s 0 - l.getD t 0) + l.getD t 0 := by omega
    rw [e] at h
    have h2 := low_bits_of_code k (codeOf l s) _ _ h
    rw [h1] at h2
    have h3 := BitReverse_inj _ _ _ ct (by
      rw [Nat.div_lt_iff_lt_mul (Nat.two_pow_pos _), ← pow_add, Nat.add_comm, ← e]
      exact cs) h2
    exact codeOf_apart l s t hs ht hst c h3.symm
  · have e : l.getD t 0 = (l.getD t 0 - l.getD s 0) + l.getD s 0 := by omega
    rw [e] at h1
    have h2 := low_bits_of_code k (codeOf l t) _ _ h1
    rw [h] at h2
    have h3 := BitReverse_inj _ _ _ cs (by
      rw [Nat.div_lt_iff_lt_mul (Nat.two_pow_pos _), ← pow_add, Nat.add_comm, ← e]
      exact ct) h2
    exact codeOf_apart l t s ht hs (fun x => hst x.symm) c h3.symm

theorem getD_append_length (pre rest : List Nat) (x : Nat) :
    (pre ++ x :: rest).getD pre.length 0 = x := by
  rw [List.getD_eq_getElem?_getD, List.getElem?_append_right (le_refl _)]
  simp

theorem rank_append_length (pre rest : List Nat) (x : Nat) :
    rank (pre ++ x :: rest) pre.length = pre.count x := by
  rw [rank, getD_append_length, List.take_left']
  rfl

theorem assignCodes_spec (l : List Nat) (hc : Canon l) :
    ∀ (rest pre : List Nat) (nc : Nat → Nat) (h : Huffman) (log : List (Nat × Nat)),
    l = pre ++ rest →
    (∀ L, 1 ≤ L → L ≤ 15 → nc L = 2 * kraft (lengthCount l) (L - 1) + pre.count L) →
    (∀ L, 1 ≤ L → L ≤ 15 → h.firstcode L = 2 * kraft (lengthCount l) (L - 1)
      ∧ h.firstsymbol L = symbolsBelow (lengthCount l) L) →
    ∃ h1 log1, assignCodes rest pre.length nc h log = .ok (h1, log1)
      ∧ h1.firstcode = h.firstcode ∧ h1.firstsymbol = h.firstsymbol ∧ h1.maxcode = h.maxcode
      ∧ (∀ s, pre.length ≤ s → l.getD s 0 ≠ 0 →
          h1.size (slotOf l s) = l.getD s 0 ∧ h1.value (slotOf l s) = s
          ∧ (s, codeOf l s) ∈ log1
          ∧ (l.getD s 0 ≤ 9 → ∀ k, k < 512 →
              k % 2 ^ (l.getD s 0) = BitReverse (codeOf l s) (l.getD s 0) →
              h1.fast k = slotOf l s))
      ∧ (∀ k, (∀ s, pre.length ≤ s → l.getD s 0 ≠ 0 → l.getD s 0 ≤ 9 →
            k % 2 ^ (l.getD s 0) ≠ BitReverse (codeOf l s) (l.getD s 0)) →
          h1.fast k = h.fast k)
      ∧ (∀ q, (∀ s, pre.length ≤ s → l.getD s 0 ≠ 0 → slotOf l s ≠ q) →
          h1.size q = h.size q ∧ h1.value q = h.value q)
      ∧ (∀ p ∈ log1, p ∈ log ∨ ∃ s, pre.length ≤ s ∧ l.getD s 0 ≠ 0 ∧ p = (s, codeOf l s))
      ∧ (∀ p ∈ log, p ∈ log1) := by
  intro rest
  induction rest with
  | nil =>
    intro pre nc h log hl _ _
    have hlen : l.length = pre.length := by rw [hl]; simp
    have hno : ∀ s, pre.length ≤ s → l.getD s 0 ≠ 0 → False := by
      intro s hs hne
      have := lt_of_getD_ne_zero l s hne
      omega
    exact ⟨h, log, rfl, rfl, rfl, rfl, fun s hs hne => (hno s hs hne).elim, fun _ _ => rfl,
      fun _ _ => ⟨rfl, rfl⟩, fun p hp => Or.inl hp, fun p hp => hp⟩
  | cons x rest ih =>
    intro pre nc h log hl hnc hh
    have hl1 : l = (pre ++ [x]) ++ rest := by rw [hl]; simp
    have hgetn : l.getD pre.length 0 = x := by rw [hl]; exact getD_append_length _ _ _
    have hrank : rank l pre.length = pre.count x := by rw [hl]; exact rank_append_length _ _ _
    have hlen1 : (pre ++ [x]).length = pre.length + 1 := by simp
    by_cases hx0 : x = 0
    · obtain ⟨h1, log1, e, hf, hs, hm, hsym, hfast, hsize, hlog, hmono⟩ :=
        ih (pre ++ [x]) nc h log hl1
          (by
            intro L h1 h15
            rw [hnc L h1 h15, List.count_append]
            have : List.count L [x] = 0 := by
              rw [hx0]; exact List.count_eq_zero_of_not_mem (by simp; omega)
            omega)
          hh
      rw [hlen1] at e hsym hfast hsize hlog
      have hskip : ∀ s, pre.length ≤ s → l.getD s 0 ≠ 0 → pre.length + 1 ≤ s := by
        intro s hs hne
        rcases Nat.eq_or_lt_of_le hs with c | c
        · rw [← c, hgetn] at hne
          exact (hne hx0).elim
        · exact c
      refine ⟨h1, log1, ?_, hf, hs, hm, ?_, ?_, ?_, ?_, hmono⟩
      · rw [assignCodes, if_neg (by simp [hx0])]
        exact e
      · intro s hs hne
        exact hsym s (hskip s hs hne) hne
      · intro k hk
        exact hfast k (fun s hs hne => hk s (by omega) hne)
      · intro q hq
        exact hsize q (fun s hs hne => hq s (by omega) hne)
      · intro p hp
        rcases hlog p hp with c | ⟨s, c1, c2, c3⟩
        · exact Or.inl c
        · exact Or.inr ⟨s, by omega, c2, c3⟩
    · have hne : l.getD pre.length 0 ≠ 0 := by rw [hgetn]; exact hx0
      have hx15 : x ≤ 15 := by
        have := hc.le15 _ (getD_mem l _ hne)
        rwa [hgetn] at this
      have hslot : slotOf l pre.length
          = symbolsBelow (lengthCount l) x + pre.count x := by
        rw [slotOf, hgetn, hrank]
      have hcode : codeOf l pre.length = nc x := by
        rw [codeOf, hgetn, hrank, hnc x (by omega) hx15]
      have hslt := slotOf_lt l _ hne
      have hlen := hc.len
      have hclt := codeOf_lt_pow l hc.le15 hc.sum _ hne
      rw [hgetn, hcode] at hclt
      have hp15 : 2 ^ x ≤ 2 ^ 15 := Nat.pow_le_pow_right (by norm_num) hx15
      have hcval : (nc x + 2 ^ 32 - h.firstcode x + h.firstsymbol x) % 2 ^ 32 % 2 ^ 16
          = slotOf l pre.length := by
        rw [hslot] at hslt ⊢
        rw [(hh x (by omega) hx15).1, (hh x (by omega) hx15).2, hnc x (by omega) hx15]
        omega
      have hplen : pre.length < 288 := by
        have : pre.length < l.length := lt_of_getD_ne_zero l _ hne
        omega
      obtain ⟨h1, log1, e, hf, hs, hm, hsym, hfast, hsize, hlog, hmono⟩ :=
        ih (pre ++ [x]) (upd nc x ((nc x + 1) % 2 ^ 32))
          (if x ≤ 9 then
            { fast := fillFast (slotOf l pre.length) x 512 (BitReverse (nc x) x) h.fast
              firstcode := h.firstcode, maxcode := h.maxcode, firstsymbol := h.firstsymbol
              size := upd h.size (slotOf l pre.length) (x % 256)
              value := upd h.value (slotOf l pre.length) (pre.length % 2 ^ 16) }
          else
            { fast := h.fast
              firstcode := h.firstcode, maxcode := h.maxcode, firstsymbol := h.firstsymbol
              size := upd h.size (slotOf l pre.length) (x % 256)
              value := upd h.value (slotOf l pre.length) (pre.length % 2 ^ 16) })
          ((pre.length, nc x) :: log) hl1
          (by
            intro L h1 h15
            rw [List.count_append]
            by_cases cL : L = x
            · subst cL
              have := hnc L h1 h15
              simp only [upd, if_true, List.count_singleton_self]
              omega
            · have : List.count L [x] = 0 :=
                List.count_eq_zero_of_not_mem (by simp; exact cL)
              simp only [upd, if_neg cL, this]
              exact hnc L h1 h15)
          (by
            intro L h1 h15
            split_ifs <;> exact hh L h1 h15)
      rw [hlen1] at e hsym hfast hsize hlog
      have hf2 : h1.firstcode = h.firstcode := by rw [hf]; split_ifs <;> rfl
      have hs2 : h1.firstsymbol = h.firstsymbol := by rw [hs]; split_ifs <;> rfl
      have hm2 : h1.maxcode = h.maxcode := by rw [hm]; split_ifs <;> rfl
      refine ⟨h1, log1, ?_, hf2, hs2, hm2, ?_, ?_, ?_, ?_, ?_⟩
      · rw [assignCodes, if_pos hx0, if_neg (by omega)]
        simp only [hcval]
        rw [if_neg (by omega)]
        exact e
      · intro s hs hsne
        rcases Nat.eq_or_lt_of_le hs with c | c
        · subst c
          have hfr := hsize (slotOf l pre.length)
            (fun t ht htne => slotOf_ne l t pre.length htne hsne (by omega))
          refine ⟨?_, ?_, ?_, ?_⟩
          · rw [hfr.1, hgetn]
            split_ifs <;> simp only [upd, if_true] <;> omega
          · rw [hfr.2]
            split_ifs <;> simp only [upd, if_true] <;> omega
          · rw [hcode]
            exact hmono _ (List.mem_cons_self _ _)
          · intro h9 k hk hkm
            rw [hgetn] at h9 hkm
            rw [hfast k (fun t ht htne _ =>
              fast_apart l hc pre.length t hsne htne (by omega) k (by rw [hgetn]; exact hkm))]
            rw [if_pos h9]
            rw [hcode] at hkm
            exact (fillFast_512 _ x _ h.fast (BitReverse_lt _ _) k).1 ⟨hk, hkm⟩
        · exact hsym s c hsne
      · intro k hk
        rw [hfast k (fun s hs hsne => hk s (by omega) hsne)]
        by_cases h9 : x ≤ 9
        · rw [if_pos h9]
          apply (fillFast_512 _ x _ h.fast (BitReverse_lt _ _) k).2
          rintro ⟨_, hkm⟩
          have := hk pre.length (le_refl _) hne (by rw [hgetn]; exact h9)
          rw [hgetn, hcode] at this
          exact this hkm
        · rw [if_neg h9]
      · intro q hq
        have hqn : q ≠ slotOf l pre.length := fun c => hq pre.length (le_refl _) hne c.symm
        obtain ⟨a, b⟩ := hsize q (fun s hs hsne => hq s (by omega) hsne)
        rw [a, b]
        split_ifs <;> simp only [upd, if_neg hqn] <;> exact ⟨trivial, trivial⟩
      · intro p hp
        rcases hlog p hp with c | ⟨s, c1, c2, c3⟩
        · rcases List.mem_cons.1 c with c | c
          · exact Or.inr ⟨pre.length, le_refl _, hne, by rw [c, hcode]⟩
          · exact Or.inl c
        · exact Or.inr ⟨s, by omega, c2, c3⟩
      · intro p hp
        exact hmono p (List.mem_cons_of_mem _ hp)

/-! ## The tables that `Build` leaves -/

theorem lengthCount_le_kraft (c : Nat → Nat) (L : Nat) (h : L ≠ 0) : c L ≤ kraft c L := by
  rw [kraft_pred c L h]
  omega

/-- The tables after `Build` on a list that is not over-subscribed. -/
theorem BuildLog_spec (h : Huffman) (l : List Nat) (hc : Canon l) :
    ∃ z log, h.BuildLog l l.length = .ok (⟨1⟩, z, log)
      ∧ (∀ L, 1 ≤ L → L ≤ 15 → z.firstcode L = 2 * kraft (lengthCount l) (L - 1)
          ∧ z.firstsymbol L = symbolsBelow (lengthCount l) L
          ∧ z.maxcode L = kraft (lengthCount l) L * 2 ^ (16 - L))
      ∧ z.maxcode 16 = 0x10000
      ∧ (∀ s, l.getD s 0 ≠ 0 →
          z.size (slotOf l s) = l.getD s 0 ∧ z.value (slotOf l s) = s
          ∧ (s, codeOf l s) ∈ log
          ∧ (l.getD s 0 ≤ 9 → ∀ k, k < 512 →
              k % 2 ^ (l.getD s 0) = BitReverse (codeOf l s) (l.getD s 0) →
              z.fast k = slotOf l s))
      ∧ (∀ k, (∀ s, l.getD s 0 ≠ 0 → l.getD s 0 ≤ 9 →
            k % 2 ^ (l.getD s 0) ≠ BitReverse (codeOf l s) (l.getD s 0)) →
          z.fast k = 0xffff)
      ∧ (∀ p ∈ log, ∃ s, l.getD s 0 ≠ 0 ∧ p = (s, codeOf l s)) := by
  have hlen := hc.len
  have hK := kraft_le_of_sum l hc.le15 hc.sum
  have hcheck : checkSizes (lengthCount l) = true := by
    rw [checkSizes_iff]
    intro i h1 h15
    exact (lengthCount_le_kraft _ i (by omega)).trans (hK i h15)
  have h0 : lengthCount l 0 = 0 := by simp [lengthCount]
  obtain ⟨st1, e1, hin, hout, hfast, hsize, hvalue⟩ :=
    firstCodes_spec (lengthCount l)
      (fun j _ => lt_of_le_of_lt (symbolsBelow_le_length l j) (by omega)) 15 0
      ⟨0, 0, fun _ => 0, { h with fast := fun _ => 0xffff }⟩ (by omega)
      (fun j _ h2 => hK j (by omega)) (fun _ => by simp [kraft])
      (fun _ => by simp [symbolsBelow, h0])
  obtain ⟨z, log, e2, hf, hs, hm, hsym, hfr, _, hlog, _⟩ :=
    assignCodes_spec l hc l [] st1.next_code
      { st1.h with maxcode := upd st1.h.maxcode 16 0x10000 } [] (by simp)
      (fun L h1 h15 => by
        rw [(hin L (by omega) (by omega)).1]
        simp)
      (fun L h1 h15 => ⟨(hin L (by omega) (by omega)).2.1, (hin L (by omega) (by omega)).2.2.1⟩)
  refine ⟨z, log, ?_, ?_, ?_, ?_, ?_, ?_⟩
  · rw [BuildLog_start h l (by omega) (fun L hL => (hc.le15 L hL).trans (by norm_num)),
      if_neg (by simp [hcheck])]
    simp only [e1]
    rw [if_neg (by simp)]
    simp only [List.length_nil] at e2
    rw [e2]
  · intro L h1 h15
    obtain ⟨_, a, b, c⟩ := hin L (by omega) (by omega)
    rw [hf, hs, hm]
    refine ⟨a, b, ?_⟩
    simp only [upd, if_neg (by omega : L ≠ 16)]
    exact c
  · rw [hm]
    simp [upd]
  · intro s hne
    exact hsym s (Nat.zero_le _) hne
  · intro k hk
    rw [hfr k (fun s _ hne h9 => hk s hne h9)]
    show st1.h.fast k = 0xffff
    rw [hfast]
  · intro p hp
    rcases hlog p hp with c | ⟨s, _, c2, c3⟩
    · cases c
    · exact ⟨s, c2, c3⟩

/-! ## Decoding a symbol -/

theorem kraft_le_code_div (l : List Nat) (s m : Nat) (hm : m < l.getD s 0) :
    kraft (lengthCount l) m ≤ codeOf l s / 2 ^ (l.getD s 0 - m) := by
  have h2 := kraft_mono (lengthCount l) m (l.getD s 0 - 1 - m)
  have e1 : m + (l.getD s 0 - 1 - m) = l.getD s 0 - 1 := by omega
  rw [e1] at h2
  have e2 : 2 ^ (l.getD s 0 - m) = 2 ^ (l.getD s 0 - 1 - m) * 2 := by
    rw [← pow_succ]
    congr 1
    omega
  rw [Nat.le_div_iff_mul_le (Nat.two_pow_pos _), e2, ← Nat.mul_assoc, codeOf]
  omega

theorem searchCode_spec (z : Huffman) (k L : Nat) (hL : L < 16) (hlt : k < z.maxcode L) :
    ∀ (fuel cs : Nat), cs ≤ L → L < cs + fuel → (∀ m, cs ≤ m → m < L → z.maxcode m ≤ k) →
      searchCode z k fuel cs = L := by
  intro fuel
  induction fuel with
  | zero => intro cs h1 h2 _; omega
  | succ fuel ih =>
    intro cs h1 h2 hge
    rw [searchCode]
    rcases Nat.eq_or_lt_of_le h1 with c | c
    · subst c
      rw [if_neg (by intro hh; have := hh.1; omega)]
    · rw [if_pos ⟨hge cs (le_refl _) c, by omega⟩]
      exact ih (cs + 1) c (by omega) (fun m hm1 hm2 => hge m (by omega) hm2)

/-- The leading bits of the reversed accumulator. -/
theorem reversed_high (x m : Nat) (hm : m ≤ 16) :
    BitReverse x 16 >>> (16 - m) = BitReverse (x % 2 ^ m) m := by
  have e : 16 = m + (16 - m) := by omega
  rw [Nat.shiftRight_eq_div_pow, BitReverse_mod]
  conv_lhs => rw [e]
  rw [Nat.add_sub_cancel_left, BitReverse_high]

theorem and_511 (x : Nat) : x &&& 0x1FF = x % 512 :=
  Nat.and_pow_two_sub_one_eq_mod x 9

theorem mod_512_pow (x a : Nat) (h : a ≤ 9) : x % 512 % 2 ^ a = x % 2 ^ a :=
  Nat.mod_mod_of_dvd _ (pow_dvd_pow 2 h)

/-- The call of `HuffmanDecode` on a stream that starts with the code of `s`, for a table
with the contents that `Build` leaves. -/
theorem HuffmanDecode_spec (l : List Nat) (hc : Canon l) (z : Huffman)
    (htab : ∀ L, 1 ≤ L → L ≤ 15 → z.firstcode L = 2 * kraft (lengthCount l) (L - 1)
      ∧ z.firstsymbol L = symbolsBelow (lengthCount l) L
      ∧ z.maxcode L = kraft (lengthCount l) L * 2 ^ (16 - L))
    (hsym : ∀ s, l.getD s 0 ≠ 0 →
      z.size (slotOf l s) = l.getD s 0 ∧ z.value (slotOf l s) = s
      ∧ (l.getD s 0 ≤ 9 → ∀ k, k < 512 →
          k % 2 ^ (l.getD s 0) = BitReverse (codeOf l s) (l.getD s 0) →
          z.fast k = slotOf l s))
    (hfast : ∀ k, (∀ s, l.getD s 0 ≠ 0 → l.getD s 0 ≤ 9 →
        k % 2 ^ (l.getD s 0) ≠ BitReverse (codeOf l s) (l.getD s 0)) →
      z.fast k = 0xffff)
    (s : Nat) (hs : l.getD s 0 ≠ 0) (r : BitStreamDecoder) (hw : r.WF) (h16 : 16 ≤ r.bitsLeft)
    (hcode : r.stream % 2 ^ (l.getD s 0) = BitReverse (codeOf l s) (l.getD s 0)) :
    ∃ r1, Inflate.HuffmanDecode r z = .ok (⟨s, 0⟩, r1) ∧ r1.WF
      ∧ r1.stream = r.stream / 2 ^ (l.getD s 0) ∧ r1.bitsLeft + l.getD s 0 = r.bitsLeft := by
  obtain ⟨r0, e0, hw0, hn0, hst0, hbl0, _⟩ := Require_spec r 16 (by norm_num) hw h16
  have hL15 : l.getD s 0 ≤ 15 := hc.le15 _ (getD_mem l s hs)
  obtain ⟨hsize, hvalue, hfs⟩ := hsym s hs
  have hslot : slotOf l s < 288 := lt_of_lt_of_le (slotOf_lt l s hs) hc.len
  have hclt := codeOf_lt_pow l hc.le15 hc.sum s hs
  have hbuf : ∀ m, m ≤ 16 → r0.bit_buffer % 2 ^ m = r.stream % 2 ^ m := by
    intro m hm
    rw [buffer_mod r0 m (by omega), hst0]
  have hget : r0.GetBits (l.getD s 0)
      = .ok (⟨r0.bit_buffer % 2 ^ (l.getD s 0), 0⟩, r0.taken (l.getD s 0)) :=
    GetBits_direct r0 _ hw0 (by omega) (by omega)
  have hfin : (r0.taken (l.getD s 0)).WF
      ∧ (r0.taken (l.getD s 0)).stream = r.stream / 2 ^ (l.getD s 0)
      ∧ (r0.taken (l.getD s 0)).bitsLeft + l.getD s 0 = r.bitsLeft :=
    ⟨taken_WF r0 _ hw0 (by omega), by rw [taken_stream r0 _ (by omega), hst0],
      by rw [taken_bitsLeft r0 _ (by omega), hbl0]⟩
  refine ⟨r0.taken (l.getD s 0), ?_, hfin⟩
  unfold Inflate.HuffmanDecode
  rw [e0]
  simp only [ne_eq, not_true_eq_false, if_false, and_511]
  by_cases h9 : l.getD s 0 ≤ 9
  · have hf : z.fast (r0.bit_buffer % 512) = slotOf l s := by
      apply hfs h9 _ (Nat.mod_lt _ (by norm_num))
      rw [mod_512_pow _ _ h9, hbuf _ (by omega), hcode]
    rw [hf, if_pos (by omega), if_neg (by omega), hsize, hget, hvalue]
  · have hf : z.fast (r0.bit_buffer % 512) = 0xffff := by
      apply hfast
      intro t ht ht9
      rw [mod_512_pow _ _ ht9, hbuf _ (by omega)]
      exact fast_apart l hc s t hs ht (by intro e; rw [e] at h9; exact h9 ht9) _ hcode
    have htop : ∀ m, 10 ≤ m → m ≤ l.getD s 0 →
        BitReverse r0.bit_buffer 16 >>> (16 - m) = codeOf l s / 2 ^ (l.getD s 0 - m) := by
      intro m _ hm
      have hcode1 := hcode
      have e : l.getD s 0 = (l.getD s 0 - m) + m := by omega
      rw [e] at hcode1
      rw [reversed_high _ m (by omega), hbuf m (by omega),
        low_bits_of_code _ _ _ _ hcode1, BitReverse_BitReverse]
      apply Nat.mod_eq_of_lt
      rw [Nat.div_lt_iff_lt_mul (Nat.two_pow_pos _), ← pow_add, Nat.add_comm, ← e]
      exact hclt
    have hself : BitReverse r0.bit_buffer 16 >>> (16 - l.getD s 0) = codeOf l s := by
      rw [htop _ (by omega) (le_refl _), Nat.sub_self, pow_zero, Nat.div_one]
    have hsearch : searchCode z (BitReverse r0.bit_buffer 16) 7 10 = l.getD s 0 := by
      apply searchCode_spec z _ _ (by omega) _ 7 10 (by omega) (by omega)
      · intro m hm1 hm2
        rw [(htab m (by omega) (by omega)).2.2, ← Nat.le_div_iff_mul_le (Nat.two_pow_pos _),
          ← Nat.shiftRight_eq_div_pow, htop m hm1 (by omega)]
        exact kraft_le_code_div l s m hm2
      · rw [(htab _ (by omega) hL15).2.2, ← Nat.div_lt_iff_lt_mul (Nat.two_pow_pos _),
          ← Nat.shiftRight_eq_div_pow, hself]
        exact codeOf_lt_kraft l s hs
    have hb : (BitReverse r0.bit_buffer 16 >>> (16 - l.getD s 0) + 2 ^ 32
        - z.firstcode (l.getD s 0) + z.firstsymbol (l.getD s 0)) % 2 ^ 32 = slotOf l s := by
      rw [hself, (htab _ (by omega) hL15).1, (htab _ (by omega) hL15).2.1, codeOf, slotOf]
      rw [slotOf] at hslot
      omega
    rw [hf, if_neg (by norm_num)]
    simp only [hsearch, hb]
    rw [if_neg (by omega), if_neg (by omega), hsize, if_neg hs,
      if_neg (by omega), hget, hvalue]

/-! ## Canonical tables and their decoding -/

/-- C16: for every list of at most 288 code lengths, all at most 15, that is
not over-subscribed, `Huffman::Build` returns, `firstcode[1] = 0`,
`firstcode[L + 1] = 2 * (firstcode[L] + count[L])`, and every symbol `s` with a
non-zero length `L` that has `r` symbols of length `L` before it is stored in
slot `c = firstsymbol[L] + r` with `value[c] = s` and `size[c] = L`, and the
code given out for it is `firstcode[L] + r` and no other. -/
theorem Build_canonical (h : Huffman) (sizelist : List Nat) (hlen : sizelist.length ≤ 288)
    (h15 : ∀ L ∈ sizelist, L ≤ 15) (hsum : kraftSum sizelist ≤ 2 ^ 15) :
    ∃ st z log, h.BuildLog sizelist sizelist.length = .ok (st, z, log)
      ∧ h.Build sizelist sizelist.length = .ok (st, z)
      ∧ z.firstcode 1 = 0
      ∧ (∀ L, 1 ≤ L → L < 15 →
          z.firstcode (L + 1) = 2 * (z.firstcode L + lengthCount sizelist L))
      ∧ ∀ s, sizelist.getD s 0 ≠ 0 →
          z.value (z.firstsymbol (sizelist.getD s 0) + rank sizelist s) = s
          ∧ z.size (z.firstsymbol (sizelist.getD s 0) + rank sizelist s) = sizelist.getD s 0
          ∧ ∀ code, (s, code) ∈ log
              ↔ code = z.firstcode (sizelist.getD s 0) + rank sizelist s := by
  have hc : Canon sizelist := ⟨hlen, h15, hsum⟩
  obtain ⟨z, log, e, htab, _, hsym, _, hlog⟩ := BuildLog_spec h sizelist hc
  refine ⟨⟨1⟩, z, log, e, by rw [Huffman.Build, e], ?_, ?_, ?_⟩
  · rw [(htab 1 (by omega) (by omega)).1]
    rfl
  · intro L h1 hL
    rw [(htab (L + 1) (by omega) (by omega)).1, (htab L h1 (by omega)).1, Nat.add_sub_cancel,
      kraft_pred _ L (by omega)]
  · intro s hs
    have hL := hc.le15 _ (getD_mem sizelist s hs)
    obtain ⟨a, b, c, _⟩ := hsym s hs
    have e1 : z.firstsymbol (sizelist.getD s 0) + rank sizelist s = slotOf sizelist s := by
      rw [(htab _ (by omega) hL).2.1]
      rfl
    have e2 : z.firstcode (sizelist.getD s 0) + rank sizelist s = codeOf sizelist s := by
      rw [(htab _ (by omega) hL).1]
      rfl
    rw [e1, e2]
    refine ⟨b, a, fun code => ⟨?_, ?_⟩⟩
    · intro hm
      obtain ⟨t, _, et⟩ := hlog _ hm
      have e3 : s = t := congrArg Prod.fst et
      have e4 : code = codeOf sizelist t := congrArg Prod.snd et
      rw [e4, e3]
    · intro ec
      rw [ec]
      exact c

/-- C16, witness: the lengths 2, 1, 3, 3. -/
theorem Build_canonical_witness :
    [2, 1, 3, 3].length ≤ 288 ∧ (∀ L ∈ [2, 1, 3, 3], L ≤ 15) ∧ kraftSum [2, 1, 3, 3] ≤ 2 ^ 15
    ∧ ∃ st z log, Huffman.new.BuildLog [2, 1, 3, 3] [2, 1, 3, 3].length = .ok (st, z, log)
      ∧ Huffman.new.Build [2, 1, 3, 3] [2, 1, 3, 3].length = .ok (st, z)
      ∧ z.firstcode 1 = 0
      ∧ (∀ L, 1 ≤ L → L < 15 →
          z.firstcode (L + 1) = 2 * (z.firstcode L + lengthCount [2, 1, 3, 3] L))
      ∧ ∀ s, [2, 1, 3, 3].getD s 0 ≠ 0 →
          z.value (z.firstsymbol ([2, 1, 3, 3].getD s 0) + rank [2, 1, 3, 3] s) = s
          ∧ z.size (z.firstsymbol ([2, 1, 3, 3].getD s 0) + rank [2, 1, 3, 3] s)
              = [2, 1, 3, 3].getD s 0
          ∧ ∀ code, (s, code) ∈ log
              ↔ code = z.firstcode ([2, 1, 3, 3].getD s 0) + rank [2, 1, 3, 3] s :=
  ⟨by decide, by decide, by decide,
    Build_canonical Huffman.new [2, 1, 3, 3] (by decide) (by decide) (by decide)⟩

/-- C17: for every table that `Huffman::Build` makes from a list of at most
288 lengths, all at most 15 and not over-subscribed, every symbol `s` with a
non-zero length `L`, and every reader in good order with at least 16 bits left
whose next `L` bits are the code `firstcode[L] + r` of `s`, first code bit
first, `HuffmanDecode` returns `s` with status 0 and takes exactly those `L`
bits from the stream. -/
theorem HuffmanDecode_canonical (h : Huffman) (sizelist : List Nat)
    (hlen : sizelist.length ≤ 288) (h15 : ∀ L ∈ sizelist, L ≤ 15)
    (hsum : kraftSum sizelist ≤ 2 ^ 15) (st : void_er) (z : Huffman)
    (hb : h.Build sizelist sizelist.length = .ok (st, z))
    (s : Nat) (hs : sizelist.getD s 0 ≠ 0)
    (r : BitStreamDecoder) (hw : r.WF) (h16 : 16 ≤ r.bitsLeft)
    (hcode : r.stream % 2 ^ (sizelist.getD s 0)
      = BitReverse (z.firstcode (sizelist.getD s 0) + rank sizelist s) (sizelist.getD s 0)) :
    ∃ r1, Inflate.HuffmanDecode r z = .ok (⟨s, 0⟩, r1)
      ∧ r1.stream = r.stream / 2 ^ (sizelist.getD s 0)
      ∧ r1.bitsLeft + sizelist.getD s 0 = r.bitsLeft := by
  have hc : Canon sizelist := ⟨hlen, h15, hsum⟩
  obtain ⟨z1, log, e, htab, _, hsym, hfast, _⟩ := BuildLog_spec h sizelist hc
  have ez : z = z1 := by
    rw [Huffman.Build, e] at hb
    exact (congrArg (fun x => x.2) (Except.ok.inj hb)).symm
  subst ez
  have hL := hc.le15 _ (getD_mem sizelist s hs)
  have e2 : z.firstcode (sizelist.getD s 0) + rank sizelist s = codeOf sizelist s := by
    rw [(htab _ (by omega) hL).1]
    rfl
  rw [e2] at hcode
  obtain ⟨r1, d, _, a, b⟩ := HuffmanDecode_spec sizelist hc z htab
    (fun t ht => ⟨(hsym t ht).1, (hsym t ht).2.1, (hsym t ht).2.2.2⟩) hfast s hs r hw h16 hcode
  exact ⟨r1, d, a, b⟩

/-- C17, witness: in the complete code with the lengths 1 to 10 and 10 again,
symbol 10 has the code of ten ones; on the bytes FF FF `HuffmanDecode` returns
10 through the search over `maxcode` and takes ten bits. -/
theorem HuffmanDecode_canonical_witness :
    [1, 2, 3, 4, 5, 6, 7, 8, 9, 10, 10].length ≤ 288
    ∧ (∀ L ∈ [1, 2, 3, 4, 5, 6, 7, 8, 9, 10, 10], L ≤ 15)
    ∧ kraftSum [1, 2, 3, 4, 5, 6, 7, 8, 9, 10, 10] ≤ 2 ^ 15
    ∧ ∃ z, Huffman.new.Build [1, 2, 3, 4, 5, 6, 7, 8, 9, 10, 10]
          [1, 2, 3, 4, 5, 6, 7, 8, 9, 10, 10].length = .ok (⟨1⟩, z)
      ∧ ∃ r1, Inflate.HuffmanDecode ⟨[0xFF, 0xFF], 0, 0, 0⟩ z = .ok (⟨10, 0⟩, r1)
        ∧ r1.stream = (⟨[0xFF, 0xFF], 0, 0, 0⟩ : BitStreamDecoder).stream
            / 2 ^ ([1, 2, 3, 4, 5, 6, 7, 8, 9, 10, 10].getD 10 0)
        ∧ r1.bitsLeft + [1, 2, 3, 4, 5, 6, 7, 8, 9, 10, 10].getD 10 0
            = (⟨[0xFF, 0xFF], 0, 0, 0⟩ : BitStreamDecoder).bitsLeft := by
  have hc : Canon [1, 2, 3, 4, 5, 6, 7, 8, 9, 10, 10] := ⟨by decide, by decide, by decide⟩
  obtain ⟨z, log, e, htab, _⟩ := BuildLog_spec Huffman.new _ hc
  have hb : Huffman.new.Build [1, 2, 3, 4, 5, 6, 7, 8, 9, 10, 10]
      [1, 2, 3, 4, 5, 6, 7, 8, 9, 10, 10].length = .ok (⟨1⟩, z) := by
    rw [Huffman.Build, e]
  have hf : z.firstcode 10 = 1022 := by
    rw [(htab 10 (by decide) (by decide)).1]
    decide
  exact ⟨by decide, by decide, by decide, z, hb,
    HuffmanDecode_canonical Huffman.new [1, 2, 3, 4, 5, 6, 7, 8, 9, 10, 10] (by decide)
      (by decide) (by decide) ⟨1⟩ z hb 10 (by decide) ⟨[0xFF, 0xFF], 0, 0, 0⟩
      ⟨by decide, by decide, by decide, by decide⟩ (by decide)
      (by
        show _ = BitReverse (z.firstcode 10 + _) 10
        rw [hf]
        decide)⟩

/-! ## The output of the inflater and the fixed tables -/

theorem default_length_length : default_length.length = 288 := by
  simp only [default_length, List.length_append, List.length_replicate]

theorem kraftSum_append (a b : List Nat) : kraftSum (a ++ b) = kraftSum a + kraftSum b := by
  simp only [kraftSum, List.filter_append, List.map_append, List.sum_append]

theorem kraftSum_replicate (n L : Nat) (h : L ≠ 0) :
    kraftSum (List.replicate n L) = n * 2 ^ (15 - L) := by
  induction n with
  | zero => simp [kraftSum]
  | succ k ih =>
    rw [List.replicate_succ, show L :: List.replicate k L = [L] ++ List.replicate k L from rfl,
      kraftSum_append, ih]
    simp [kraftSum, h]
    ring

/-- The fixed literal/length code is complete: its sum is exactly `2 ^ 15`. -/
theorem default_length_canon : Canon default_length := by
  refine ⟨by rw [default_length_length], ?_, ?_⟩
  · intro L hL
    simp only [default_length, List.mem_append, List.mem_replicate] at hL
    omega
  · simp only [default_length, kraftSum_append]
    rw [kraftSum_replicate 144 8 (by norm_num), kraftSum_replicate 112 9 (by norm_num),
      kraftSum_replicate 24 7 (by norm_num), kraftSum_replicate 8 8 (by norm_num)]
    norm_num

/-- The fixed distance code is complete as well. -/
theorem default_distance_canon : Canon default_distance := by
  refine ⟨by simp only [default_distance, List.length_replicate]; norm_num, ?_, ?_⟩
  · intro L hL
    simp only [default_distance, List.mem_replicate] at hL
    omega
  · rw [default_distance, kraftSum_replicate 32 5 (by norm_num)]
    norm_num

/-- C21, on a failing input: the zlib stream 78 01 01 01 00 FE FF 41 00 42 00 42
holds the byte 41 in one final block of type 00. After it is fed to a
constructed inflater, `DecompressHasOutput` returns false and
`DecompressGetOutput` the empty string, not true and 41; `outdata` is empty.
The same holds of the block alone, 01 01 00 FE FF 41, where the first three
bits are read as the header of a final block of type 00: the call returns with
the length, its complement and the byte 41 not read. -/
theorem DecompressData_stored_block_no_output :
    png.zlibStored 0x78 0x01 0 [0x41]
      = [0x78, 0x01, 0x01, 0x01, 0x00, 0xFE, 0xFF, 0x41, 0x00, 0x42, 0x00, 0x42]
    ∧ zlibHeaderOK 0x78 0x01 = true
    ∧ ((Inflate.new Huffman.new Huffman.new).DecompressStart.2.DecompressData
          (png.zlibStored 0x78 0x01 0 [0x41])).map
        (fun r => (r.1, r.2.DecompressHasOutput.1, r.2.DecompressGetOutput.1, r.2.outdata,
          r.2.error_state.error_code))
      = .ok (false, false, [], [], 0)
    ∧ ((Inflate.new Huffman.new Huffman.new).DecompressStart.2.DecompressData
          [0x01, 0x01, 0x00, 0xFE, 0xFF, 0x41]).map
        (fun r => (r.1, r.2.DecompressHasOutput.1, r.2.DecompressGetOutput.1, r.2.outdata,
          r.2.error_state.error_code))
      = .ok (false, false, [], [], 0)
    ∧ ((Inflate.new Huffman.new Huffman.new).DecompressStart.2.DecompressData
          [0x01, 0x01, 0x00, 0xFE, 0xFF, 0x41]).map (fun r => r.2.instream)
      = .ok ⟨[0x01, 0x01, 0x00, 0xFE, 0xFF, 0x41], 1, 5, 0⟩ := by
  refine ⟨by decide, by decide, by decide, by decide, by decide⟩

set_option maxRecDepth 100000 in
/-- C22: for every `Huffman` object, `Build` returns the status 1 of its last
statement `return 1`, not 0, for the fixed literal/length table and for the
fixed distance table. In `case 1` of `DecompressData` the status of the first
`Build` is stored in `error_state` and `if(error_state) return true` is taken:
on the input 03, a final block of type 01, and on the input 02, one that is not
final, `DecompressData` returns true with error code 1, and the distance table
is not built. -/
theorem Build_fixed_tables_status_1 :
    (∀ h : Huffman, ∃ z, h.Build default_length 288 = .ok (⟨1⟩, z))
    ∧ (∀ h : Huffman, ∃ z, h.Build default_distance 32 = .ok (⟨1⟩, z))
    ∧ ((Inflate.new Huffman.new Huffman.new).fixedTables).map
        (fun r => (r.1, r.2.error_state.error_code, r.2.distance.maxcode 16)) = .ok (true, 1, 0)
    ∧ ((Inflate.new Huffman.new Huffman.new).DecompressData [0x03]).map
        (fun r => (r.1, r.2.error_state.error_code, r.2.instream))
      = .ok (true, 1, ⟨[0x03], 1, 5, 0⟩)
    ∧ ((Inflate.new Huffman.new Huffman.new).DecompressData [0x02]).map
        (fun r => (r.1, r.2.error_state.error_code, r.2.instream))
      = .ok (true, 1, ⟨[0x02], 1, 5, 0⟩) := by
  refine ⟨fun h => ?_, fun h => ?_, by decide, by decide, by decide⟩
  · obtain ⟨z, log, hb, _⟩ := BuildLog_spec h default_length default_length_canon
    rw [default_length_length] at hb
    exact ⟨z, by rw [Huffman.Build, hb]⟩
  · obtain ⟨z, log, hb, _⟩ := BuildLog_spec h default_distance default_distance_canon
    rw [show default_distance.length = 32 by simp only [default_distance, List.length_replicate]]
      at hb
    exact ⟨z, by rw [Huffman.Build, hb]⟩

end trillek.util.algorithm

namespace trillek.png

/-! ## The header chunk -/

/-- The `switch(header.depth)` of `Load` returns an error exactly for the pairs
that PNG does not permit. -/
theorem depthSwitch_invalid_iff (header : PNGHeader) :
    depthSwitch header = DepthSwitch.invalid ↔ ¬ validPair header.depth header.colortype := by
  unfold depthSwitch validPair
  split_ifs <;> simp_all <;> omega

/-- What the `switch(header.depth)` does for a permitted pair. -/
theorem depthSwitch_valid (header : PNGHeader)
    (hv : validPair header.depth header.colortype) :
    depthSwitch header =
      if header.colortype = 3 then DepthSwitch.palette
      else DepthSwitch.create header.width header.height
        (if header.depth < 8 then 8 else header.depth) (modeOf header.colortype) := by
  unfold validPair at hv
  unfold depthSwitch modeOf
  rcases hv with ⟨hc, hd⟩ | ⟨hc, hd⟩ | ⟨hc, hd⟩
  · rcases hd with hd | hd | hd | hd | hd <;> simp [hc, hd]
  · rcases hd with hd | hd | hd | hd <;> simp [hc, hd]
  · rcases hc with hc | hc | hc <;> rcases hd with hd | hd <;> simp [hc, hd]

/-- The header branch when the size or the pair is refused. -/
theorem headerChunk_invalid (uninit : Nat) (st : LoadState)
    (h : ¬ validPair st.header.depth st.header.colortype) :
    (headerChunk uninit st).1 = some ⟨-1⟩ := by
  have hi := (depthSwitch_invalid_iff st.header).2 h
  unfold headerChunk
  split_ifs
  · rfl
  · simp only [hi]

/-- The header branch for a permitted pair, a size within bounds and methods
that are supported. -/
theorem headerChunk_valid (uninit : Nat) (st : LoadState)
    (hsize : sizeOutOfBounds st.header = false)
    (hv : validPair st.header.depth st.header.colortype) :
    (headerChunk uninit st).1 =
        (if st.header.filter ≠ 0 ∨ st.header.compression ≠ 0 ∨ 1 < st.header.interlace
          then some ⟨-1⟩ else none)
    ∧ (headerChunk uninit st).2.created =
        if st.header.colortype = 3 then st.created
        else (st.header.width, st.header.height,
          (if st.header.depth < 8 then 8 else st.header.depth),
          modeOf st.header.colortype) :: st.created := by
  have hs := depthSwitch_valid st.header hv
  unfold headerChunk
  rw [hsize]
  by_cases h3 : st.header.colortype = 3
  · rw [if_pos h3] at hs
    simp only [hs, h3]
    constructor <;> split_ifs <;> first | rfl | omega | simp_all
  · rw [if_neg h3] at hs
    simp only [hs, h3]
    constructor <;> split_ifs <;> first | rfl | omega | simp_all

/-- A dimension above `2 ^ 23` is refused by the size check of `Load`. -/
theorem sizeOutOfBounds_of_gt (header : PNGHeader)
    (h : 2 ^ 23 < header.width ∨ 2 ^ 23 < header.height) : sizeOutOfBounds header = true := by
  have hl : header.width ≤ header.width ||| header.height :=
    Nat.le_of_testBit (fun i hi => by simp [hi])
  have hr : header.height ≤ header.width ||| header.height :=
    Nat.le_of_testBit (fun i hi => by simp [hi])
  have e : 1 <<< 23 = 2 ^ 23 := Nat.one_shiftLeft 23
  unfold sizeOutOfBounds
  rw [e]
  apply decide_eq_true
  omega

/-- For dimensions up to `2 ^ 23` the size check of `Load` refuses a header
exactly when one dimension is `2 ^ 23` and the other is neither 0 nor
`2 ^ 23`. -/
theorem sizeOutOfBounds_iff_of_le (header : PNGHeader)
    (hw : header.width ≤ 2 ^ 23) (hh : header.height ≤ 2 ^ 23) :
    sizeOutOfBounds header = true ↔
      (header.width = 2 ^ 23 ∧ 0 < header.height ∧ header.height < 2 ^ 23)
      ∨ (header.height = 2 ^ 23 ∧ 0 < header.width ∧ header.width < 2 ^ 23) := by
  have e : 1 <<< 23 = 2 ^ 23 := Nat.one_shiftLeft 23
  unfold sizeOutOfBounds
  rw [e, decide_eq_true_iff]
  rcases Nat.lt_or_ge header.width (2 ^ 23) with h1 | h1
  · rcases Nat.lt_or_ge header.height (2 ^ 23) with h2 | h2
    · have := Nat.or_lt_two_pow h1 h2
      omega
    · have e2 : header.height = 2 ^ 23 := by omega
      have e3 : header.width ||| header.height = 2 ^ 23 + header.width := by
        rw [e2, Nat.lor_comm]
        have := Nat.mul_add_lt_is_or h1 1
        rw [Nat.mul_one] at this
        exact this.symm
      omega
  · have e2 : header.width = 2 ^ 23 := by omega
    rcases Nat.lt_or_ge header.height (2 ^ 23) with h2 | h2
    · have e3 : header.width ||| header.height = 2 ^ 23 + header.height := by
        rw [e2]
        have := Nat.mul_add_lt_is_or h2 1
        rw [Nat.mul_one] at this
        exact this.symm
      omega
    · have e4 : header.height = 2 ^ 23 := by omega
      have e3 : header.width ||| header.height = 2 ^ 23 := by
        rw [e2, e4, Nat.or_self]
      omega

/-! ## Properties of `Load` -/

set_option maxRecDepth 100000 in
/-- C23: the stream `streamWindow1K` is a well-formed PNG: the signature, a
header for a 3x1 8-bit grayscale image, one `IDAT` chunk with a zlib stream
that obeys the header rules (28 15, a window of 1024 bytes) and holds the
scanline 00 11 22 33 in a final block of type 00, an `IEND` chunk, and the
right CRC on every chunk. `Load` returns the error code -5 for it while it
reads the `IDAT` chunk: the byte 28 is read as a block header of type 0 that
is not final and then as a final one of type 2, and `DynamicBlock` refuses the
code lengths it finds in the bytes that follow. The same image with the zlib
header 78 01 gives the code 0. -/
theorem Load_rejects_window_1K :
    util.algorithm.zlibHeaderOK 0x28 0x15 = true
    ∧ zlibStored 0x28 0x15 18 [0, 0x11, 0x22, 0x33]
        = [0x28, 0x15, 0x91, 0x04, 0x00, 0xFB, 0xFF, 0x00, 0x11, 0x22, 0x33,
            0x00, 0xAE, 0x00, 0x67]
    ∧ streamWindow1K
        = [137, 80, 78, 71, 13, 10, 26, 10,
            0, 0, 0, 13, 73, 72, 68, 82, 0, 0, 0, 3, 0, 0, 0, 1, 8, 0, 0, 0, 0, 62, 139, 75, 104,
            0, 0, 0, 15, 73, 68, 65, 84, 40, 21, 145, 4, 0, 251, 255, 0, 17, 34, 51, 0, 174, 0,
            103, 157, 209, 250, 34,
            0, 0, 0, 0, 73, 69, 78, 68, 174, 66, 96, 130]
    ∧ (Load ⟨streamWindow1K, 0⟩ examplePix 0 util.algorithm.Huffman.new).map
        (fun r => (r.1.error_code, r.2.chunk.forward.pos, r.2.idatmode)) = .ok (-5, 56, true)
    ∧ (Load ⟨streamWindow32K, 0⟩ examplePix 0 util.algorithm.Huffman.new).map
        (fun r => (r.1.error_code, r.2.chunk.forward.pos, r.2.at_end)) = .ok (0, 72, true) := by
  decide

set_option maxRecDepth 100000 in
/-- C24: the size check of `Load` is `(header.width | header.height) > (1 << 23)`,
a bitwise or. A header with the width `2 ^ 23` and the height 1 is refused
(`2 ^ 23 | 1 = 2 ^ 23 + 1`), and so is one with the width 1 and the height
`2 ^ 23`, although neither dimension exceeds `2 ^ 23`; `Load` returns -1 for
the stream `streamWidth23` right after the fields of the header are read, with
no pixel buffer created. A header with both dimensions `2 ^ 23` passes the
check. -/
theorem Load_rejects_width_2_pow_23 :
    sizeOutOfBounds ⟨2 ^ 23, 1, 8, 0, 0, 0, 0⟩ = true
    ∧ sizeOutOfBounds ⟨1, 2 ^ 23, 8, 0, 0, 0, 0⟩ = true
    ∧ sizeOutOfBounds ⟨2 ^ 23, 2 ^ 23, 8, 0, 0, 0, 0⟩ = false
    ∧ (headerChunk 0 (exampleState ⟨2 ^ 23, 1, 8, 0, 0, 0, 0⟩)).1 = some ⟨-1⟩
    ∧ (Load ⟨streamWidth23, 0⟩ examplePix 0 util.algorithm.Huffman.new).map
        (fun r => (r.1.error_code, r.2.chunk.forward.pos, r.2.created.length, r.2.header.width,
          r.2.header.height))
      = .ok (-1, 29, 0, 2 ^ 23, 1) := by
  decide

/-- C25: for a header whose size is within bounds, the `switch(header.depth)`
of `Load` takes one of its returns "Invalid color depth" exactly when the pair
(bit depth, colour type) is not one that PNG permits; for such a pair the
header branch returns the error -1, and for a permitted pair with the filter
method 0, the compression method 0 and an interlace method 0 or 1 it returns
no error. -/
theorem headerChunk_depth_colour (uninit : Nat) (st : LoadState)
    (hsize : sizeOutOfBounds st.header = false) :
    (depthSwitch st.header = DepthSwitch.invalid
      ↔ ¬ validPair st.header.depth st.header.colortype)
    ∧ (¬ validPair st.header.depth st.header.colortype →
        (headerChunk uninit st).1 = some ⟨-1⟩)
    ∧ (validPair st.header.depth st.header.colortype → st.header.filter = 0 →
        st.header.compression = 0 → st.header.interlace ≤ 1 →
        (headerChunk uninit st).1 = none) := by
  refine ⟨depthSwitch_invalid_iff st.header, headerChunk_invalid uninit st, ?_⟩
  intro hv hf hc hi
  rw [(headerChunk_valid uninit st hsize hv).1, if_neg]
  omega

set_option maxRecDepth 100000 in
/-- C25, witness: the header of a 1x1 image with the bit depth 16 and the
colour type 3, a pair that PNG does not permit; `Load` returns -1 for the
stream that holds it. -/
theorem headerChunk_depth_colour_witness :
    sizeOutOfBounds (exampleState ⟨1, 1, 16, 3, 0, 0, 0⟩).header = false
    ∧ ((depthSwitch (exampleState ⟨1, 1, 16, 3, 0, 0, 0⟩).header = DepthSwitch.invalid
        ↔ ¬ validPair (exampleState ⟨1, 1, 16, 3, 0, 0, 0⟩).header.depth
            (exampleState ⟨1, 1, 16, 3, 0, 0, 0⟩).header.colortype)
      ∧ (¬ validPair (exampleState ⟨1, 1, 16, 3, 0, 0, 0⟩).header.depth
            (exampleState ⟨1, 1, 16, 3, 0, 0, 0⟩).header.colortype →
          (headerChunk 0 (exampleState ⟨1, 1, 16, 3, 0, 0, 0⟩)).1 = some ⟨-1⟩)
      ∧ (validPair (exampleState ⟨1, 1, 16, 3, 0, 0, 0⟩).header.depth
            (exampleState ⟨1, 1, 16, 3, 0, 0, 0⟩).header.colortype →
          (exampleState ⟨1, 1, 16, 3, 0, 0, 0⟩).header.filter = 0 →
          (exampleState ⟨1, 1, 16, 3, 0, 0, 0⟩).header.compression = 0 →
          (exampleState ⟨1, 1, 16, 3, 0, 0, 0⟩).header.interlace ≤ 1 →
          (headerChunk 0 (exampleState ⟨1, 1, 16, 3, 0, 0, 0⟩)).1 = none))
    ∧ (headerChunk 0 (exampleState ⟨1, 1, 16, 3, 0, 0, 0⟩)).1 = some ⟨-1⟩
    ∧ (Load ⟨streamDepth16Indexed, 0⟩ examplePix 0 util.algorithm.Huffman.new).map
        (fun r => (r.1.error_code, r.2.chunk.forward.pos)) = .ok (-1, 29) :=
  ⟨by decide, headerChunk_depth_colour 0 (exampleState ⟨1, 1, 16, 3, 0, 0, 0⟩) (by decide),
    by decide, by decide⟩

/-- C26, as the code has it: when the header branch of `Load` accepts a header,
the pair (bit depth, colour type) is a permitted one, and for a colour type
other than 3 the branch has called `pix.Create` once, with the width and the
height of the header, the colour mode gray, RGB, gray+alpha or RGBA for the
colour type 0, 2, 4 or 6, and the bit depth of the header when that is 8 or 16
but the bit depth 8 when it is 1, 2 or 4; for the colour type 3 it has not
called `pix.Create`. -/
theorem headerChunk_creates (uninit : Nat) (st : LoadState)
    (hacc : (headerChunk uninit st).1 = none) :
    validPair st.header.depth st.header.colortype
    ∧ (headerChunk uninit st).2.created =
        if st.header.colortype = 3 then st.created
        else (st.header.width, st.header.height,
          (if st.header.depth < 8 then 8 else st.header.depth),
          modeOf st.header.colortype) :: st.created := by
  have hv : validPair st.header.depth st.header.colortype := by
    by_contra hn
    rw [headerChunk_invalid uninit st hn] at hacc
    exact Option.noConfusion hacc
  have hsize : sizeOutOfBounds st.header = false := by
    by_contra hn
    have ht : sizeOutOfBounds st.header = true := by simpa using hn
    unfold headerChunk at hacc
    rw [ht, if_pos rfl] at hacc
    exact Option.noConfusion hacc
  exact ⟨hv, (headerChunk_valid uninit st hsize hv).2⟩

set_option maxRecDepth 100000 in
/-- C26, witness: the header of a 5x7 RGB image of bit depth 16. -/
theorem headerChunk_creates_witness :
    (headerChunk 0 (exampleState ⟨5, 7, 16, 2, 0, 0, 0⟩)).1 = none
    ∧ validPair (exampleState ⟨5, 7, 16, 2, 0, 0, 0⟩).header.depth
        (exampleState ⟨5, 7, 16, 2, 0, 0, 0⟩).header.colortype
    ∧ (headerChunk 0 (exampleState ⟨5, 7, 16, 2, 0, 0, 0⟩)).2.created =
        if (exampleState ⟨5, 7, 16, 2, 0, 0, 0⟩).header.colortype = 3
        then (exampleState ⟨5, 7, 16, 2, 0, 0, 0⟩).created
        else ((exampleState ⟨5, 7, 16, 2, 0, 0, 0⟩).header.width,
          (exampleState ⟨5, 7, 16, 2, 0, 0, 0⟩).header.height,
          (if (exampleState ⟨5, 7, 16, 2, 0, 0, 0⟩).header.depth < 8 then 8
            else (exampleState ⟨5, 7, 16, 2, 0, 0, 0⟩).header.depth),
          modeOf (exampleState ⟨5, 7, 16, 2, 0, 0, 0⟩).header.colortype)
          :: (exampleState ⟨5, 7, 16, 2, 0, 0, 0⟩).created :=
  ⟨by decide, headerChunk_creates 0 (exampleState ⟨5, 7, 16, 2, 0, 0, 0⟩) (by decide)⟩

set_option maxRecDepth 100000 in
/-- C26: for the header of a 5x7 grayscale image of bit depth 1, which `Load`
accepts, the pixel buffer is created with the bit depth 8, not 1; the same for
the bit depths 2 and 4. -/
theorem Load_creates_depth_8_for_depth_1 :
    depthSwitch ⟨5, 7, 1, 0, 0, 0, 0⟩ = DepthSwitch.create 5 7 8 ImageColorMode.MONOCHROME
    ∧ depthSwitch ⟨5, 7, 2, 0, 0, 0, 0⟩ = DepthSwitch.create 5 7 8 ImageColorMode.MONOCHROME
    ∧ depthSwitch ⟨5, 7, 4, 0, 0, 0, 0⟩ = DepthSwitch.create 5 7 8 ImageColorMode.MONOCHROME
    ∧ (Load ⟨streamDepth1, 0⟩ examplePix 0 util.algorithm.Huffman.new).map
        (fun r => (r.1.error_code, r.2.header.depth)) = .ok (0, 1)
    ∧ (Load ⟨streamDepth1, 0⟩ examplePix 0 util.algorithm.Huffman.new).map (fun r => r.2.created)
      = .ok [(5, 7, 8, ImageColorMode.MONOCHROME)] := by
  decide

set_option maxRecDepth 100000 in
/-- C27: `Load` returns the code 0 for the stream `streamNoHeader`, which has
the signature and an `IEND` chunk and no header at all (`needheader` is still
true at the return), and for the stream `streamHeaderSecond`, whose first
chunk is a `gAMA` chunk. A second header chunk is refused: the stream
`streamTwoHeaders` gives -1. -/
theorem Load_accepts_missing_header :
    streamNoHeader
      = [137, 80, 78, 71, 13, 10, 26, 10, 0, 0, 0, 0, 73, 69, 78, 68, 174, 66, 96, 130]
    ∧ (Load ⟨streamNoHeader, 0⟩ examplePix 0 util.algorithm.Huffman.new).map
        (fun r => (r.1.error_code, r.2.needheader, r.2.at_end, r.2.chunk.forward.pos))
      = .ok (0, true, true, 20)
    ∧ (Load ⟨streamHeaderSecond, 0⟩ examplePix 0 util.algorithm.Huffman.new).map
        (fun r => (r.1.error_code, r.2.needheader, r.2.at_end)) = .ok (0, false, true)
    ∧ (Load ⟨streamTwoHeaders, 0⟩ examplePix 0 util.algorithm.Huffman.new).map
        (fun r => (r.1.error_code, r.2.chunk.forward.pos)) = .ok (-1, 41) := by
  decide

set_option maxRecDepth 100000 in
/-- C28: the stream `streamBadCrc` ends with a `gAMA` chunk of length 0 whose
stored CRC is 1E FD 0E B6, while the CRC over its type and (empty) payload is
B2 E1 B7 1F. `Load` consumes the chunk and returns the code 0: it reads the
four bytes after the type as the gamma value without looking at `chunk.len`,
finds the stream at its end, so that `f >> inlong` leaves the CRC of the header
chunk in `inlong`, and the CRC over `gAMA 1E FD 0E B6` is that value. With the
right CRC stored (`streamGoodCrc`) `Load` returns -1. -/
theorem Load_accepts_bad_crc :
    streamBadCrc
      = [137, 80, 78, 71, 13, 10, 26, 10,
          0, 0, 0, 13, 73, 72, 68, 82, 0, 0, 0, 1, 0, 0, 0, 1, 8, 0, 0, 0, 0, 58, 126, 155, 85,
          0, 0, 0, 0, 103, 65, 77, 65, 30, 253, 14, 182]
    ∧ chunkCrc (FourCC "gAMA") [] = 0xB2E1B71F
    ∧ chunkCrc (FourCC "gAMA") [0x1E, 0xFD, 0x0E, 0xB6]
        = chunkCrc (FourCC "IHDR") (ihdrPayload ⟨1, 1, 8, 0, 0, 0, 0⟩)
    ∧ (Load ⟨streamBadCrc, 0⟩ examplePix 0 util.algorithm.Huffman.new).map
        (fun r => (r.1.error_code, r.2.chunk.forward.pos, r.2.inlong, r.2.chunk.crc))
      = .ok (0, 45, 0x3A7E9B55, 0x3A7E9B55)
    ∧ (Load ⟨streamGoodCrc, 0⟩ examplePix 0 util.algorithm.Huffman.new).map
        (fun r => (r.1.error_code, r.2.chunk.forward.pos)) = .ok (-1, 45) := by
  decide

/-! ## The lock of the pixel buffer and the reads of the filters -/

/-- The loop over the lines, started after `r` rows of complete data with one
round more than there are scanlines left, leaves through the `return 0` of the
round that finds no scanline. -/
theorem lineLoop_returns (linedata : List Nat) (head : PNGHeader) (u L pitch H pass : Nat)
    (hu : 0 < u) (hpitch : L ≤ pitch)
    (hlen : linedata.length = H * (1 + L)) (hfit : linedata.length + 1 + L < 2 ^ 32)
    (hft : ∀ r, r < H → linedata.getD (r * (1 + L)) 0 < 5) :
    ∀ k r line m, 1 ≤ r → r ≤ H → r + k = H + 1 →
      ∃ it1 m1, lineLoop linedata linedata.length pitch k ((r - 1) * pitch) (r * pitch)
          ⟨filtermethod, head, u, L, pass, line, r * (1 + L)⟩ m = some (.ret it1 m1) := by
  intro k
  induction k with
  | zero =>
    intro r line m hr hrH hk
    omega
  | succ k ih =>
    intro r line m hr hrH hk
    by_cases hlt : r < H
    · have hend : (r + 1) * (1 + L) ≤ linedata.length := by
        rw [hlen]
        exact Nat.mul_le_mul_right _ (by omega)
      have hB : UpMatches ⟨linedata, r * (1 + L) + 1, L, .pix ((r - 1) * pitch), r * pitch,
          L, u, u, u⟩ (fun i => m.bytes ((r - 1) * pitch + i)) m L := by
        intro s' hfr j pb _ hlt
        have hlt' : j * u + pb < L := hlt
        have er : r * pitch = (r - 1) * pitch + pitch := by
          obtain ⟨q, rfl⟩ : ∃ q, r = q + 1 := ⟨r - 1, by omega⟩
          simp [Nat.succ_mul]
        show s'.bytes ((r - 1) * pitch + (j * u + pb)) = m.bytes ((r - 1) * pitch + (j * u + pb))
        apply hfr
        left
        show (r - 1) * pitch + (j * u + pb) < r * pitch
        omega
      obtain ⟨m', hs, _⟩ := processLine_row
        ⟨filtermethod, head, u, L, pass, line, r * (1 + L)⟩ linedata r
        (.pix ((r - 1) * pitch)) (r * pitch) u _ m rfl hu rfl hend (by omega) (hft r hlt) hB
      have := ih (r + 1) (line + 1) m' (by omega) (by omega) (by omega)
      simp only [lineLoop, hs]
      simpa [Nat.succ_mul] using this
    · have hrH' : r = H := by omega
      subst hrH'
      have h1 : (r * (1 + L) + 1) % 2 ^ 32 = r * (1 + L) + 1 := Nat.mod_eq_of_lt (by omega)
      have h2 : (r * (1 + L) + 1 + L) % 2 ^ 32 = r * (1 + L) + 1 + L :=
        Nat.mod_eq_of_lt (by omega)
      have h3 : r * (1 + L) + 1 + L > linedata.length := by omega
      refine ⟨⟨filtermethod, head, u, L, pass, line, r * (1 + L) + 1⟩, m.load (r * (1 + L)), ?_⟩
      simp only [lineLoop, processLine, h1, h2, h3, if_true]

/-- `InterlaceType::Deinterlace` on the complete data of an image, on a fresh
expander with at least one byte per pixel: the call returns with the pixel
buffer locked once more than before and not unlocked. -/
theorem Deinterlace_complete_locked (head : PNGHeader) (u L : Nat) (linedata : List Nat)
    (pix : PixelBuffer) (hu : 0 < u) (hh : 1 ≤ head.height)
    (hfit : head.height * (1 + L) + 1 + L < 2 ^ 32)
    (hlock : pix.lockok = true) (hpitch : L ≤ pix.pitch)
    (hlen : linedata.length = head.height * (1 + L))
    (hft : ∀ r, r < head.height → linedata.getD (r * (1 + L)) 0 < 5) :
    ∃ it1 pix1, InterlaceType.Deinterlace ⟨filtermethod, head, u, L, 0, 0, 0⟩
        linedata pix = some (it1, pix1) ∧
      pix1.locks = pix.locks + 1 ∧ pix1.unlocks = pix.unlocks := by
  have hfit1 : linedata.length < 2 ^ 32 := by rw [hlen]; omega
  have e1 : head.height * (1 + L) = head.height + head.height * L := by ring
  have c1 : (head.height + head.height * L % 2 ^ 32) % 2 ^ 32 = linedata.length := by
    rw [Nat.mod_eq_of_lt (by omega), Nat.mod_eq_of_lt (by omega), hlen, e1]
  have c2 : linedata.length % 2 ^ 32 = linedata.length := Nat.mod_eq_of_lt hfit1
  have hend : (0 + 1) * (1 + L) ≤ linedata.length := by
    rw [hlen]
    exact Nat.mul_le_mul_right _ (by omega)
  have hB : UpMatches ⟨linedata, 0 * (1 + L) + 1, L, .ext zero, 0, L, u, u, 0⟩
      (fun _ => 0) pix.mem L := by
    intro s' _ j pb _ _
    exact getD_replicate_zero 16 _
  obtain ⟨m1, hs, _⟩ := processLine_row ⟨filtermethod, head, u, L, 0, 0, 0⟩ linedata 0
    (.ext zero) 0 0 _ pix.mem rfl hu (by simp) hend hfit1 (hft 0 (by omega)) hB
  obtain ⟨it2, m2, hfl⟩ := lineLoop_returns linedata head u L pix.pitch head.height 0 hu
    hpitch hlen (by rw [hlen]; exact hfit) hft head.height 1 0 m1 (le_refl _) hh (by omega)
  simp only [Nat.sub_self, Nat.zero_mul, Nat.one_mul] at hfl
  simp only [Nat.zero_add, Nat.one_mul] at hs
  refine ⟨it2, { pix with locks := pix.locks + 1, mem := m2 }, ?_, rfl, rfl⟩
  simp only [InterlaceType.Deinterlace, c1, c2, lt_irrefl, if_false, hlock, if_true, hs,
    Nat.sub_zero, hfl, Bool.true_eq_false]

set_option maxRecDepth 100000 in
/-- C29: `InterlaceType::Deinterlace` on the complete data 00 10 of a 1x1 8-bit
grayscale image, and on the complete data of a 2x2 one, returns with the pixel
buffer locked once and never unlocked: the loop runs once more after the last
scanline and leaves through `if(inpos + linelength > maxlen) return 0;`, which
has no `UnlockWrite`. With one scanline too many (00 10 00 20) the function
reaches its `UnlockWrite`. `InterlaceTypeAdam7::Deinterlace` unlocks the
buffer for the complete data of the 8x8 checkerboard (79 bytes), but not when
the data is cut after 20 bytes, and not for empty data. -/
theorem Deinterlace_returns_locked :
    ((InterlaceType.new filtermethod ⟨1, 1, 8, 0, 0, 0, 0⟩ 0).Deinterlace [0, 0x10]
        ⟨1, true, Mem.fresh, 0, 0⟩).map (fun r => (r.2.locks, r.2.unlocks)) = some (1, 0)
    ∧ ((InterlaceType.new filtermethod ⟨2, 2, 8, 0, 0, 0, 0⟩ 0).Deinterlace [0, 1, 2, 0, 3, 4]
        ⟨2, true, Mem.fresh, 0, 0⟩).map (fun r => (r.2.locks, r.2.unlocks)) = some (1, 0)
    ∧ ((InterlaceType.new filtermethod ⟨1, 1, 8, 0, 0, 0, 0⟩ 0).Deinterlace [0, 0x10, 0, 0x20]
        ⟨1, true, Mem.fresh, 0, 0⟩).map (fun r => (r.2.locks, r.2.unlocks)) = some (1, 1)
    ∧ (InterlaceTypeAdam7.Deinterlace (InterlaceType.new filtermethod ⟨8, 8, 8, 0, 0, 0, 1⟩ 0)
        (adam7Scanlines 8 8 1 checkerboard) ⟨8, true, Mem.fresh, 0, 0⟩).map
        (fun r => (r.2.locks, r.2.unlocks)) = some (1, 1)
    ∧ (InterlaceTypeAdam7.Deinterlace (InterlaceType.new filtermethod ⟨8, 8, 8, 0, 0, 0, 1⟩ 0)
        ((adam7Scanlines 8 8 1 checkerboard).take 20) ⟨8, true, Mem.fresh, 0, 0⟩).map
        (fun r => (r.2.locks, r.2.unlocks)) = some (1, 0)
    ∧ (InterlaceTypeAdam7.Deinterlace (InterlaceType.new filtermethod ⟨8, 8, 8, 0, 0, 0, 1⟩ 0)
        [] ⟨8, true, Mem.fresh, 0, 0⟩).map
        (fun r => (r.2.locks, r.2.unlocks)) = some (1, 0) := by
  decide

set_option maxRecDepth 100000 in
/-- C30: with `inbuffersize = 1` and `pixelwidth = 2` each of the five
`ProcessScanlineR` functions reads `inbuffer[0]` and `inbuffer[1]` (the log
lists the latest read first) and stores the byte 20 found at index 1; with
`inbuffersize = 0` and `pixelwidth = 1` the functions of Sub, Average and
Paeth read `inbuffer[0]` in their loop for the first pixel, which does not look
at `inbuffersize`. -/
theorem ProcessScanlineR_reads_past_inbuffersize :
    (FilterType.ProcessScanlineR ⟨[0x10, 0x20], 0, 1, .ext [0, 0], 0, 2, 2, 2, 2⟩
        Mem.fresh).map (fun m => (m.reads, m.bytes 1)) = some ([1, 0], 0x20)
    ∧ (FilterTypeSub.ProcessScanlineR ⟨[0x10, 0x20], 0, 1, .ext [0, 0], 0, 2, 2, 2, 2⟩
        Mem.fresh).map (fun m => (m.reads, m.bytes 1)) = some ([1, 0], 0x20)
    ∧ (FilterTypeUp.ProcessScanlineR ⟨[0x10, 0x20], 0, 1, .ext [0, 0], 0, 2, 2, 2, 2⟩
        Mem.fresh).map (fun m => (m.reads, m.bytes 1)) = some ([1, 0], 0x20)
    ∧ (FilterTypeAverage.ProcessScanlineR ⟨[0x10, 0x20], 0, 1, .ext [0, 0], 0, 2, 2, 2, 2⟩
        Mem.fresh).map (fun m => (m.reads, m.bytes 1)) = some ([1, 0], 0x20)
    ∧ (FilterTypePaeth.ProcessScanlineR ⟨[0x10, 0x20], 0, 1, .ext [0, 0], 0, 2, 2, 2, 2⟩
        Mem.fresh).map (fun m => (m.reads, m.bytes 1)) = some ([1, 0], 0x20)
    ∧ (FilterTypeSub.ProcessScanlineR ⟨[0x10], 0, 0, .ext [0], 0, 1, 1, 1, 1⟩
        Mem.fresh).map (fun m => (m.reads, m.bytes 0)) = some ([0], 0x10)
    ∧ (FilterTypeAverage.ProcessScanlineR ⟨[0x10], 0, 0, .ext [0], 0, 1, 1, 1, 1⟩
        Mem.fresh).map (fun m => (m.reads, m.bytes 0)) = some ([0], 0x10)
    ∧ (FilterTypePaeth.ProcessScanlineR ⟨[0x10], 0, 0, .ext [0], 0, 1, 1, 1, 1⟩
        Mem.fresh).map (fun m => (m.reads, m.bytes 0)) = some ([0], 0x10) := by
  decide

end trillek.png

namespace trillek.util.algorithm

/-! ## The code-length buffer of `DynamicBlock` -/

/-- A call `GetBits(n)` with `n < 32` returns, and its value has `n` bits. -/
theorem GetBits_total (s : BitStreamDecoder) (n : Nat) (hn : n < 32) :
    ∃ r s1, s.GetBits n = .ok (r, s1) ∧ r.value < 2 ^ n := by
  unfold BitStreamDecoder.GetBits
  rw [if_neg (by omega)]
  generalize (if s.num_bits < n then s.LoadFull else (⟨0⟩, s)) = p
  dsimp only
  split_ifs with h1 h2
  · exact ⟨_, _, rfl, Nat.two_pow_pos n⟩
  · omega
  · refine ⟨_, _, rfl, ?_⟩
    show _ &&& (1 <<< n - 1) < 2 ^ n
    rw [Nat.one_shiftLeft]
    exact Nat.lt_of_le_of_lt Nat.and_le_right (Nat.sub_lt (Nat.two_pow_pos n) Nat.one_pos)

/-- The loop of `Require(n)` for `n <= 24` ends: every round that goes on
has loaded a byte. -/
theorem requireLoop_total (n : Nat) (hn : n ≤ 24) :
    ∀ (fuel : Nat) (s : BitStreamDecoder), (n - s.num_bits + 7) / 8 < fuel →
      ∃ r, BitStreamDecoder.requireLoop n fuel s = some r := by
  intro fuel
  induction fuel with
  | zero => intro s h; omega
  | succ fuel ih =>
    intro s h
    unfold BitStreamDecoder.requireLoop
    by_cases c : s.num_bits < n
    · rw [if_pos c]
      dsimp only
      by_cases e : s.LoadByte.1.error_code ≠ 0
      · rw [if_pos e]
        exact ⟨_, rfl⟩
      · rw [if_neg e]
        apply ih
        have h24 : s.num_bits ≤ 24 := by omega
        unfold BitStreamDecoder.LoadByte at e ⊢
        rw [if_pos h24] at e ⊢
        split_ifs at e ⊢ with c1 c2
        all_goals first
          | (exfalso; simp at e; done)
          | (show (n - (s.num_bits + 8) % 2 ^ 32 + 7) / 8 < fuel
             rw [Nat.mod_eq_of_lt (by omega)]
             omega)
    · rw [if_neg c]
      exact ⟨_, rfl⟩

/-- A call `GetBits(n)` with `n` other than 32 returns. -/
theorem GetBits_returns (s : BitStreamDecoder) (n : Nat) (hn : n ≠ 32) :
    ∃ r, s.GetBits n = .ok r := by
  unfold BitStreamDecoder.GetBits
  generalize (if s.num_bits < n then s.LoadFull else (⟨0⟩, s)) = p
  dsimp only
  split_ifs <;> exact ⟨_, rfl⟩

/-- The call `Require(n)` returns for `n <= 24`. -/
theorem Require_total (s : BitStreamDecoder) (n : Nat) (hn : n ≤ 24) :
    ∃ r, s.Require n = .ok r := by
  obtain ⟨r, hr⟩ := requireLoop_total n hn 5 s (by omega)
  refine ⟨r, ?_⟩
  unfold BitStreamDecoder.Require
  simp only [show ¬ (n > 24) by omega, if_false, false_and, hr]

/-- The search for the length of a code stops at 16 at the latest. -/
theorem searchCode_le (z : Huffman) (k : Nat) :
    ∀ fuel codesize, codesize ≤ 16 → searchCode z k fuel codesize ≤ 16 := by
  intro fuel
  induction fuel with
  | zero => intro c h; exact h
  | succ fuel ih =>
    intro c h
    unfold searchCode
    split_ifs with h1
    · exact ih _ (by omega)
    · exact h

/-- `HuffmanDecode` returns for every table that holds no length 32. -/
theorem HuffmanDecode_total (z : Huffman) (hz : ∀ b, z.size b ≠ 32) (s : BitStreamDecoder) :
    ∃ r, Inflate.HuffmanDecode s z = .ok r := by
  unfold Inflate.HuffmanDecode
  obtain ⟨⟨st, s1⟩, e⟩ := Require_total s 16 (by omega)
  rw [e]
  dsimp only
  have hle := searchCode_le z (BitReverse s1.bit_buffer 16) 7 10 (by omega)
  obtain ⟨r1, er1⟩ := GetBits_returns s1 (z.size (z.fast (s1.bit_buffer &&& 0x1FF))) (hz _)
  split_ifs with h1 h2 h3 h4 h5 h6
  all_goals first
    | exact ⟨_, rfl⟩
    | (rw [er1]; exact ⟨_, rfl⟩)
    | (obtain ⟨r2, er2⟩ := GetBits_returns s1 (searchCode z (BitReverse s1.bit_buffer 16) 7 10)
        (by omega)
       rw [er2]
       exact ⟨_, rfl⟩)

/-- The loop over the code lengths, entered with `n = 0`: when the first
symbol decoded is the repeat symbol 16, the statement
`n_memarrayset(lencodes, n, lencodes[n - 1], c)` reads `lencodes[n - 1]` with
`n - 1 = 2 ^ 32 - 1` in `uint32_t`, outside the 455 elements. -/
theorem lengthsLoop_repeat_first (z : Huffman) (total fuel : Nat) (t : LengthsState)
    (r : ErrorReturn) (s1 : BitStreamDecoder) (hn : t.n = 0) (ht : 0 < total)
    (hd : Inflate.HuffmanDecode t.instream z = .ok (r, s1)) (he : r.error_code = 0)
    (hc : r.value % 2 ^ 16 = 16) :
    lengthsLoop z total (fuel + 1) t = .error .undefined := by
  obtain ⟨⟨g, s2⟩, eg⟩ := GetBits_returns s1 2 (by omega)
  unfold lengthsLoop
  rw [if_pos (by omega), hd]
  simp only [he, hc, ne_eq, not_true_eq_false, if_false, if_true, eg, hn]
  norm_num

/-- The loop over the code lengths after its first round: with `n >= 1` and a
bound of at most 455, no round accesses `lencodes` outside its 455 elements. -/
theorem lengthsLoop_defined (z : Huffman) (hz : ∀ b, z.size b ≠ 32) (total : Nat)
    (ht : total ≤ 455) :
    ∀ (fuel : Nat) (t : LengthsState), 1 ≤ t.n →
      lengthsLoop z total fuel t ≠ .error .undefined := by
  intro fuel
  induction fuel with
  | zero =>
    intro t _ h
    unfold lengthsLoop at h
    cases h
  | succ fuel ih =>
    intro t hn
    unfold lengthsLoop
    by_cases c0 : t.n < total
    · rw [if_pos c0]
      obtain ⟨⟨r, s1⟩, e⟩ := HuffmanDecode_total z hz t.instream
      rw [e]
      dsimp only
      by_cases c1 : r.error_code ≠ 0
      · rw [if_pos c1]
        exact fun h => Except.noConfusion h
      rw [if_neg c1]
      by_cases c2 : ¬ (r.value % 2 ^ 16 < 19)
      · rw [if_pos c2]
        exact fun h => Except.noConfusion h
      rw [if_neg c2]
      by_cases c3 : r.value % 2 ^ 16 < 16
      · rw [if_pos c3, if_neg (by omega)]
        apply ih
        show 1 ≤ (t.n + 1) % 2 ^ 32
        rw [Nat.mod_eq_of_lt (by omega)]
        omega
      · rw [if_neg c3]
        obtain ⟨g, s2, eg, hg⟩ := GetBits_total s1
          (if r.value % 2 ^ 16 = 16 then 2 else if r.value % 2 ^ 16 = 17 then 3 else 7)
          (by split_ifs <;> omega)
        rw [eg]
        dsimp only
        have hprev : (t.n + 2 ^ 32 - 1) % 2 ^ 32 = t.n - 1 := by omega
        rw [if_neg (by rw [hprev]; omega)]
        apply ih
        have hg7 : g.value < 2 ^ 7 := by
          refine lt_of_lt_of_le hg (Nat.pow_le_pow_right (by omega) ?_)
          split_ifs <;> omega
        show 1 ≤ (t.n + (g.value + (if r.value % 2 ^ 16 = 18 then 11 else 3)) % 2 ^ 16) % 2 ^ 32
        have h128 : g.value < 128 := hg7
        have : (g.value + (if r.value % 2 ^ 16 = 18 then 11 else 3)) % 2 ^ 16
            = g.value + (if r.value % 2 ^ 16 = 18 then 11 else 3) := by
          apply Nat.mod_eq_of_lt
          split_ifs <;> omega
        rw [this, Nat.mod_eq_of_lt (by split_ifs <;> omega)]
        omega
    · rw [if_neg c0]
      exact fun h => Except.noConfusion h

end trillek.util.algorithm
